import Mathlib

/-!
Node Studio: graph model, scheduler and noise generator.

A shallow embedding of `src/app.js` (graph CRUD, `createsCycle`, `computeGraph`),
`src/perlin.js` (`xorshift32`, `createRNG`, the permutation table of `createPerlin`,
`noise2D`) and `src/nodes.js` (the pixel loops of the nodes PerlinNoise and Combine).

Conventions of the embedding.

* A JavaScript `Map` is an insertion-ordered association list `List (String × V)`;
  a real `Map` has pairwise distinct keys (`keysNodup`).
* `uid(prefix)` draws from `Math.random`; the drawn identifier is an explicit argument
  `newId` of `addNode` and `addEdge`.
* A JavaScript number held in a node field is a rational (every finite double is one).
* DOM work (`save`, `renderAll`, `renderWires`, `scheduleCompute`, `setSelection`,
  `updateNodePreview`) does not touch `nodes`, `edges` or `outputs` and is left out.
* The two `while` loops of the source take a fuel argument; `fuelOut` is the only result
  that does not exist in the source, and `createsCycle_ne_fuelOut` and `kahnLoop_inv` show
  that the fuel handed over by the callers is never exhausted.
* The catalog of compute functions is a parameter of `computeGraph`: the functions of
  `src/nodes.js` draw on canvases, and the scheduler only needs to know whether a call
  resolved and to what.
* The two floating-point operations of `src/perlin.js` that feed integer decisions, the
  division by `0xffffffff` and the product with `i + 1`, are computed exactly: `roundDouble`
  is round-to-nearest-even to 53 significant bits on integers.
* The pixel arithmetic of `noise2D` and of the two nodes is carried out on `Dbl`, a double
  written `num / 2 ^ exp`; every operation rounds its exact result through `roundInt`.
  `Math.pow` is a parameter of the model, except for the exponent 1.
* A canvas as `getImageData` reads it is a `Raster`: width, height and the RGBA samples.
* The formulas of the Combine node are written twice besides the code: in exact rational
  arithmetic, as the spec writes them (`exactScaled`), and in double arithmetic with the
  fraction dropped (`doubleSample`), which is what the code is proved to compute.
-/

namespace NodeStudio

/-! ## JavaScript `Map` as an association list -/

/-- The call `m.has(k)`. -/
def mapHas {V : Type} (m : List (String × V)) (k : String) : Bool :=
  m.any (fun p => p.1 == k)

/-- The call `m.get(k)`; `none` stands for `undefined`. -/
def mapGet {V : Type} (m : List (String × V)) (k : String) : Option V :=
  (m.find? (fun p => p.1 == k)).map (fun p => p.2)

/-- The call `m.set(k, v)`: an existing key keeps its position, a new key goes last. -/
def mapSet {V : Type} (m : List (String × V)) (k : String) (v : V) : List (String × V) :=
  if mapHas m k then m.map (fun p => if p.1 == k then (p.1, v) else p) else m ++ [(k, v)]

/-- The call `m.delete(k)`. -/
def mapDelete {V : Type} (m : List (String × V)) (k : String) : List (String × V) :=
  m.filter (fun p => !(p.1 == k))

/-- The array `[...m.keys()]`. -/
def mapKeys {V : Type} (m : List (String × V)) : List String := m.map (fun p => p.1)

/-- The array `[...m.values()]`. -/
def mapValues {V : Type} (m : List (String × V)) : List V := m.map (fun p => p.2)

/-- The keys of a `Map` are pairwise distinct. -/
def keysNodup {V : Type} (m : List (String × V)) : Prop := (mapKeys m).Nodup

/-- What a call can do: return a value, throw, or (model only) exhaust its fuel. -/
inductive Outcome (α : Type) where
  | ret (a : α)
  | throws
  | fuelOut
deriving DecidableEq, Repr

/-! ## Data model (`src/app.js` lines 23-24, `src/nodes.js` `defaultParams`) -/

/-- An edge endpoint `{ nodeId, port }`. -/
structure Endpoint where
  nodeId : String
  port : String
deriving DecidableEq, Repr

/-- An edge `{ id, from: {nodeId, port}, to: {nodeId, port} }`
(the fields `from` and `to` are spelled `src` and `dst`: both words are reserved). -/
structure Edge where
  id : String
  src : Endpoint
  dst : Endpoint
deriving DecidableEq, Repr

/-- The parameter records built by the five `defaultParams` of `NodeCatalog`. -/
inductive Params where
  | createImage (width height : ℚ) (color : String)
  | gradient (width height : ℚ) (direction color1 color2 : String)
  | perlinNoise (width height scale octaves seed contrast : ℚ)
  | combine (mode : String) (alpha : ℚ)
  | display

/-- A node `{ id, type, x, y, params }`. -/
structure Node where
  id : String
  type : String
  x : ℚ
  y : ℚ
  params : Params

/-- The module state `nodes`, `edges`. -/
structure Graph where
  nodes : List (String × Node)
  edges : List (String × Edge)

/-- The state at module load, before any call. -/
def Graph.empty : Graph := ⟨[], []⟩

/-- The call `NodeCatalog[type].defaultParams()`; `none` when `NodeCatalog[type]` has no
`defaultParams` (the call then throws a `TypeError`). The scale is the double written
`0.02`. -/
def defaultParams (type : String) : Option Params :=
  if type = "CreateImage" then some (Params.createImage 256 256 "#8b5cf6")
  else if type = "Gradient" then
    some (Params.gradient 256 256 "horizontal" "#0ea5e9" "#8b5cf6")
  else if type = "PerlinNoise" then
    some (Params.perlinNoise 256 256 (5764607523034235 / 288230376151711744) 4 1337 1)
  else if type = "Combine" then some (Params.combine "multiply" 1)
  else if type = "Display" then some Params.display
  else none

/-! ## Node/Edge CRUD (`src/app.js` lines 57-115) -/

/-- The call `addNode(type, x, y)` with `newId` the value of `uid('node')`: returns the new state and
the returned id, or throws (state untouched) when the catalog lookup fails. -/
def addNode (g : Graph) (newId type : String) (x y : ℚ) : Graph × Outcome String :=
  match defaultParams type with
  | none => (g, Outcome.throws)
  | some ps =>
    ({ g with nodes := mapSet g.nodes newId ⟨newId, type, x, y, ps⟩ }, Outcome.ret newId)

/-- The call `removeNode(id)`: `nodes.delete(id)`, then every edge of the snapshot `[...edges]` that
touches `id` is deleted by key. -/
def removeNode (g : Graph) (id : String) : Graph :=
  { nodes := mapDelete g.nodes id
    edges := g.edges.foldl
      (fun acc p =>
        if p.2.src.nodeId = id ∨ p.2.dst.nodeId = id then mapDelete acc p.1 else acc)
      g.edges }

/-- The call `removeEdge(id)`. -/
def removeEdge (g : Graph) (id : String) : Graph :=
  { g with edges := mapDelete g.edges id }

/-- The call `adj.get(k).push(x)`: `none` when `adj.get(k)` is `undefined` (a `TypeError`). -/
def adjPush {V : Type} (adj : List (String × List V)) (k : String) (x : V) :
    Option (List (String × List V)) :=
  if mapHas adj k then
    some (adj.map (fun p => if p.1 == k then (p.1, p.2 ++ [x]) else p))
  else none

/-- Lines 99-101 of `createsCycle`: one empty list per node, then every edge pushed on its
source's list; `none` when some edge's source is not a node. -/
def buildAdj (g : Graph) : Option (List (String × List String)) :=
  (mapValues g.edges).foldlM (fun adj e => adjPush adj e.src.nodeId e.dst.nodeId)
    (g.nodes.map (fun p => (p.1, ([] : List String))))

/-- The `while (stack.length)` loop of `createsCycle`. The head of `stack` is the top of the
JavaScript array; `none` means the fuel ran out. -/
def dfsLoop (adj : List (String × List String)) (srcNodeId : String) :
    Nat → List String → List String → Option Bool
  | _, _, [] => some false
  | 0, _, _ :: _ => none
  | fuel + 1, seen, v :: stack =>
    if v = srcNodeId then some true
    else if v ∈ seen then dfsLoop adj srcNodeId fuel seen stack
    else dfsLoop adj srcNodeId fuel (v :: seen) (((mapGet adj v).getD []).reverse ++ stack)

/-- Number of loop iterations that can still push: one per stacked entry plus the successor
lists of the keys not yet seen. -/
def dfsMeasure (adj : List (String × List String)) (seen stack : List String) : Nat :=
  stack.length + ((adj.filter (fun p => decide (p.1 ∉ seen))).map (fun p => p.2.length)).sum

/-- The call `createsCycle(srcNodeId, dstNodeId)`: the adjacency table of lines 99-104, then
the search from `dstNodeId`; it throws when building the table throws. -/
def createsCycle (g : Graph) (srcNodeId dstNodeId : String) : Outcome Bool :=
  match buildAdj g with
  | none => Outcome.throws
  | some adj0 =>
    let adj1 := if mapHas adj0 srcNodeId then adj0 else mapSet adj0 srcNodeId []
    match adjPush adj1 srcNodeId dstNodeId with
    | none => Outcome.throws
    | some adj =>
      match dfsLoop adj srcNodeId (dfsMeasure adj [] [dstNodeId]) [] [dstNodeId] with
      | none => Outcome.fuelOut
      | some b => Outcome.ret b

/-- The edge `{ id, from: { nodeId, port }, to: { nodeId, port } }` of line 85. -/
def newEdge (newId fromNodeId fromPort toNodeId toPort : String) : Edge :=
  Edge.mk newId (Endpoint.mk fromNodeId fromPort) (Endpoint.mk toNodeId toPort)

/-- How a call of `addEdge` ends. -/
inductive AddEdgeResult where
  | selfLoop
  | cycleRejected
  | committed
  | threw
  | fuelOut
deriving DecidableEq, Repr

/-- The loop of lines 79-81: every edge bound to `(toNodeId, toPort)` is deleted by key. -/
def unbindInput (edges : List (String × Edge)) (toNodeId toPort : String) :
    List (String × Edge) :=
  edges.foldl
    (fun acc p =>
      if p.2.dst.nodeId = toNodeId ∧ p.2.dst.port = toPort then mapDelete acc p.1 else acc)
    edges

/-- The call `addEdge(fromNodeId, fromPort, toNodeId, toPort)` with `newId` the value of
`uid('edge')`. The state is returned together with the way the call ended; the state of a
call that threw is the state at the moment of the throw. -/
def addEdge (g : Graph) (newId fromNodeId fromPort toNodeId toPort : String) :
    Graph × AddEdgeResult :=
  if fromNodeId = toNodeId then (g, AddEdgeResult.selfLoop)
  else
    let g1 : Graph := { g with edges := unbindInput g.edges toNodeId toPort }
    match createsCycle g1 fromNodeId toNodeId with
    | Outcome.throws => (g1, AddEdgeResult.threw)
    | Outcome.fuelOut => (g1, AddEdgeResult.fuelOut)
    | Outcome.ret true => (g1, AddEdgeResult.cycleRejected)
    | Outcome.ret false =>
      let e := newEdge newId fromNodeId fromPort toNodeId toPort
      ({ g1 with edges := mapSet g1.edges newId e }, AddEdgeResult.committed)

/-! ## Graph predicates -/

/-- There is an edge from node `u` to node `v`. -/
def edgeRel (g : Graph) (u v : String) : Prop :=
  ∃ p ∈ g.edges, p.2.src.nodeId = u ∧ p.2.dst.nodeId = v

/-- The edge set contains no directed cycle. -/
def Acyclic (g : Graph) : Prop := ∀ v, ¬ Relation.TransGen (edgeRel g) v v

/-- No dangling edge: both endpoints of every edge are nodes. -/
def NoDangling (g : Graph) : Prop :=
  ∀ p ∈ g.edges, mapHas g.nodes p.2.src.nodeId = true ∧ mapHas g.nodes p.2.dst.nodeId = true

/-- Both tables are real `Map`s. -/
def Graph.WF (g : Graph) : Prop := keysNodup g.nodes ∧ keysNodup g.edges

/-- The states the four CRUD calls can produce from the empty graph, whatever their
arguments and whatever `uid` returns. -/
inductive Reachable : Graph → Prop where
  | empty : Reachable Graph.empty
  | addNode (g : Graph) (newId type : String) (x y : ℚ) :
      Reachable g → Reachable (addNode g newId type x y).1
  | removeNode (g : Graph) (id : String) : Reachable g → Reachable (removeNode g id)
  | addEdge (g : Graph) (newId fromNodeId fromPort toNodeId toPort : String) :
      Reachable g → Reachable (addEdge g newId fromNodeId fromPort toNodeId toPort).1
  | removeEdge (g : Graph) (id : String) : Reachable g → Reachable (removeEdge g id)

/-- The states the four CRUD calls can produce from the empty graph when every `addEdge`
call names two nodes that are present at the time of the call. -/
inductive ReachableWired : Graph → Prop where
  | empty : ReachableWired Graph.empty
  | addNode (g : Graph) (newId type : String) (x y : ℚ) :
      ReachableWired g → ReachableWired (addNode g newId type x y).1
  | removeNode (g : Graph) (id : String) : ReachableWired g → ReachableWired (removeNode g id)
  | addEdge (g : Graph) (newId fromNodeId fromPort toNodeId toPort : String) :
      ReachableWired g → mapHas g.nodes fromNodeId = true → mapHas g.nodes toNodeId = true →
      ReachableWired (addEdge g newId fromNodeId fromPort toNodeId toPort).1
  | removeEdge (g : Graph) (id : String) : ReachableWired g → ReachableWired (removeEdge g id)

/-- Successor relation read off an adjacency table. -/
def adjRel (adj : List (String × List String)) (u w : String) : Prop :=
  w ∈ (mapGet adj u).getD []

/-- Targets of the edges that leave node `k`, in edge order. -/
def edgesFrom (es : List Edge) (k : String) : List String :=
  (es.filter (fun e => e.src.nodeId == k)).map (fun e => e.dst.nodeId)

/-! ## Scheduler (`src/app.js` lines 304-344) -/

/-- Lines 310-311 of `computeGraph` for one edge: it is pushed on the list of its
destination in `inEdgesByNode` and on the list of its source in `outEdgesByNode`; `none`
when a lookup yields `undefined` (a `TypeError`). The state is the pair of the tables. -/
def tableStep (t : List (String × List Edge) × List (String × List Edge)) (e : Edge) :
    Option (List (String × List Edge) × List (String × List Edge)) :=
  match adjPush t.1 e.dst.nodeId e with
  | none => none
  | some i =>
    match adjPush t.2 e.src.nodeId e with
    | none => none
    | some o => some (i, o)

/-- Lines 306-312 of `computeGraph`: both tables start with one empty list per node, then
every edge is entered. -/
def buildEdgeTables (g : Graph) :
    Option (List (String × List Edge) × List (String × List Edge)) :=
  (mapValues g.edges).foldlM tableStep
    (g.nodes.map (fun p => (p.1, ([] : List Edge))), g.nodes.map (fun p => (p.1, ([] : List Edge))))

/-- Number of edges of `es` that end at `w`. -/
def cntTo (es : List Edge) (w : String) : Nat :=
  es.countP (fun e => e.dst.nodeId == w)

/-- Number of edges into `w` whose source is not in `order` yet. -/
def pending (g : Graph) (order : List String) (w : String) : Nat :=
  (mapValues g.edges).countP (fun e => decide (e.dst.nodeId = w ∧ e.src.nodeId ∉ order))

/-- Loop invariant of Kahn's algorithm: the in-degree table counts the incoming edges whose
source has not been processed; processed and queued nodes are distinct nodes, and they are
exactly the nodes whose count is zero; every processed node comes after the sources of all
its incoming edges. -/
structure KahnInv (g : Graph) (indeg : List (String × Option Int)) (q order : List String) :
    Prop where
  indeg_eq : ∀ w ∈ mapKeys g.nodes, mapGet indeg w = some (some (pending g order w : Int))
  nodup : (order ++ q).Nodup
  sub : ∀ w ∈ order ++ q, w ∈ mapKeys g.nodes
  zero : ∀ w ∈ mapKeys g.nodes, (w ∈ order ++ q ↔ pending g order w = 0)
  before : ∀ l1 w l2, order = l1 ++ w :: l2 →
    ∀ e ∈ mapValues g.edges, e.dst.nodeId = w → e.src.nodeId ∈ l1

/-- Line 314: `[id, inEdgesByNode.get(id).length]` for every node id. An in-degree is a
JavaScript number: `some n` is the integer `n` and `none` is `NaN`. -/
def initIndeg (nodes : List (String × Node)) (inEdgesByNode : List (String × List Edge)) :
    Option (List (String × Option Int)) :=
  nodes.mapM (fun p =>
    match mapGet inEdgesByNode p.1 with
    | none => none
    | some l => some (p.1, some (l.length : Int)))

/-- Lines 320-321 for one outgoing edge: `indeg.set(w, indeg.get(w) - 1)`, then `w` is queued
when `indeg.get(w) === 0`. The state is the pair of `indeg` and the queue `q`. -/
def kahnRelax (st : List (String × Option Int) × List String) (e : Edge) :
    List (String × Option Int) × List String :=
  let w := e.dst.nodeId
  let dec : Option Int :=
    match mapGet st.1 w with
    | some (some n) => some (n - 1)
    | _ => none
  let indeg := mapSet st.1 w dec
  if mapGet indeg w = some (some 0) then (indeg, st.2 ++ [w]) else (indeg, st.2)

/-- The `while (q.length)` loop of lines 317-323. The head of `q` is the front of the queue
(`q.shift()`), new entries go to the back (`q.push(w)`). -/
def kahnLoop (outEdgesByNode : List (String × List Edge)) :
    Nat → List (String × Option Int) → List String → List String → Outcome (List String)
  | _, _, [], order => Outcome.ret order
  | 0, _, _ :: _, _ => Outcome.fuelOut
  | fuel + 1, indeg, v :: q, order =>
    match mapGet outEdgesByNode v with
    | none => Outcome.throws
    | some es =>
      let st := es.foldl kahnRelax (indeg, q)
      kahnLoop outEdgesByNode fuel st.1 st.2 (order ++ [v])

/-- Lines 306-323 of `computeGraph`: the order produced by Kahn's algorithm. -/
def kahnOrder (g : Graph) : Outcome (List String) :=
  match buildEdgeTables g with
  | none => Outcome.throws
  | some (inEdgesByNode, outEdgesByNode) =>
    match initIndeg g.nodes inEdgesByNode with
    | none => Outcome.throws
    | some indeg =>
      let q := (mapKeys g.nodes).filter (fun id => decide (mapGet indeg id = some (some 0)))
      kahnLoop outEdgesByNode g.nodes.length indeg q []

/-- One `await def.compute(node.params, inputMap)`: the node, the input map it was given
(`none` is the empty object `{}` bound to a port) and what came back (`none`: the call threw
or its promise was rejected). -/
structure Call (O : Type) where
  nodeId : String
  inputs : List (String × Option O)
  result : Option O
deriving DecidableEq

/-- What one pass of `computeGraph` did: the compute calls in the order they were made, and
the table `outputs` at the end of the pass. -/
structure Pass (O : Type) where
  calls : List (Call O)
  outputs : List (String × O)
deriving DecidableEq

/-- Lines 330-334: `inputMap[e.to.port] = outputs.get(e.from.nodeId) || {}` for every
incoming edge, in order. -/
def gatherInputs {O : Type} (outputs : List (String × O)) (ins : List Edge) :
    List (String × Option O) :=
  ins.foldl (fun m e => mapSet m e.dst.port (mapGet outputs e.src.nodeId)) []

/-- The body of the loop of lines 328-343 for node `id`. The catalog is a parameter:
`catalog type` is `NodeCatalog[type].compute` (`none` when there is no such function, in
which case the `TypeError` is caught by the `try`), and a compute function answers `none`
when it throws or rejects. The result is `none` when the body throws outside the `try`. -/
def evalNode {O : Type}
    (catalog : String → Option (Params → List (String × Option O) → Option O))
    (g : Graph) (inEdgesByNode : List (String × List Edge)) (st : Pass O) (id : String) :
    Option (Pass O) :=
  match mapGet g.nodes id with
  | none => none
  | some node =>
    match mapGet inEdgesByNode id with
    | none => none
    | some ins =>
      let inputMap := gatherInputs st.outputs ins
      match catalog node.type with
      | none => some st
      | some compute =>
        match compute node.params inputMap with
        | none => some { st with calls := st.calls ++ [Call.mk id inputMap none] }
        | some out =>
          some { calls := st.calls ++ [Call.mk id inputMap (some out)]
                 outputs := mapSet st.outputs id out }

/-- The call `computeGraph()`: the tables, Kahn's order, the cycle guard of line 325 and the
evaluation loop. Values of type `O` are the objects that compute functions resolve to. -/
def computeGraph {O : Type}
    (catalog : String → Option (Params → List (String × Option O) → Option O))
    (g : Graph) : Outcome (Pass O) :=
  match buildEdgeTables g with
  | none => Outcome.throws
  | some (inEdgesByNode, _) =>
    match kahnOrder g with
    | Outcome.throws => Outcome.throws
    | Outcome.fuelOut => Outcome.fuelOut
    | Outcome.ret order =>
      if order.length ≠ g.nodes.length then Outcome.ret (Pass.mk [] [])
      else
        match order.foldlM (evalNode catalog g inEdgesByNode) (Pass.mk [] []) with
        | none => Outcome.throws
        | some pass => Outcome.ret pass

/-- Edges that end at node `k`, in edge order. -/
def inEdges (g : Graph) (k : String) : List Edge :=
  (mapValues g.edges).filter (fun e => e.dst.nodeId == k)

/-- Edges that leave node `k`, in edge order. -/
def outEdges (g : Graph) (k : String) : List Edge :=
  (mapValues g.edges).filter (fun e => e.src.nodeId == k)

/-- Invariant of the evaluation loop after the nodes of `done` have been visited. -/
structure EvalInv {O : Type}
    (catalog : String → Option (Params → List (String × Option O) → Option O))
    (g : Graph) (st : Pass O) (done : List String) : Prop where
  ids : st.calls.map Call.nodeId = done
  results : ∀ c ∈ st.calls, ∃ node compute, mapGet g.nodes c.nodeId = some node ∧
    catalog node.type = some compute ∧ c.result = compute node.params c.inputs
  inputs : ∀ c ∈ st.calls, c.inputs = gatherInputs st.outputs (inEdges g c.nodeId)
  stored : ∀ c ∈ st.calls, mapGet st.outputs c.nodeId = c.result
  keys : ∀ k, mapHas st.outputs k = true → k ∈ done

/-! ## Noise generator (`src/perlin.js`) -/

/-- The conversion `ToUint32`: the 32-bit pattern of an integer-valued number. -/
def toUint32 (x : Int) : Nat := (x % 4294967296).toNat

/-- The call `xorshift32(x)`. The bitwise operators work on the 32-bit pattern of `x`: `<<` drops the
bits shifted out, `>>>` shifts the unsigned pattern, and `x >>> 0` returns the pattern as an
unsigned number. -/
def xorshift32 (x : Int) : Nat :=
  let x0 : Int := if x = 0 then 0xdeadbeef else x
  let a := toUint32 x0
  let b := a ^^^ ((a <<< 13) % 4294967296)
  let c := b ^^^ (b >>> 17)
  c ^^^ ((c <<< 5) % 4294967296)

/-- The variable `s` of `createRNG(seed)` after `n` calls of the returned generator. -/
def rngState (seed : Int) : Nat → Nat
  | 0 => xorshift32 seed
  | n + 1 => xorshift32 (rngState seed n)

/-- Number of binary digits of `n`, by halving (`fuel` bounds the number of halvings). -/
def bitLength : Nat → Nat → Nat
  | 0, _ => 0
  | fuel + 1, n => if n = 0 then 0 else bitLength fuel (n / 2) + 1

/-- Position of the leading binary digit of a positive `n`. -/
def log2Floor (n : Nat) : Nat := bitLength n n - 1

/-- The binary64 number nearest to `num / den`, ties to even, for a quotient in the normal
range below `2 ^ 53`: the pair `(m, k)` stands for `m / 2 ^ k`, with `2 ^ 52 ≤ m ≤ 2 ^ 53`
(and `(0, 0)` for zero). This is the IEEE 754 rounding that JavaScript applies to the exact
result of `/` and `*`. -/
def roundDouble (num den : Nat) : Nat × Nat :=
  if num = 0 then (0, 0)
  else
    let k0 := 52 + log2Floor den - log2Floor num
    let k := if num * 2 ^ k0 < den * 2 ^ 52 then k0 + 1 else k0
    let q := (num * 2 ^ k) / den
    let r := (num * 2 ^ k) % den
    let m := if den < 2 * r ∨ (2 * r = den ∧ q % 2 = 1) then q + 1 else q
    (m, k)

/-- The rational value of a pair `(m, k)`. -/
def doubleValue (d : Nat × Nat) : ℚ := (d.1 : ℚ) / 2 ^ d.2

/-- The value returned by call number `n` (counted from 1) of `createRNG(seed)`:
`(s = xorshift32(s)) / 0xffffffff`. -/
def createRNG (seed : Int) (n : Nat) : ℚ :=
  doubleValue (roundDouble (rngState seed n) 0xffffffff)

/-- The expression `(rand() * (i + 1)) | 0` when `rand()` advanced the generator state to `s`: the quotient
is rounded, the product is rounded, and `| 0` truncates. -/
def drawIndex (s i : Nat) : Nat :=
  let r := roundDouble s 0xffffffff
  let p := roundDouble (r.1 * (i + 1)) (2 ^ r.2)
  p.1 / 2 ^ p.2

/-- Line 18, `t = base[i]; base[i] = base[j]; base[j] = t` on the `Uint8Array` `base`: a
read past the end yields `undefined`, which is stored as 0; a write past the end is
ignored. -/
def swapStep (base : List Nat) (i j : Nat) : List Nat :=
  let t := base.getD i 0
  (base.set i (base.getD j 0)).set j t

/-- The loop of lines 16-19 from index `i` down to 1, with `s` the generator state. -/
def shuffleLoop : Nat → Nat → List Nat → List Nat
  | 0, _, base => base
  | i + 1, s, base =>
    let s2 := xorshift32 s
    shuffleLoop i s2 (swapStep base (i + 1) (drawIndex s2 (i + 1)))

/-- The array `base` of `createPerlin(seed)` after the shuffle. -/
def shuffledBase (seed : Int) : List Nat :=
  shuffleLoop 255 (xorshift32 seed) (List.range 256)

/-- The table `p` of `createPerlin(seed)`: `p[i] = base[i & 255]` for `i < 512`. -/
def permTable (seed : Int) : List Nat :=
  (List.range 512).map (fun i => (shuffledBase seed).getD (i &&& 255) 0)

/-! ## Example graphs -/

/-- The starter graph of `src/app.js` lines 467-473, for one choice of the drawn ids. -/
def starterGraph : Graph :=
  let g1 := (addNode Graph.empty "node_k3x9q2a" "PerlinNoise" 1900 1920).1
  let g2 := (addNode g1 "node_7h2m4zc" "Gradient" 1900 2100).1
  let g3 := (addNode g2 "node_p0w8e5r" "Combine" 2100 2010).1
  let g4 := (addNode g3 "node_d6t1y4u" "Display" 2300 2010).1
  let g5 := (addEdge g4 "edge_a1b2c3d" "node_k3x9q2a" "image" "node_p0w8e5r" "A").1
  let g6 := (addEdge g5 "edge_e4f5g6h" "node_7h2m4zc" "image" "node_p0w8e5r" "B").1
  (addEdge g6 "edge_i7j8k9l" "node_p0w8e5r" "image" "node_d6t1y4u" "image").1

/-- A noise node feeding a chain of two Combine nodes through their `A` inputs. -/
def chainGraph : Graph :=
  let g1 := (addNode Graph.empty "node_n1" "PerlinNoise" 0 0).1
  let g2 := (addNode g1 "node_c1" "Combine" 200 0).1
  let g3 := (addNode g2 "node_c2" "Combine" 400 0).1
  let g4 := (addEdge g3 "edge_e1" "node_n1" "image" "node_c1" "A").1
  (addEdge g4 "edge_e2" "node_c1" "image" "node_c2" "A").1

/-- A gradient node feeding a chain of two Combine nodes through their `B` inputs. -/
def chainGraphB : Graph :=
  let g1 := (addNode Graph.empty "node_g1" "Gradient" 0 0).1
  let g2 := (addNode g1 "node_m1" "Combine" 200 0).1
  let g3 := (addNode g2 "node_m2" "Combine" 400 0).1
  let g4 := (addEdge g3 "edge_f1" "node_g1" "image" "node_m1" "B").1
  (addEdge g4 "edge_f2" "node_m1" "image" "node_m2" "B").1

/-- A graph as `load()` can restore it from storage: two Combine nodes wired in a circle. -/
def loopGraph : Graph :=
  { nodes := [("node_r1", Node.mk "node_r1" "Combine" 0 0 (Params.combine "multiply" 1)),
              ("node_r2", Node.mk "node_r2" "Combine" 200 0 (Params.combine "multiply" 1))]
    edges := [("edge_r1", newEdge "edge_r1" "node_r1" "image" "node_r2" "A"),
              ("edge_r2", newEdge "edge_r2" "node_r2" "image" "node_r1" "A")] }

/-- A catalog over outputs that are plain numbers: the compute of `Gradient` always fails,
every other compute returns one more than the number of ports it was handed. -/
def demoCatalog (type : String) : Option (Params → List (String × Option Nat) → Option Nat) :=
  if type = "Gradient" then some (fun _ _ => none)
  else if (defaultParams type).isNone then none
  else some (fun _ inputs => some (inputs.length + 1))

/-- A topological numbering of the nodes of `starterGraph`. -/
def starterRank (id : String) : Nat :=
  if id = "node_p0w8e5r" then 1 else if id = "node_d6t1y4u" then 2 else 0

/-! ## Double arithmetic (`src/perlin.js`, `src/nodes.js`) -/

/-- A finite double, written `num / 2 ^ exp`. Every finite double has this form. -/
structure Dbl where
  num : Int
  exp : Nat
deriving DecidableEq, Repr

/-- The double nearest to `n / den` (`den > 0`), ties to even: `roundDouble` on the magnitude,
the sign put back, and a mantissa that rounding carried up to `2 ^ 53` written as `2 ^ 52`
with the next exponent. Exact for quotients of magnitude below `2 ^ 53`, with no lower
bound on the exponent. -/
def roundInt (n : Int) (den : Nat) : Dbl :=
  let r := roundDouble n.natAbs den
  let m := if r.1 = 2 ^ 53 ∧ 0 < r.2 then 2 ^ 52 else r.1
  let k := if r.1 = 2 ^ 53 ∧ 0 < r.2 then r.2 - 1 else r.2
  Dbl.mk (if n < 0 then -(m : Int) else (m : Int)) k

/-- An integer-valued number literal. -/
def Dbl.ofInt (n : Int) : Dbl := Dbl.mk n 0

/-- The JavaScript `a + b`. -/
def fadd (a b : Dbl) : Dbl :=
  roundInt (a.num * 2 ^ b.exp + b.num * 2 ^ a.exp) (2 ^ (a.exp + b.exp))

/-- The JavaScript `a - b`. -/
def fsub (a b : Dbl) : Dbl :=
  roundInt (a.num * 2 ^ b.exp - b.num * 2 ^ a.exp) (2 ^ (a.exp + b.exp))

/-- The JavaScript `a * b`. -/
def fmul (a b : Dbl) : Dbl :=
  roundInt (a.num * b.num) (2 ^ (a.exp + b.exp))

/-- The JavaScript `a / b` for `b` other than zero. -/
def fdiv (a b : Dbl) : Dbl :=
  roundInt (a.num * 2 ^ b.exp * b.num.sign) (b.num.natAbs * 2 ^ a.exp)

/-- The JavaScript `-a`. -/
def fneg (a : Dbl) : Dbl := Dbl.mk (-a.num) a.exp

/-- The JavaScript `a < b`. -/
def flt (a b : Dbl) : Bool := decide (a.num * 2 ^ b.exp < b.num * 2 ^ a.exp)

/-- The call `Math.max(a, b)`. -/
def fmax (a b : Dbl) : Dbl := if flt a b then b else a

/-- The call `Math.min(a, b)`. -/
def fmin (a b : Dbl) : Dbl := if flt b a then b else a

/-- The call `Math.floor(a)`, as an integer. -/
def Dbl.floor (a : Dbl) : Int := a.num / 2 ^ a.exp

/-- The expression `a | 0`: truncation toward zero, then reduction to a signed 32-bit
integer. -/
def toInt32 (a : Dbl) : Int :=
  let t : Int :=
    if a.num < 0 then -(((-a.num).toNat / 2 ^ a.exp : Nat) : Int)
    else ((a.num.toNat / 2 ^ a.exp : Nat) : Int)
  (t + 2147483648) % 4294967296 - 2147483648

/-- A store of the integer `c` into a `Uint8ClampedArray`. -/
def clampByte (c : Int) : Nat := (max 0 (min 255 c)).toNat

/-- The double written `0.5`. -/
def Dbl.half : Dbl := Dbl.mk 1 1

/-- The double written `0.01`. -/
def Dbl.hundredth : Dbl := Dbl.mk 5764607523034235 59

/-- The double written `0.0001`. -/
def Dbl.tenThousandth : Dbl := Dbl.mk 7378697629483821 66

/-- The double written `0.02`, the default scale of the noise node. -/
def Dbl.fiftieth : Dbl := Dbl.mk 5764607523034235 58

/-! ## Rounding: exponent, magnitude, bounds and canonical form -/

/-- The exponent chosen by `roundDouble`. -/
def roundExp (num den : Nat) : Nat :=
  if num * 2 ^ (52 + log2Floor den - log2Floor num) < den * 2 ^ 52 then
    52 + log2Floor den - log2Floor num + 1
  else 52 + log2Floor den - log2Floor num

/-- The magnitude part of `roundInt`: `roundDouble` with the carry written back. -/
def roundMag (a den : Nat) : Nat × Nat :=
  let r := roundDouble a den
  (if r.1 = 2 ^ 53 ∧ 0 < r.2 then 2 ^ 52 else r.1,
   if r.1 = 2 ^ 53 ∧ 0 < r.2 then r.2 - 1 else r.2)

/-- The value of `d` lies between the integers `lo` and `hi`. -/
def Within (lo hi : Int) (d : Dbl) : Prop :=
  lo * 2 ^ d.exp ≤ d.num ∧ d.num ≤ hi * 2 ^ d.exp

/-- A double in the form that `roundInt` produces: zero as `0 / 2 ^ 0`, otherwise a
mantissa of 53 bits, or a longer one with exponent 0. -/
def Canon (d : Dbl) : Prop :=
  (d.num = 0 ∧ d.exp = 0) ∨
    (2 ^ 52 ≤ d.num.natAbs ∧ (d.num.natAbs < 2 ^ 53 ∨ d.exp = 0))

/-! ## 2D noise (`src/perlin.js` lines 22-47) -/

/-- The function `fade(t)`: `t * t * t * (t * (t * 6 - 15) + 10)`. -/
def fade (t : Dbl) : Dbl :=
  fmul (fmul (fmul t t) t)
    (fadd (fmul t (fsub (fmul t (Dbl.ofInt 6)) (Dbl.ofInt 15))) (Dbl.ofInt 10))

/-- The function `lerp(a, b, t)`: `a + t * (b - a)`. -/
def lerp (a b t : Dbl) : Dbl := fadd a (fmul t (fsub b a))

/-- The function `grad(hash, x, y)`. -/
def grad (hash : Nat) (x y : Dbl) : Dbl :=
  let h := hash &&& 3
  let u := if h < 2 then x else y
  let v := if h < 2 then y else x
  fadd (if h &&& 1 ≠ 0 then fneg u else u)
    (if h &&& 2 ≠ 0 then fmul (Dbl.ofInt (-2)) v else fmul (Dbl.ofInt 2) v)

/-- The function `noise2D(x, y)` of `createPerlin`, with `p` the table it closes over. -/
def noise2D (p : List Nat) (x y : Dbl) : Dbl :=
  let X := (x.floor % 256).toNat
  let Y := (y.floor % 256).toNat
  let x1 := fsub x (Dbl.ofInt x.floor)
  let y1 := fsub y (Dbl.ofInt y.floor)
  let u := fade x1
  let v := fade y1
  let A := p.getD X 0 + Y
  let B := p.getD (X + 1) 0 + Y
  let n00 := grad (p.getD A 0) x1 y1
  let n10 := grad (p.getD B 0) (fsub x1 (Dbl.ofInt 1)) y1
  let n01 := grad (p.getD (A + 1) 0) x1 (fsub y1 (Dbl.ofInt 1))
  let n11 := grad (p.getD (B + 1) 0) (fsub x1 (Dbl.ofInt 1)) (fsub y1 (Dbl.ofInt 1))
  let nx0 := lerp n00 n10 u
  let nx1 := lerp n01 n11 u
  let nxy := lerp nx0 nx1 v
  fmul (fadd nxy (Dbl.ofInt 1)) Dbl.half

/-! ## The noise node (`src/nodes.js` lines 52-76) -/

/-- The octave loop of lines 61-65, `count` iterations left; the state is
`amp, freq, sumAmp, n` and the result is the pair of `n` and `sumAmp`. -/
def octaveLoop (p : List Nat) (x y : Nat) : Nat → Dbl → Dbl → Dbl → Dbl → Dbl × Dbl
  | 0, _, _, sumAmp, n => (n, sumAmp)
  | count + 1, amp, freq, sumAmp, n =>
    octaveLoop p x y count (fmul amp Dbl.half) (fmul freq (Dbl.ofInt 2)) (fadd sumAmp amp)
      (fadd n (fmul (noise2D p (fmul (Dbl.ofInt x) freq) (fmul (Dbl.ofInt y) freq)) amp))

/-- The value `n / sumAmp` of line 66 for the pixel `(x, y)`. -/
def octaveSum (p : List Nat) (scale octaves : Dbl) (x y : Nat) : Dbl :=
  let freqBase := fmax Dbl.tenThousandth scale
  let count := (max 1 (toInt32 octaves)).toNat
  let r := octaveLoop p x y count (Dbl.ofInt 1) freqBase (Dbl.ofInt 0) (Dbl.ofInt 0)
  fdiv r.1 r.2

/-- The call `Math.pow(v, e)`: `v` itself when `e` is 1; for any other exponent the result
is an approximation that the language leaves to the implementation, the parameter
`approx`. -/
def jsPow (approx : Dbl → Dbl → Dbl) (v e : Dbl) : Dbl :=
  if e.num = 2 ^ e.exp then v else approx v e

/-- The four samples that lines 66-71 store for the pixel `(x, y)`, at offset
`(y * width + x) * 4` of the image data. -/
def perlinPixel (approx : Dbl → Dbl → Dbl) (p : List Nat) (scale octaves contrast : Dbl)
    (x y : Nat) : List Nat :=
  let v := jsPow approx (octaveSum p scale octaves x y) (fmax Dbl.hundredth contrast)
  let c := toInt32 (fmul v (Dbl.ofInt 255))
  [clampByte c, clampByte c, clampByte c, 255]

/-! ## The Combine node (`src/nodes.js` lines 91-128) -/

/-- A canvas as `getImageData` reads it: its size and its RGBA samples, row by row. -/
structure Raster where
  width : Nat
  height : Nat
  data : List Nat
deriving DecidableEq, Repr

/-- The function `ov` of the overlay mode, line 117. -/
def ov (a b : Dbl) : Dbl :=
  if flt a Dbl.half then fmul (fmul (Dbl.ofInt 2) a) b
  else fsub (Dbl.ofInt 1)
    (fmul (fmul (Dbl.ofInt 2) (fsub (Dbl.ofInt 1) a)) (fsub (Dbl.ofInt 1) b))

/-- The `switch (params.mode)` of lines 112-121 for one channel, `a` being the clamped
alpha. -/
def blendChannel (mode : String) (a x1 x2 : Dbl) : Dbl :=
  if mode = "add" then fadd x1 x2
  else if mode = "multiply" then fmul x1 x2
  else if mode = "screen" then
    fsub (Dbl.ofInt 1) (fmul (fsub (Dbl.ofInt 1) x1) (fsub (Dbl.ofInt 1) x2))
  else if mode = "overlay" then ov x1 x2
  else fadd (fmul x1 (fsub (Dbl.ofInt 1) a)) (fmul x2 a)

/-- One colour sample of the output, lines 109-124, from the samples read in the two inputs
and the clamped alpha `a`. A read past the end of an input yields `undefined`; the division
makes it `NaN`, every mode keeps it `NaN`, and `NaN | 0` is 0. -/
def combineSample (mode : String) (a : Dbl) (s1 s2 : Option Nat) : Nat :=
  match s1, s2 with
  | some v1, some v2 =>
    let r := blendChannel mode a (fdiv (Dbl.ofInt v1) (Dbl.ofInt 255))
      (fdiv (Dbl.ofInt v2) (Dbl.ofInt 255))
    (max 0 (min 255 (toInt32 (fmul r (Dbl.ofInt 255))))).toNat
  | _, _ => 0

/-- The four samples written by one turn of the loop of lines 108-126, at offset `i`. -/
def combinePixel (mode : String) (a : Dbl) (ca cb : List Nat) (i : Nat) : List Nat :=
  [combineSample mode a (ca.get? i) (cb.get? i),
   combineSample mode a (ca.get? (i + 1)) (cb.get? (i + 1)),
   combineSample mode a (ca.get? (i + 2)) (cb.get? (i + 2)),
   255]

/-- The branch of `Combine.compute` for two present inputs, lines 96-128: the output has the
size of `A`, and the loop runs over its `w * h` pixels with one index `i` into the data of
both inputs. -/
def combineBoth (mode : String) (alpha : Dbl) (A B : Raster) : Raster :=
  let a := fmax (Dbl.ofInt 0) (fmin (Dbl.ofInt 1) alpha)
  { width := A.width
    height := A.height
    data := (List.range (A.width * A.height)).flatMap
      (fun px => combinePixel mode a A.data B.data (4 * px)) }

/-- The function `Combine.compute`: a blank 256 by 256 canvas without inputs, a copy of the
single input when one is missing, `combineBoth` otherwise. -/
def combineCompute (mode : String) (alpha : Dbl) (A B : Option Raster) : Raster :=
  match A, B with
  | none, none => Raster.mk 256 256 (List.replicate (256 * 256 * 4) 0)
  | none, some b => b
  | some a, none => a
  | some a, some b => combineBoth mode alpha a b

/-- The sample of `r` at pixel `(x, y)`, channel `c`. -/
def Raster.sample (r : Raster) (x y c : Nat) : Nat := r.data.getD ((y * r.width + x) * 4 + c) 0

/-! ## The pixel values in double arithmetic -/

/-- The integer part of `d * 255` for a `d` that is not negative. -/
def truncScale (d : Dbl) : Nat :=
  (fmul d (Dbl.ofInt 255)).num.toNat / 2 ^ (fmul d (Dbl.ofInt 255)).exp

/-- The value of `Math.round(d * 255)`: the integer nearest to `d * 255`, a half rounding
up. -/
def roundScale (d : Dbl) : Int :=
  (fadd (fmul d (Dbl.ofInt 255)) Dbl.half).floor

/-- The value `clamp(r, 0, 1)`. -/
def clamp01 (r : Dbl) : Dbl := fmax (Dbl.ofInt 0) (fmin (Dbl.ofInt 1) r)

/-- The formula of each mode with every operation a double operation, in the order in which
the formula is written, on the normalised samples `x1`, `x2` and the alpha parameter. -/
def doubleBlend (mode : String) (alpha x1 x2 : Dbl) : Dbl :=
  match mode with
  | "add" => fadd x1 x2
  | "multiply" => fmul x1 x2
  | "screen" => fsub (Dbl.ofInt 1) (fmul (fsub (Dbl.ofInt 1) x1) (fsub (Dbl.ofInt 1) x2))
  | "overlay" =>
    if flt x1 Dbl.half then fmul (fmul (Dbl.ofInt 2) x1) x2
    else fsub (Dbl.ofInt 1)
      (fmul (fmul (Dbl.ofInt 2) (fsub (Dbl.ofInt 1) x1)) (fsub (Dbl.ofInt 1) x2))
  | _ => fadd (fmul x1 (fsub (Dbl.ofInt 1) (clamp01 alpha))) (fmul x2 (clamp01 alpha))

/-- The output sample in double arithmetic: the formula of the mode on the doubles nearest
to `a / 255` and `b / 255`, clamped to `[0, 1]`, times 255, the fraction dropped. -/
def doubleSample (mode : String) (alpha : Dbl) (a b : Nat) : Nat :=
  truncScale (clamp01 (doubleBlend mode alpha (fdiv (Dbl.ofInt a) (Dbl.ofInt 255))
    (fdiv (Dbl.ofInt b) (Dbl.ofInt 255))))

/-! ## The pixel values in exact arithmetic, as the spec words them -/

/-- The value `clamp(r, 0, 1)` of a rational. -/
def exactClamp (r : ℚ) : ℚ := max 0 (min 1 r)

/-- The formula of each mode exactly as the spec writes it, in exact arithmetic on the
normalised samples `x1`, `x2` and the alpha parameter. -/
def exactBlend (mode : String) (alpha x1 x2 : ℚ) : ℚ :=
  match mode with
  | "add" => x1 + x2
  | "multiply" => x1 * x2
  | "screen" => 1 - (1 - x1) * (1 - x2)
  | "overlay" => if x1 < 1 / 2 then 2 * x1 * x2 else 1 - 2 * (1 - x1) * (1 - x2)
  | _ => x1 * (1 - exactClamp alpha) + x2 * exactClamp alpha

/-- The spec's value before it is made an integer: the formula of the mode on `a / 255` and
`b / 255` in exact arithmetic, clamped to `[0, 1]`, times 255. -/
def exactScaled (mode : String) (alpha : ℚ) (a b : Nat) : ℚ :=
  exactClamp (exactBlend mode alpha ((a : ℚ) / 255) ((b : ℚ) / 255)) * 255

/-- The integer part of `d`: the fraction dropped, toward zero. -/
def truncInt (d : Dbl) : Int :=
  if d.num < 0 then -(((-d.num).toNat / 2 ^ d.exp : Nat) : Int)
  else ((d.num.toNat / 2 ^ d.exp : Nat) : Int)

/-- The spec's `noise2D(x*s, y*s)` for the pixel `(x, y)` and the scale `s`. -/
def singleLayer (p : List Nat) (s : Dbl) (x y : Nat) : Dbl :=
  noise2D p (fmul (Dbl.ofInt x) s) (fmul (Dbl.ofInt y) s)

/-! ## Example rasters -/

/-- The table `p` of `createPerlin(1337)`, the default seed, written out. -/
def table1337 : List Nat :=
  [227, 127, 7, 211, 138, 44, 187, 9, 17, 108, 31, 210, 141, 1, 12, 6,
   134, 51, 112, 26, 196, 148, 42, 125, 230, 95, 224, 170, 231, 40, 202, 16,
   215, 153, 45, 229, 245, 152, 214, 62, 63, 140, 122, 139, 67, 236, 209, 48,
   243, 241, 249, 61, 203, 197, 116, 194, 144, 126, 52, 188, 70, 226, 4, 167,
   99, 55, 131, 103, 92, 149, 242, 101, 143, 199, 175, 82, 171, 178, 80, 250,
   28, 247, 29, 14, 124, 35, 73, 68, 174, 208, 221, 240, 86, 179, 218, 54,
   159, 238, 41, 151, 120, 204, 87, 219, 216, 166, 136, 34, 88, 222, 142, 207,
   50, 164, 248, 253, 198, 3, 183, 33, 157, 47, 206, 85, 49, 105, 182, 78,
   185, 36, 223, 94, 98, 13, 129, 177, 37, 21, 43, 111, 114, 18, 146, 132,
   93, 59, 237, 58, 217, 195, 184, 200, 5, 155, 234, 162, 117, 233, 77, 65,
   38, 246, 154, 30, 169, 104, 74, 251, 160, 46, 11, 15, 100, 163, 8, 19,
   255, 123, 115, 135, 91, 201, 165, 128, 107, 81, 161, 90, 20, 89, 60, 235,
   25, 69, 66, 106, 147, 121, 2, 96, 145, 64, 0, 168, 158, 150, 56, 130,
   23, 225, 176, 137, 173, 32, 79, 97, 22, 109, 213, 84, 76, 172, 39, 53,
   192, 239, 72, 118, 186, 119, 27, 181, 193, 75, 156, 191, 180, 212, 110, 190,
   24, 102, 189, 232, 10, 244, 220, 113, 252, 71, 83, 133, 254, 57, 228, 205,
   227, 127, 7, 211, 138, 44, 187, 9, 17, 108, 31, 210, 141, 1, 12, 6,
   134, 51, 112, 26, 196, 148, 42, 125, 230, 95, 224, 170, 231, 40, 202, 16,
   215, 153, 45, 229, 245, 152, 214, 62, 63, 140, 122, 139, 67, 236, 209, 48,
   243, 241, 249, 61, 203, 197, 116, 194, 144, 126, 52, 188, 70, 226, 4, 167,
   99, 55, 131, 103, 92, 149, 242, 101, 143, 199, 175, 82, 171, 178, 80, 250,
   28, 247, 29, 14, 124, 35, 73, 68, 174, 208, 221, 240, 86, 179, 218, 54,
   159, 238, 41, 151, 120, 204, 87, 219, 216, 166, 136, 34, 88, 222, 142, 207,
   50, 164, 248, 253, 198, 3, 183, 33, 157, 47, 206, 85, 49, 105, 182, 78,
   185, 36, 223, 94, 98, 13, 129, 177, 37, 21, 43, 111, 114, 18, 146, 132,
   93, 59, 237, 58, 217, 195, 184, 200, 5, 155, 234, 162, 117, 233, 77, 65,
   38, 246, 154, 30, 169, 104, 74, 251, 160, 46, 11, 15, 100, 163, 8, 19,
   255, 123, 115, 135, 91, 201, 165, 128, 107, 81, 161, 90, 20, 89, 60, 235,
   25, 69, 66, 106, 147, 121, 2, 96, 145, 64, 0, 168, 158, 150, 56, 130,
   23, 225, 176, 137, 173, 32, 79, 97, 22, 109, 213, 84, 76, 172, 39, 53,
   192, 239, 72, 118, 186, 119, 27, 181, 193, 75, 156, 191, 180, 212, 110, 190,
   24, 102, 189, 232, 10, 244, 220, 113, 252, 71, 83, 133, 254, 57, 228, 205]

/-- A one by two raster, all white and opaque. -/
def whiteColumn : Raster := Raster.mk 1 2 [255, 255, 255, 255, 255, 255, 255, 255]

/-- A two by two raster, white and opaque but for the black pixel at `(1, 0)`. -/
def whiteWithBlackDot : Raster :=
  Raster.mk 2 2 [255, 255, 255, 255, 0, 0, 0, 255, 255, 255, 255, 255, 255, 255, 255, 255]

/-- The all-white two by two raster, with the alpha sample `al` in every pixel. -/
def white2x2 (al : Nat) : Raster :=
  Raster.mk 2 2 [255, 255, 255, al, 255, 255, 255, al, 255, 255, 255, al, 255, 255, 255, al]

/-- The all-black two by two raster, with the alpha sample `al` in every pixel. -/
def black2x2 (al : Nat) : Raster :=
  Raster.mk 2 2 [0, 0, 0, al, 0, 0, 0, al, 0, 0, 0, al, 0, 0, 0, al]

/-- A two by one raster with mixed samples. -/
def rasterA : Raster := Raster.mk 2 1 [12, 200, 255, 40, 0, 77, 128, 255]

/-- A second two by one raster with mixed samples. -/
def rasterB : Raster := Raster.mk 2 1 [90, 3, 17, 255, 254, 1, 201, 0]

/-- A raster of one pixel: samples 1, 17, 0 and alpha 255. -/
def dimPixelA : Raster := Raster.mk 1 1 [1, 17, 0, 255]

/-- A raster of one pixel: samples 32, 195, 1 and alpha 255. -/
def dimPixelB : Raster := Raster.mk 1 1 [32, 195, 1, 255]

/-! ## Lemmas on the association-list operations -/

theorem mem_mapDelete {V : Type} (m : List (String × V)) (k : String) (p : String × V) :
    p ∈ mapDelete m k ↔ p ∈ m ∧ p.1 ≠ k := by
  simp [mapDelete]

theorem mapHas_iff {V : Type} (m : List (String × V)) (k : String) :
    mapHas m k = true ↔ ∃ p ∈ m, p.1 = k := by
  simp [mapHas]

theorem mapHas_false_iff {V : Type} (m : List (String × V)) (k : String) :
    mapHas m k = false ↔ ∀ p ∈ m, p.1 ≠ k := by
  simp [mapHas]

theorem mapHas_mapSet {V : Type} (m : List (String × V)) (k k2 : String) (v : V) :
    mapHas (mapSet m k v) k2 = (mapHas m k2 || k2 == k) := by
  unfold mapSet
  by_cases h : mapHas m k = true
  · rw [if_pos h]
    have hk : (∃ p ∈ m, p.1 = k) := (mapHas_iff m k).1 h
    rw [Bool.eq_iff_iff]
    simp only [mapHas_iff, Bool.or_eq_true, beq_iff_eq, List.mem_map]
    constructor
    · rintro ⟨p, ⟨q, hq, rfl⟩, hp⟩
      by_cases hqk : q.1 = k
      · simp [hqk] at hp
        exact Or.inr hp.symm
      · simp [hqk] at hp
        exact Or.inl ⟨q, hq, hp⟩
    · rintro (⟨q, hq, rfl⟩ | rfl)
      · refine ⟨_, ⟨q, hq, rfl⟩, ?_⟩
        by_cases hqk : q.1 = k <;> simp [hqk]
      · obtain ⟨q, hq, hqk⟩ := hk
        refine ⟨_, ⟨q, hq, rfl⟩, ?_⟩
        simp [hqk]
  · rw [if_neg h]
    rw [Bool.eq_iff_iff]
    simp only [mapHas_iff, Bool.or_eq_true, beq_iff_eq, List.mem_append, List.mem_singleton]
    constructor
    · rintro ⟨p, (hp | rfl), rfl⟩
      · exact Or.inl ⟨p, hp, rfl⟩
      · exact Or.inr rfl
    · rintro (⟨q, hq, rfl⟩ | rfl)
      · exact ⟨q, Or.inl hq, rfl⟩
      · exact ⟨(k2, v), Or.inr rfl, rfl⟩

theorem mapHas_mapDelete {V : Type} (m : List (String × V)) (k k2 : String) :
    mapHas (mapDelete m k) k2 = (mapHas m k2 && !(k2 == k)) := by
  rw [Bool.eq_iff_iff]
  simp only [mapHas_iff, mem_mapDelete, Bool.and_eq_true, Bool.not_eq_true', beq_eq_false_iff_ne]
  constructor
  · rintro ⟨p, ⟨hp, hne⟩, rfl⟩
    exact ⟨⟨p, hp, rfl⟩, hne⟩
  · rintro ⟨⟨p, hp, rfl⟩, hne⟩
    exact ⟨p, ⟨hp, hne⟩, rfl⟩

/-- Deleting by key along a list of entries is a filter of the starting table. -/
theorem foldl_delete_eq_filter {V : Type} (c : String × V → Prop) [DecidablePred c]
    (l init : List (String × V)) :
    l.foldl (fun acc q => if c q then mapDelete acc q.1 else acc) init
      = init.filter (fun p => decide (∀ q ∈ l, c q → p.1 ≠ q.1)) := by
  induction l generalizing init with
  | nil => simp
  | cons q l ih =>
    rw [List.foldl_cons, ih]
    by_cases hq : c q
    · rw [if_pos hq]
      unfold mapDelete
      rw [List.filter_filter]
      apply List.filter_congr
      intro p _
      rw [Bool.eq_iff_iff]
      simp only [Bool.and_eq_true, decide_eq_true_eq, Bool.not_eq_true', beq_eq_false_iff_ne,
        List.mem_cons, forall_eq_or_imp]
      constructor
      · rintro ⟨h1, h2⟩
        exact ⟨fun _ => h2, h1⟩
      · rintro ⟨h1, h2⟩
        exact ⟨h2, h1 hq⟩
    · rw [if_neg hq]
      apply List.filter_congr
      intro p _
      rw [Bool.eq_iff_iff]
      simp only [decide_eq_true_eq, List.mem_cons, forall_eq_or_imp]
      constructor
      · intro h
        exact ⟨fun h3 => absurd h3 hq, h⟩
      · rintro ⟨_, h2⟩
        exact h2

/-- In a real `Map`, deleting the keys of the entries that satisfy `c` removes exactly those
entries. -/
theorem foldl_delete_self {V : Type} (c : String × V → Prop) [DecidablePred c]
    (m : List (String × V)) (hm : keysNodup m) :
    m.foldl (fun acc q => if c q then mapDelete acc q.1 else acc) m
      = m.filter (fun p => decide (¬ c p)) := by
  rw [foldl_delete_eq_filter]
  apply List.filter_congr
  intro p hp
  rw [Bool.eq_iff_iff]
  simp only [decide_eq_true_eq]
  constructor
  · intro h hc
    exact h p hp hc rfl
  · intro h q hq hcq hpq
    have : p = q := by
      have hinj := List.inj_on_of_nodup_map hm
      exact hinj hp hq hpq
    exact h (this ▸ hcq)

theorem mem_unbindInput (edges : List (String × Edge)) (n port : String) (p : String × Edge) :
    p ∈ unbindInput edges n port ↔
      p ∈ edges ∧ ∀ q ∈ edges, (q.2.dst.nodeId = n ∧ q.2.dst.port = port) → p.1 ≠ q.1 := by
  unfold unbindInput
  rw [foldl_delete_eq_filter (fun q : String × Edge => q.2.dst.nodeId = n ∧ q.2.dst.port = port)]
  simp

theorem unbindInput_subset (edges : List (String × Edge)) (n port : String) :
    ∀ p ∈ unbindInput edges n port, p ∈ edges :=
  fun p hp => ((mem_unbindInput edges n port p).1 hp).1

theorem unbindInput_not_bound (edges : List (String × Edge)) (n port : String) :
    ∀ p ∈ unbindInput edges n port, ¬ (p.2.dst.nodeId = n ∧ p.2.dst.port = port) := by
  intro p hp hb
  have h := (mem_unbindInput edges n port p).1 hp
  exact h.2 p h.1 hb rfl

theorem mem_mapSet_imp {V : Type} (m : List (String × V)) (k : String) (v : V)
    (p : String × V) (hp : p ∈ mapSet m k v) : p ∈ m ∨ p = (k, v) := by
  unfold mapSet at hp
  split at hp
  · rw [List.mem_map] at hp
    obtain ⟨q, hq, rfl⟩ := hp
    by_cases hqk : q.1 = k
    · right
      simp [hqk]
    · left
      simpa [hqk] using hq
  · rw [List.mem_append, List.mem_singleton] at hp
    exact hp

theorem mapSet_fresh {V : Type} (m : List (String × V)) (k : String) (v : V)
    (h : mapHas m k = false) : mapSet m k v = m ++ [(k, v)] := by
  simp [mapSet, h]

/-! ## The shape of an `addEdge` call -/

theorem addEdge_self (g : Graph) (newId s sp dp : String) :
    addEdge g newId s sp s dp = (g, AddEdgeResult.selfLoop) := by
  simp [addEdge]

theorem addEdge_nodes (g : Graph) (newId s sp d dp : String) :
    (addEdge g newId s sp d dp).1.nodes = g.nodes := by
  unfold addEdge
  split
  · rfl
  · dsimp only
    split <;> rfl

theorem addEdge_committed (g : Graph) (newId s sp d dp : String)
    (h : (addEdge g newId s sp d dp).2 = AddEdgeResult.committed) :
    s ≠ d ∧
    createsCycle { g with edges := unbindInput g.edges d dp } s d = Outcome.ret false ∧
    (addEdge g newId s sp d dp).1.edges
      = mapSet (unbindInput g.edges d dp) newId (newEdge newId s sp d dp) := by
  unfold addEdge at h ⊢
  by_cases hsd : s = d
  · simp [hsd] at h
  · simp only [if_neg hsd] at h ⊢
    refine ⟨hsd, ?_⟩
    generalize createsCycle { g with edges := unbindInput g.edges d dp } s d = r at h ⊢
    match r, h with
    | Outcome.ret false, _ => exact ⟨rfl, rfl⟩

theorem addEdge_not_committed (g : Graph) (newId s sp d dp : String)
    (h : (addEdge g newId s sp d dp).2 ≠ AddEdgeResult.committed) :
    (addEdge g newId s sp d dp).1.edges = g.edges ∨
    (addEdge g newId s sp d dp).1.edges = unbindInput g.edges d dp := by
  unfold addEdge at h ⊢
  by_cases hsd : s = d
  · left
    simp [hsd]
  · right
    simp only [if_neg hsd] at h ⊢
    generalize createsCycle { g with edges := unbindInput g.edges d dp } s d = r at h ⊢
    match r, h with
    | Outcome.ret true, _ => rfl
    | Outcome.throws, _ => rfl
    | Outcome.fuelOut, _ => rfl
    | Outcome.ret false, h => exact absurd rfl h

theorem addEdge_cycleRejected (g : Graph) (newId s sp d dp : String)
    (h : (addEdge g newId s sp d dp).2 = AddEdgeResult.cycleRejected) :
    (addEdge g newId s sp d dp).1 = { g with edges := unbindInput g.edges d dp } := by
  unfold addEdge at h ⊢
  by_cases hsd : s = d
  · simp [hsd] at h
  · simp only [if_neg hsd] at h ⊢
    generalize createsCycle { g with edges := unbindInput g.edges d dp } s d = r at h ⊢
    match r, h with
    | Outcome.ret true, _ => rfl

/-- Every edge after an `addEdge` call is an old edge or the committed one. -/
theorem addEdge_edges_mem (g : Graph) (newId s sp d dp : String) (p : String × Edge)
    (hp : p ∈ (addEdge g newId s sp d dp).1.edges) :
    p ∈ g.edges ∨
      ((addEdge g newId s sp d dp).2 = AddEdgeResult.committed ∧
        p = (newId, newEdge newId s sp d dp)) := by
  by_cases hc : (addEdge g newId s sp d dp).2 = AddEdgeResult.committed
  · obtain ⟨_, _, he⟩ := addEdge_committed g newId s sp d dp hc
    rw [he] at hp
    rcases mem_mapSet_imp _ _ _ _ hp with h | h
    · exact Or.inl (unbindInput_subset _ _ _ _ h)
    · exact Or.inr ⟨hc, h⟩
  · rcases addEdge_not_committed g newId s sp d dp hc with h | h
    · rw [h] at hp
      exact Or.inl hp
    · rw [h] at hp
      exact Or.inl (unbindInput_subset _ _ _ _ hp)

theorem removeNode_edges_mem (g : Graph) (id : String) (p : String × Edge) :
    p ∈ (removeNode g id).edges ↔
      p ∈ g.edges ∧ ∀ q ∈ g.edges, (q.2.src.nodeId = id ∨ q.2.dst.nodeId = id) → p.1 ≠ q.1 := by
  unfold removeNode
  dsimp only
  rw [foldl_delete_eq_filter (fun q : String × Edge => q.2.src.nodeId = id ∨ q.2.dst.nodeId = id)]
  simp

/-! ## The depth-first search of `createsCycle` -/

/-- A search that answers `false` has explored a set closed under successors that contains
everything seen or stacked and misses the searched node. -/
theorem dfsLoop_false_closed (adj : List (String × List String)) (s : String) :
    ∀ (fuel : Nat) (seen stack : List String),
      dfsLoop adj s fuel seen stack = some false →
      s ∉ seen →
      (∀ u ∈ seen, ∀ w, adjRel adj u w → w ∈ seen ∨ w ∈ stack) →
      ∃ S : List String, (∀ x ∈ seen, x ∈ S) ∧ (∀ x ∈ stack, x ∈ S) ∧ s ∉ S ∧
        ∀ u ∈ S, ∀ w, adjRel adj u w → w ∈ S := by
  intro fuel
  induction fuel with
  | zero =>
    intro seen stack h hs hinv
    cases stack with
    | nil =>
      refine ⟨seen, fun x hx => hx, by simp, hs, ?_⟩
      intro u hu w hw
      rcases hinv u hu w hw with h1 | h1
      · exact h1
      · simp at h1
    | cons v rest => simp [dfsLoop] at h
  | succ n ih =>
    intro seen stack h hs hinv
    cases stack with
    | nil =>
      refine ⟨seen, fun x hx => hx, by simp, hs, ?_⟩
      intro u hu w hw
      rcases hinv u hu w hw with h1 | h1
      · exact h1
      · simp at h1
    | cons v rest =>
      rw [dfsLoop] at h
      by_cases hv : v = s
      · simp [hv] at h
      · rw [if_neg hv] at h
        by_cases hseen : v ∈ seen
        · rw [if_pos hseen] at h
          obtain ⟨S, h1, h2, h3, h4⟩ := ih seen rest h hs (by
            intro u hu w hw
            rcases hinv u hu w hw with h5 | h5
            · exact Or.inl h5
            · rcases List.mem_cons.1 h5 with rfl | h5
              · exact Or.inl hseen
              · exact Or.inr h5)
          refine ⟨S, h1, ?_, h3, h4⟩
          intro x hx
          rcases List.mem_cons.1 hx with rfl | hx
          · exact h1 _ hseen
          · exact h2 _ hx
        · rw [if_neg hseen] at h
          obtain ⟨S, h1, h2, h3, h4⟩ := ih (v :: seen) _ h (by
            intro hmem
            rcases List.mem_cons.1 hmem with rfl | hmem
            · exact hv rfl
            · exact hs hmem) (by
            intro u hu w hw
            rcases List.mem_cons.1 hu with rfl | hu
            · right
              rw [List.mem_append, List.mem_reverse]
              exact Or.inl hw
            · rcases hinv u hu w hw with h5 | h5
              · exact Or.inl (List.mem_cons_of_mem _ h5)
              · rcases List.mem_cons.1 h5 with rfl | h5
                · exact Or.inl (List.mem_cons_self _ _)
                · right
                  rw [List.mem_append]
                  exact Or.inr h5)
          refine ⟨S, fun x hx => h1 x (List.mem_cons_of_mem _ hx), ?_, h3, h4⟩
          intro x hx
          rcases List.mem_cons.1 hx with rfl | hx
          · exact h1 _ (List.mem_cons_self _ _)
          · exact h2 _ (List.mem_append.2 (Or.inr hx))

/-- A search from `d` that answers `false` proves that `s` is not reachable from `d`. -/
theorem dfsLoop_false_unreachable (adj : List (String × List String)) (s d : String)
    (fuel : Nat) (h : dfsLoop adj s fuel [] [d] = some false) :
    ¬ Relation.ReflTransGen (adjRel adj) d s := by
  obtain ⟨S, _, h2, h3, h4⟩ := dfsLoop_false_closed adj s fuel [] [d] h (by simp) (by simp)
  intro hpath
  have hall : ∀ x, Relation.ReflTransGen (adjRel adj) d x → x ∈ S := by
    intro x hx
    induction hx with
    | refl => exact h2 d (List.mem_singleton.2 rfl)
    | tail _ hbc ih => exact h4 _ ih _ hbc
  exact h3 (hall s hpath)

/-- The successor lists of the unseen keys shrink by at least the list of `v` when `v`
becomes seen. -/
theorem dfsMeasure_visit (adj : List (String × List String)) (seen : List String) (v : String)
    (hv : v ∉ seen) :
    ((mapGet adj v).getD []).length
        + ((adj.filter (fun p => decide (p.1 ∉ v :: seen))).map (fun p => p.2.length)).sum
      ≤ ((adj.filter (fun p => decide (p.1 ∉ seen))).map (fun p => p.2.length)).sum := by
  induction adj with
  | nil => simp [mapGet]
  | cons a adj ih =>
    by_cases hav : a.1 = v
    · have h1 : mapGet (a :: adj) v = some a.2 := by simp [mapGet, List.find?_cons, hav]
      have h2 : decide (a.1 ∉ v :: seen) = false := by simp [hav]
      have h3 : decide (a.1 ∉ seen) = true := by simp [hav, hv]
      rw [h1, List.filter_cons, List.filter_cons, h2, h3]
      simp only [Option.getD_some, Bool.false_eq_true, if_false, if_true, List.map_cons,
        List.sum_cons]
      have h4 : ((adj.filter (fun p => decide (p.1 ∉ v :: seen))).map (fun p => p.2.length)).sum
          ≤ ((adj.filter (fun p => decide (p.1 ∉ seen))).map (fun p => p.2.length)).sum := by
        have := ih
        omega
      omega
    · have h1 : mapGet (a :: adj) v = mapGet adj v := by
        simp [mapGet, List.find?_cons, hav]
      rw [h1, List.filter_cons, List.filter_cons]
      by_cases has : a.1 ∈ seen
      · have h2 : decide (a.1 ∉ v :: seen) = false := by simp [has]
        have h3 : decide (a.1 ∉ seen) = false := by simp [has]
        rw [h2, h3]
        simpa using ih
      · have h2 : decide (a.1 ∉ v :: seen) = true := by simp [has, hav]
        have h3 : decide (a.1 ∉ seen) = true := by simp [has]
        rw [h2, h3]
        simp only [if_true, List.map_cons, List.sum_cons]
        have := ih
        omega

/-- The loop of `createsCycle` terminates: with fuel at least `dfsMeasure` it returns. -/
theorem dfsLoop_total (adj : List (String × List String)) (s : String) :
    ∀ (fuel : Nat) (seen stack : List String),
      dfsMeasure adj seen stack ≤ fuel → ∃ b, dfsLoop adj s fuel seen stack = some b := by
  intro fuel
  induction fuel with
  | zero =>
    intro seen stack h
    cases stack with
    | nil => exact ⟨false, by simp [dfsLoop]⟩
    | cons v rest => simp [dfsMeasure] at h
  | succ n ih =>
    intro seen stack h
    cases stack with
    | nil => exact ⟨false, by simp [dfsLoop]⟩
    | cons v rest =>
      rw [dfsLoop]
      by_cases hv : v = s
      · exact ⟨true, by simp [hv]⟩
      · rw [if_neg hv]
        by_cases hseen : v ∈ seen
        · rw [if_pos hseen]
          apply ih
          simp only [dfsMeasure, List.length_cons] at h ⊢
          omega
        · rw [if_neg hseen]
          apply ih
          have hm := dfsMeasure_visit adj seen v hseen
          simp only [dfsMeasure, List.length_cons, List.length_append, List.length_reverse]
            at h ⊢
          omega

/-! ## The adjacency table of `createsCycle` -/

theorem mapGet_cons {V : Type} (a : String × V) (m : List (String × V)) (k : String) :
    mapGet (a :: m) k = if a.1 = k then some a.2 else mapGet m k := by
  by_cases h : a.1 = k
  · simp [mapGet, List.find?_cons, h]
  · have hb : (a.1 == k) = false := by simpa using h
    simp [mapGet, List.find?_cons, h, hb]

theorem mapHas_cons {V : Type} (a : String × V) (m : List (String × V)) (k : String) :
    mapHas (a :: m) k = (a.1 == k || mapHas m k) := by
  simp [mapHas]

theorem mapGet_isSome {V : Type} (m : List (String × V)) (k : String) :
    (mapGet m k).isSome = mapHas m k := by
  induction m with
  | nil => simp [mapGet, mapHas]
  | cons a m ih =>
    rw [mapGet_cons, mapHas_cons]
    by_cases h : a.1 = k
    · simp [h]
    · have hb : (a.1 == k) = false := by simpa using h
      simp [h, hb, ih]

theorem mapGet_map_val {V W : Type} (m : List (String × V)) (f : String × V → W) (k : String) :
    mapGet (m.map (fun p => (p.1, f p))) k = (m.find? (fun p => p.1 == k)).map f := by
  induction m with
  | nil => simp [mapGet]
  | cons a m ih =>
    rw [List.map_cons, mapGet_cons, List.find?_cons]
    by_cases h : a.1 = k
    · simp [h]
    · have hb : (a.1 == k) = false := by simpa using h
      simp [h, hb, ih]

theorem mapGet_append_fresh {V : Type} (m : List (String × V)) (k k2 : String) (v : V)
    (h : mapHas m k = false) :
    mapGet (m ++ [(k, v)]) k2 = if k2 = k then some v else mapGet m k2 := by
  induction m with
  | nil =>
    rw [List.nil_append, mapGet_cons]
    by_cases hk : k = k2
    · simp [hk]
    · have hk2 : ¬ k2 = k := fun h => hk h.symm
      simp [mapGet, hk, hk2]
  | cons a m ih =>
    rw [mapHas_cons, Bool.or_eq_false_iff] at h
    have ha : a.1 ≠ k := by simpa using h.1
    rw [List.cons_append, mapGet_cons, mapGet_cons, ih h.2]
    by_cases h2 : a.1 = k2
    · have : ¬ k2 = k := fun h3 => ha (h2.trans h3)
      simp [h2, this]
    · simp [h2]

theorem mapGet_adjPush {V : Type} (adj adj2 : List (String × List V)) (k0 : String) (x : V)
    (k : String) (h : adjPush adj k0 x = some adj2) :
    mapGet adj2 k = if k = k0 then (mapGet adj k).map (fun l => l ++ [x]) else mapGet adj k := by
  unfold adjPush at h
  split at h
  · have h2 : adj2 = adj.map (fun p => (p.1, if p.1 == k0 then p.2 ++ [x] else p.2)) := by
      rw [← Option.some.inj h]
      apply List.map_congr_left
      intro p _
      by_cases hp : p.1 = k0 <;> simp [hp]
    rw [h2, mapGet_map_val]
    unfold mapGet
    cases hf : adj.find? (fun p => p.1 == k) with
    | none => simp
    | some p =>
      have hpk : p.1 = k := by simpa using List.find?_some hf
      by_cases hk : k = k0
      · simp [hk, hpk]
      · have : ¬ p.1 = k0 := fun h3 => hk (hpk.symm.trans h3)
        simp [hk, this]
  · simp at h

theorem adjPush_isSome {V : Type} (adj : List (String × List V)) (k : String) (x : V) :
    (adjPush adj k x).isSome = mapHas adj k := by
  unfold adjPush
  split <;> simp_all

theorem foldlM_adjPush (es : List Edge) :
    ∀ (adj0 adj : List (String × List String)),
      es.foldlM (fun a e => adjPush a e.src.nodeId e.dst.nodeId) adj0 = some adj →
      (∀ k, mapGet adj k = (mapGet adj0 k).map (fun l => l ++ edgesFrom es k)) ∧
      (∀ e ∈ es, mapHas adj0 e.src.nodeId = true) := by
  induction es with
  | nil =>
    intro adj0 adj h
    simp only [List.foldlM_nil] at h
    have h1 : adj0 = adj := Option.some.inj h
    subst h1
    refine ⟨fun k => ?_, by simp⟩
    cases mapGet adj0 k <;> simp [edgesFrom]
  | cons e es ih =>
    intro adj0 adj h
    rw [List.foldlM_cons] at h
    cases hp : adjPush adj0 e.src.nodeId e.dst.nodeId with
    | none => simp [hp] at h
    | some a1 =>
      rw [hp] at h
      have h' : es.foldlM (fun a e => adjPush a e.src.nodeId e.dst.nodeId) a1 = some adj := h
      obtain ⟨ih1, ih2⟩ := ih a1 adj h'
      have hget := fun k => mapGet_adjPush adj0 a1 e.src.nodeId e.dst.nodeId k hp
      have hhas0 : mapHas adj0 e.src.nodeId = true := by
        rw [← adjPush_isSome adj0 e.src.nodeId e.dst.nodeId, hp]
        rfl
      constructor
      · intro k
        rw [ih1 k, hget k]
        by_cases hk : k = e.src.nodeId
        · rw [if_pos hk]
          cases mapGet adj0 k with
          | none => rfl
          | some l =>
            have hk2 : e.src.nodeId = k := hk.symm
            simp [edgesFrom, List.filter_cons, hk2]
        · rw [if_neg hk]
          cases mapGet adj0 k with
          | none => rfl
          | some l =>
            have hk2 : ¬ e.src.nodeId = k := fun h3 => hk h3.symm
            simp [edgesFrom, List.filter_cons, hk2]
      · intro e2 he2
        rcases List.mem_cons.1 he2 with rfl | he2
        · exact hhas0
        · have := ih2 e2 he2
          rw [← mapGet_isSome] at this ⊢
          rw [hget] at this
          by_cases hk : e2.src.nodeId = e.src.nodeId
          · rw [if_pos hk] at this
            simpa using this
          · rw [if_neg hk] at this
            exact this

theorem mem_edgesFrom (g : Graph) (u w : String) :
    w ∈ edgesFrom (mapValues g.edges) u ↔ edgeRel g u w := by
  unfold edgesFrom edgeRel mapValues
  simp only [List.mem_map, List.mem_filter, beq_iff_eq]
  constructor
  · rintro ⟨e, ⟨⟨p, hp, rfl⟩, hs⟩, hd⟩
    exact ⟨p, hp, hs, hd⟩
  · rintro ⟨p, hp, hs, hd⟩
    exact ⟨p.2, ⟨⟨p, hp, rfl⟩, hs⟩, hd⟩

/-- What the adjacency table searched by `createsCycle` holds: the existing edges and the
candidate edge. -/
theorem createsCycle_adj (g : Graph) (s d : String) (adj0 adj : List (String × List String))
    (h0 : buildAdj g = some adj0)
    (h1 : adjPush (if mapHas adj0 s then adj0 else mapSet adj0 s []) s d = some adj)
    (u w : String) :
    adjRel adj u w ↔ (edgeRel g u w ∨ (u = s ∧ w = d)) := by
  obtain ⟨hget, hsrc⟩ := foldlM_adjPush _ _ _ h0
  have hnodes : ∀ k, mapGet (g.nodes.map (fun p => (p.1, ([] : List String)))) k
      = if mapHas g.nodes k then some [] else none := by
    intro k
    have := mapGet_map_val g.nodes (fun _ => ([] : List String)) k
    rw [this]
    have h2 := mapGet_isSome g.nodes k
    unfold mapGet at h2
    cases hf : g.nodes.find? (fun p => p.1 == k) with
    | none => rw [hf] at h2; simp [← h2]
    | some p => rw [hf] at h2; simp [← h2]
  have hfrom : ∀ k, mapHas g.nodes k = false → edgesFrom (mapValues g.edges) k = [] := by
    intro k hk
    unfold edgesFrom
    rw [List.map_eq_nil_iff, List.filter_eq_nil_iff]
    intro e he hek
    have h3 := hsrc e he
    rw [← mapGet_isSome, hnodes] at h3
    have hek2 : e.src.nodeId = k := by simpa using hek
    rw [hek2, hk] at h3
    simp at h3
  have hadj0 : ∀ k, (mapGet adj0 k).getD [] = edgesFrom (mapValues g.edges) k := by
    intro k
    rw [hget k, hnodes k]
    by_cases hk : mapHas g.nodes k = true
    · simp [hk]
    · have hk2 : mapHas g.nodes k = false := by simpa using hk
      simp [hk2, hfrom k hk2]
  have hadj1 : ∀ k, (mapGet (if mapHas adj0 s then adj0 else mapSet adj0 s []) k).getD []
      = edgesFrom (mapValues g.edges) k := by
    intro k
    by_cases hs : mapHas adj0 s = true
    · rw [if_pos hs]
      exact hadj0 k
    · rw [if_neg hs]
      have hs2 : mapHas adj0 s = false := by simpa using hs
      rw [mapSet_fresh _ _ _ hs2, mapGet_append_fresh _ _ _ _ hs2]
      by_cases hk : k = s
      · rw [if_pos hk, ← hadj0 k]
        have : mapGet adj0 k = none := by
          have h4 := mapGet_isSome adj0 k
          rw [hk, hs2] at h4
          rw [hk]
          cases hm : mapGet adj0 s with
          | none => rfl
          | some l => rw [hm] at h4; simp at h4
        rw [this]
        rfl
      · rw [if_neg hk]
        exact hadj0 k
  have hsome : ∃ l, mapGet (if mapHas adj0 s then adj0 else mapSet adj0 s []) s = some l := by
    have h5 := adjPush_isSome (if mapHas adj0 s then adj0 else mapSet adj0 s []) s d
    rw [h1, ← mapGet_isSome] at h5
    cases hm : mapGet (if mapHas adj0 s then adj0 else mapSet adj0 s []) s with
    | none => rw [hm] at h5; simp at h5
    | some l => exact ⟨l, rfl⟩
  have hfin := mapGet_adjPush _ _ s d u h1
  unfold adjRel
  rw [hfin, ← mem_edgesFrom, ← hadj1 u]
  by_cases hu : u = s
  · subst hu
    obtain ⟨l, hl⟩ := hsome
    simp [hl]
  · simp [hu]

/-- The search of `createsCycle` never runs out of the fuel it is given. -/
theorem createsCycle_ne_fuelOut (g : Graph) (s d : String) :
    createsCycle g s d ≠ Outcome.fuelOut := by
  unfold createsCycle
  cases buildAdj g with
  | none => simp
  | some adj0 =>
    dsimp only
    cases adjPush (if mapHas adj0 s then adj0 else mapSet adj0 s []) s d with
    | none => simp
    | some adj =>
      dsimp only
      obtain ⟨b, hb⟩ := dfsLoop_total adj s (dfsMeasure adj [] [d]) [] [d] (le_refl _)
      rw [hb]
      simp

/-- When `createsCycle` answers `false`, the source is not reachable from the destination
over the existing edges. -/
theorem createsCycle_false_sound (g : Graph) (s d : String)
    (h : createsCycle g s d = Outcome.ret false) :
    ¬ Relation.ReflTransGen (edgeRel g) d s := by
  unfold createsCycle at h
  cases h0 : buildAdj g with
  | none => simp [h0] at h
  | some adj0 =>
    rw [h0] at h
    dsimp only at h
    cases h1 : adjPush (if mapHas adj0 s then adj0 else mapSet adj0 s []) s d with
    | none => simp [h1] at h
    | some adj =>
      rw [h1] at h
      dsimp only at h
      cases h2 : dfsLoop adj s (dfsMeasure adj [] [d]) [] [d] with
      | none => simp [h2] at h
      | some b =>
        rw [h2] at h
        have hb : b = false := by simpa using h
        subst hb
        have hun := dfsLoop_false_unreachable adj s d _ h2
        intro hpath
        apply hun
        exact Relation.ReflTransGen.mono
          (fun u w huw => (createsCycle_adj g s d adj0 adj h0 h1 u w).2 (Or.inl huw)) hpath

/-! ## Acyclicity -/

theorem acyclic_of_rank (g : Graph) (r : String → Nat)
    (h : ∀ p ∈ g.edges, r p.2.src.nodeId < r p.2.dst.nodeId) : Acyclic g := by
  have hlt : ∀ u v, Relation.TransGen (edgeRel g) u v → r u < r v := by
    intro u v huv
    induction huv with
    | single hab =>
      obtain ⟨p, hp, rfl, rfl⟩ := hab
      exact h p hp
    | tail _ hbc ih =>
      obtain ⟨p, hp, rfl, rfl⟩ := hbc
      exact lt_trans ih (h p hp)
  intro v hv
  exact lt_irrefl _ (hlt v v hv)

theorem acyclic_of_subset (g g2 : Graph) (h : ∀ p ∈ g2.edges, p ∈ g.edges) (ha : Acyclic g) :
    Acyclic g2 := by
  intro v hv
  apply ha v
  exact Relation.TransGen.mono (fun u w ⟨p, hp, h1, h2⟩ => ⟨p, h p hp, h1, h2⟩) hv

/-- A path that may use one extra edge `s → d` either avoids it or passes through `s`
and leaves from `d`. -/
theorem transGen_extra_edge {R R2 : String → String → Prop} (s d : String)
    (hR : ∀ x y, R2 x y → R x y ∨ (x = s ∧ y = d)) (a b : String)
    (h : Relation.TransGen R2 a b) :
    Relation.TransGen R a b ∨
      (Relation.ReflTransGen R a s ∧ Relation.ReflTransGen R d b) := by
  induction h with
  | single hab =>
    rcases hR _ _ hab with h1 | ⟨rfl, rfl⟩
    · exact Or.inl (Relation.TransGen.single h1)
    · exact Or.inr ⟨Relation.ReflTransGen.refl, Relation.ReflTransGen.refl⟩
  | tail _ hbc ih =>
    rcases hR _ _ hbc with h1 | ⟨rfl, rfl⟩
    · rcases ih with h2 | ⟨h2, h3⟩
      · exact Or.inl (Relation.TransGen.tail h2 h1)
      · exact Or.inr ⟨h2, Relation.ReflTransGen.tail h3 h1⟩
    · rcases ih with h2 | ⟨h2, _⟩
      · exact Or.inr ⟨h2.to_reflTransGen, Relation.ReflTransGen.refl⟩
      · exact Or.inr ⟨h2, Relation.ReflTransGen.refl⟩

theorem addEdge_acyclic (g : Graph) (newId s sp d dp : String) (h : Acyclic g) :
    Acyclic (addEdge g newId s sp d dp).1 := by
  by_cases hc : (addEdge g newId s sp d dp).2 = AddEdgeResult.committed
  · obtain ⟨_, hcc, he⟩ := addEdge_committed g newId s sp d dp hc
    have hg1 : Acyclic { g with edges := unbindInput g.edges d dp } :=
      acyclic_of_subset g _ (unbindInput_subset _ _ _) h
    have hun := createsCycle_false_sound _ s d hcc
    intro v hv
    have hR : ∀ x y, edgeRel (addEdge g newId s sp d dp).1 x y →
        edgeRel { g with edges := unbindInput g.edges d dp } x y ∨ (x = s ∧ y = d) := by
      rintro x y ⟨p, hp, rfl, rfl⟩
      rw [he] at hp
      rcases mem_mapSet_imp _ _ _ _ hp with h1 | h1
      · exact Or.inl ⟨p, h1, rfl, rfl⟩
      · right
        rw [h1]
        exact ⟨rfl, rfl⟩
    rcases transGen_extra_edge s d hR v v hv with h1 | ⟨h1, h2⟩
    · exact hg1 v h1
    · exact hun (h2.trans h1)
  · apply acyclic_of_subset g _ _ h
    intro p hp
    rcases addEdge_edges_mem g newId s sp d dp p hp with h1 | ⟨h1, _⟩
    · exact h1
    · exact absurd h1 hc

theorem addNode_edges (g : Graph) (newId type : String) (x y : ℚ) :
    (addNode g newId type x y).1.edges = g.edges := by
  unfold addNode
  split <;> rfl

theorem reachable_acyclic (g : Graph) (h : Reachable g) : Acyclic g := by
  induction h with
  | empty =>
    intro v hv
    have : ∀ a b, Relation.TransGen (edgeRel Graph.empty) a b → False := by
      intro a b hab
      induction hab with
      | single h1 =>
        obtain ⟨p, hp, _⟩ := h1
        simp [Graph.empty] at hp
      | tail _ _ ih => exact ih
    exact this v v hv
  | addNode g newId type x y _ ih =>
    exact acyclic_of_subset g _ (by rw [addNode_edges]; exact fun p hp => hp) ih
  | removeNode g id _ ih =>
    exact acyclic_of_subset g _ (fun p hp => ((removeNode_edges_mem g id p).1 hp).1) ih
  | addEdge g newId s sp d dp _ ih => exact addEdge_acyclic g newId s sp d dp ih
  | removeEdge g id _ ih =>
    exact acyclic_of_subset g _ (fun p hp => ((mem_mapDelete _ _ _).1 hp).1) ih

theorem starterGraph_acyclic : Acyclic starterGraph :=
  acyclic_of_rank starterGraph starterRank (by decide)

theorem starterGraph_noDangling : NoDangling starterGraph := by
  unfold NoDangling
  decide

theorem starterGraph_keysNodup : keysNodup starterGraph.nodes := by
  unfold keysNodup
  decide

/-! ## Claims C1 to C5 -/

/-- C1: `addEdge` keeps the edge set free of directed cycles, from any acyclic state and
for any arguments, and therefore every graph reachable from the empty graph by `addNode`,
`removeNode`, `addEdge` and `removeEdge` calls is acyclic. -/
theorem addEdge_preserves_acyclic :
    (∀ (g : Graph) (newId src srcPort dst dstPort : String),
        Acyclic g → Acyclic (addEdge g newId src srcPort dst dstPort).1) ∧
    (∀ g : Graph, Reachable g → Acyclic g) :=
  ⟨addEdge_acyclic, reachable_acyclic⟩

/-- Witness of C1: the starter graph is acyclic, and stays so when a second wire is drawn
from the noise node to input `B` of the Combine node. -/
theorem addEdge_preserves_acyclic_witness :
    Acyclic starterGraph ∧
    Acyclic (addEdge starterGraph "edge_m0n1o2p" "node_k3x9q2a" "image" "node_p0w8e5r" "B").1 ∧
    Acyclic (removeNode starterGraph "node_7h2m4zc") :=
  ⟨starterGraph_acyclic,
    addEdge_preserves_acyclic.1 starterGraph "edge_m0n1o2p" "node_k3x9q2a" "image"
      "node_p0w8e5r" "B" starterGraph_acyclic,
    addEdge_preserves_acyclic.2 _ (Reachable.removeNode _ _
      (Reachable.addEdge _ _ _ _ _ _ (Reachable.addEdge _ _ _ _ _ _
        (Reachable.addEdge _ _ _ _ _ _ (Reachable.addNode _ _ _ _ _ (Reachable.addNode _ _ _ _ _
          (Reachable.addNode _ _ _ _ _ (Reachable.addNode _ _ _ _ _ Reachable.empty))))))))⟩

/-- C2 (the code at the failing input): in `chainGraphB` input `B` of `node_m1` is bound
by `edge_f1`; `addEdge('node_m2', 'image', 'node_m1', 'B')` is refused by the cycle check,
and yet `edge_f1` is gone afterwards. -/
theorem addEdge_cycleRejected_drops_bound_edge :
    mapKeys chainGraphB.edges = ["edge_f1", "edge_f2"] ∧
    (addEdge chainGraphB "edge_f3" "node_m2" "image" "node_m1" "B").2
      = AddEdgeResult.cycleRejected ∧
    mapKeys (addEdge chainGraphB "edge_f3" "node_m2" "image" "node_m1" "B").1.edges
      = ["edge_f2"] := by
  decide

/-- C3 (counterexample): input `A` of `node_c1` is bound, the source differs from the
destination, and after `addEdge('node_c2', 'image', 'node_c1', 'A')` no edge at all is bound
to that input. -/
theorem addEdge_bound_port_left_unbound :
    (∃ p ∈ chainGraph.edges, p.2.dst.nodeId = "node_c1" ∧ p.2.dst.port = "A") ∧
    "node_c2" ≠ "node_c1" ∧
    ((addEdge chainGraph "edge_e3" "node_c2" "image" "node_c1" "A").1.edges.filter
      (fun p => decide (p.2.dst.nodeId = "node_c1" ∧ p.2.dst.port = "A"))).length = 0 := by
  decide

/-- C3 (amended): when `addEdge(src, srcPort, dst, dstPort)` commits its edge under an id
not in use, every edge previously bound to `(dst, dstPort)` has its id absent from the edge
set afterwards, and the committed edge is the only edge bound to `(dst, dstPort)`. -/
theorem addEdge_committed_replaces_bound_edge (g : Graph)
    (newId src srcPort dst dstPort : String)
    (hfresh : mapHas g.edges newId = false)
    (hcommit : (addEdge g newId src srcPort dst dstPort).2 = AddEdgeResult.committed) :
    (∀ p ∈ g.edges, p.2.dst.nodeId = dst ∧ p.2.dst.port = dstPort →
        mapHas (addEdge g newId src srcPort dst dstPort).1.edges p.1 = false) ∧
    (addEdge g newId src srcPort dst dstPort).1.edges.filter
        (fun p => decide (p.2.dst.nodeId = dst ∧ p.2.dst.port = dstPort))
      = [(newId, newEdge newId src srcPort dst dstPort)] := by
  obtain ⟨_, _, he⟩ := addEdge_committed g newId src srcPort dst dstPort hcommit
  have hU : mapHas (unbindInput g.edges dst dstPort) newId = false := by
    rw [mapHas_false_iff] at hfresh ⊢
    exact fun p hp => hfresh p (unbindInput_subset _ _ _ _ hp)
  rw [he, mapSet_fresh _ _ _ hU]
  constructor
  · intro p hp hb
    rw [mapHas_false_iff]
    intro q hq
    rcases List.mem_append.1 hq with h1 | h1
    · exact ((mem_unbindInput _ _ _ _).1 h1).2 p hp hb
    · rw [List.mem_singleton] at h1
      rw [h1]
      exact fun h2 => (mapHas_false_iff _ _).1 hfresh p hp h2.symm
  · rw [List.filter_append]
    have h1 : (unbindInput g.edges dst dstPort).filter
        (fun p => decide (p.2.dst.nodeId = dst ∧ p.2.dst.port = dstPort)) = [] := by
      rw [List.filter_eq_nil_iff]
      intro p hp
      simpa using unbindInput_not_bound _ _ _ p hp
    rw [h1]
    simp [newEdge]

/-- Witness of C3 (amended): rewiring input `A` of the Combine node of the starter graph to
the gradient node replaces `edge_a1b2c3d` by the new edge. -/
theorem addEdge_committed_replaces_bound_edge_witness :
    (∃ p ∈ starterGraph.edges, p.1 = "edge_a1b2c3d" ∧
        p.2.dst.nodeId = "node_p0w8e5r" ∧ p.2.dst.port = "A") ∧
    mapHas (addEdge starterGraph "edge_q3r4s5t" "node_7h2m4zc" "image"
        "node_p0w8e5r" "A").1.edges "edge_a1b2c3d" = false ∧
    (addEdge starterGraph "edge_q3r4s5t" "node_7h2m4zc" "image" "node_p0w8e5r" "A").1.edges.filter
        (fun p => decide (p.2.dst.nodeId = "node_p0w8e5r" ∧ p.2.dst.port = "A"))
      = [("edge_q3r4s5t", newEdge "edge_q3r4s5t" "node_7h2m4zc" "image" "node_p0w8e5r" "A")] :=
  have h := addEdge_committed_replaces_bound_edge starterGraph "edge_q3r4s5t" "node_7h2m4zc"
    "image" "node_p0w8e5r" "A" (by decide) (by decide)
  ⟨by decide,
    h.1 ("edge_a1b2c3d", newEdge "edge_a1b2c3d" "node_k3x9q2a" "image" "node_p0w8e5r" "A")
      (by decide) (by decide),
    h.2⟩

theorem addNode_noDangling (g : Graph) (newId type : String) (x y : ℚ) (h : NoDangling g) :
    NoDangling (addNode g newId type x y).1 := by
  unfold addNode
  split
  · exact h
  · intro p hp
    obtain ⟨h1, h2⟩ := h p hp
    simp only [mapHas_mapSet, h1, h2, Bool.true_or, and_self]

theorem removeNode_noDangling (g : Graph) (id : String) (h : NoDangling g) :
    NoDangling (removeNode g id) := by
  intro p hp
  obtain ⟨hp1, hp2⟩ := (removeNode_edges_mem g id p).1 hp
  obtain ⟨h1, h2⟩ := h p hp1
  have hs : p.2.src.nodeId ≠ id := fun hc => hp2 p hp1 (Or.inl hc) rfl
  have hd : p.2.dst.nodeId ≠ id := fun hc => hp2 p hp1 (Or.inr hc) rfl
  have hnodes : (removeNode g id).nodes = mapDelete g.nodes id := rfl
  rw [hnodes, mapHas_mapDelete, mapHas_mapDelete, h1, h2]
  simp [hs, hd]

theorem addEdge_noDangling (g : Graph) (newId s sp d dp : String) (h : NoDangling g)
    (hs : mapHas g.nodes s = true) (hd : mapHas g.nodes d = true) :
    NoDangling (addEdge g newId s sp d dp).1 := by
  intro p hp
  rw [addEdge_nodes]
  rcases addEdge_edges_mem g newId s sp d dp p hp with h1 | ⟨_, h1⟩
  · exact h p h1
  · rw [h1]
    exact ⟨hs, hd⟩

theorem removeEdge_noDangling (g : Graph) (id : String) (h : NoDangling g) :
    NoDangling (removeEdge g id) := by
  intro p hp
  exact h p ((mem_mapDelete _ _ _).1 hp).1

/-- C4 (counterexample): one `addEdge` call on the empty graph, naming two ids that are not
nodes, commits an edge both of whose endpoints dangle. -/
theorem reachable_with_dangling_edge :
    Reachable (addEdge Graph.empty "edge_u6v7w8x" "node_gone" "image" "node_lost" "A").1 ∧
    ¬ NoDangling (addEdge Graph.empty "edge_u6v7w8x" "node_gone" "image" "node_lost" "A").1 := by
  refine ⟨Reachable.addEdge _ _ _ _ _ _ Reachable.empty, ?_⟩
  unfold NoDangling
  decide

/-- C4 (amended): in every graph reachable from the empty graph by `addNode`, `removeNode`,
`addEdge` and `removeEdge` calls in which each `addEdge` call names a source node and a
destination node that are present when it is made, no edge dangles. -/
theorem reachableWired_noDangling (g : Graph) (h : ReachableWired g) : NoDangling g := by
  induction h with
  | empty =>
    intro p hp
    simp [Graph.empty] at hp
  | addNode g newId type x y _ ih => exact addNode_noDangling g newId type x y ih
  | removeNode g id _ ih => exact removeNode_noDangling g id ih
  | addEdge g newId s sp d dp _ hs hd ih => exact addEdge_noDangling g newId s sp d dp ih hs hd
  | removeEdge g id _ ih => exact removeEdge_noDangling g id ih

theorem starterGraph_reachableWired : ReachableWired starterGraph :=
  ReachableWired.addEdge _ _ _ _ _ _
    (ReachableWired.addEdge _ _ _ _ _ _
      (ReachableWired.addEdge _ _ _ _ _ _
        (ReachableWired.addNode _ _ _ _ _ (ReachableWired.addNode _ _ _ _ _
          (ReachableWired.addNode _ _ _ _ _
            (ReachableWired.addNode _ _ _ _ _ ReachableWired.empty))))
        (by decide) (by decide))
      (by decide) (by decide))
    (by decide) (by decide)

/-- Witness of C4 (amended): the starter graph with its gradient node removed. -/
theorem reachableWired_noDangling_witness :
    NoDangling (removeNode starterGraph "node_7h2m4zc") :=
  reachableWired_noDangling _ (ReachableWired.removeNode _ _ starterGraph_reachableWired)

/-- C5: `removeNode(id)` deletes `id` from the node table and keeps exactly the edges whose
source node and destination node both differ from `id` (all other entries untouched, in
order); no remaining edge references `id`; and when `id` is absent from a graph without
dangling edges the call changes nothing. -/
theorem removeNode_spec (g : Graph) (id : String) (hmap : keysNodup g.edges) :
    (removeNode g id).nodes = g.nodes.filter (fun p => !(p.1 == id)) ∧
    (removeNode g id).edges
      = g.edges.filter (fun p => decide (p.2.src.nodeId ≠ id ∧ p.2.dst.nodeId ≠ id)) ∧
    (∀ p ∈ (removeNode g id).edges, p.2.src.nodeId ≠ id ∧ p.2.dst.nodeId ≠ id) ∧
    (mapHas g.nodes id = false → NoDangling g → removeNode g id = g) := by
  have hedges : (removeNode g id).edges
      = g.edges.filter (fun p => decide (p.2.src.nodeId ≠ id ∧ p.2.dst.nodeId ≠ id)) := by
    have h1 : (removeNode g id).edges = g.edges.foldl
        (fun acc p =>
          if p.2.src.nodeId = id ∨ p.2.dst.nodeId = id then mapDelete acc p.1 else acc)
        g.edges := rfl
    rw [h1, foldl_delete_self (fun q : String × Edge => q.2.src.nodeId = id ∨ q.2.dst.nodeId = id)
      g.edges hmap]
    apply List.filter_congr
    intro p _
    simp [not_or]
  refine ⟨rfl, hedges, ?_, ?_⟩
  · intro p hp
    rw [hedges, List.mem_filter] at hp
    simpa using hp.2
  · intro hid hnd
    have hn : (removeNode g id).nodes = g.nodes := by
      show mapDelete g.nodes id = g.nodes
      unfold mapDelete
      rw [List.filter_eq_self]
      intro p hp
      have := (mapHas_false_iff _ _).1 hid p hp
      simpa using this
    have he : (removeNode g id).edges = g.edges := by
      rw [hedges, List.filter_eq_self]
      intro p hp
      obtain ⟨h1, h2⟩ := hnd p hp
      have hs : p.2.src.nodeId ≠ id := by
        intro hc
        rw [hc, hid] at h1
        exact absurd h1 (by simp)
      have hd : p.2.dst.nodeId ≠ id := by
        intro hc
        rw [hc, hid] at h2
        exact absurd h2 (by simp)
      simp [hs, hd]
    calc removeNode g id
        = Graph.mk (removeNode g id).nodes (removeNode g id).edges := rfl
      _ = Graph.mk g.nodes g.edges := by rw [hn, he]

/-- Witness of C5: removing the Combine node of the starter graph leaves three nodes and no
edge; removing an id that is not a node leaves the starter graph as it is. -/
theorem removeNode_spec_witness :
    mapKeys (removeNode starterGraph "node_p0w8e5r").nodes
      = ["node_k3x9q2a", "node_7h2m4zc", "node_d6t1y4u"] ∧
    (removeNode starterGraph "node_p0w8e5r").edges = [] ∧
    removeNode starterGraph "node_zzzzzzz" = starterGraph :=
  have h := removeNode_spec starterGraph "node_p0w8e5r" (by unfold keysNodup; decide)
  have h2 := removeNode_spec starterGraph "node_zzzzzzz" (by unfold keysNodup; decide)
  ⟨by rw [h.1]; decide, by rw [h.2.1]; decide,
    h2.2.2.2 (by decide) starterGraph_noDangling⟩

/-! ## The edge tables of `computeGraph` -/

theorem mapHas_adjPush {V : Type} (adj adj2 : List (String × List V)) (k0 : String) (x : V)
    (k : String) (h : adjPush adj k0 x = some adj2) : mapHas adj2 k = mapHas adj k := by
  rw [← mapGet_isSome, ← mapGet_isSome, mapGet_adjPush adj adj2 k0 x k h]
  by_cases hk : k = k0
  · rw [if_pos hk]
    cases mapGet adj k <;> rfl
  · rw [if_neg hk]

theorem mapGet_nodes_init {V : Type} (nodes : List (String × Node)) (k : String) :
    mapGet (nodes.map (fun p => (p.1, ([] : List V)))) k
      = if mapHas nodes k then some [] else none := by
  have := mapGet_map_val nodes (fun _ => ([] : List V)) k
  rw [this]
  have h2 := mapGet_isSome nodes k
  unfold mapGet at h2
  cases hf : nodes.find? (fun p => p.1 == k) with
  | none => rw [hf] at h2; simp [← h2]
  | some p => rw [hf] at h2; simp [← h2]

theorem tableStep_some (t t2 : List (String × List Edge) × List (String × List Edge)) (e : Edge)
    (h : tableStep t e = some t2) :
    adjPush t.1 e.dst.nodeId e = some t2.1 ∧ adjPush t.2 e.src.nodeId e = some t2.2 := by
  unfold tableStep at h
  cases h1 : adjPush t.1 e.dst.nodeId e with
  | none => simp [h1] at h
  | some i =>
    cases h2 : adjPush t.2 e.src.nodeId e with
    | none => simp [h1, h2] at h
    | some o =>
      simp only [h1, h2, Option.some.injEq] at h
      subst h
      exact ⟨rfl, rfl⟩

theorem foldlM_tableStep (es : List Edge) :
    ∀ (t0 t : List (String × List Edge) × List (String × List Edge)),
      es.foldlM tableStep t0 = some t →
      (∀ k, mapGet t.1 k
          = (mapGet t0.1 k).map (fun l => l ++ es.filter (fun e => e.dst.nodeId == k))) ∧
      (∀ k, mapGet t.2 k
          = (mapGet t0.2 k).map (fun l => l ++ es.filter (fun e => e.src.nodeId == k))) ∧
      (∀ e ∈ es, mapHas t0.1 e.dst.nodeId = true ∧ mapHas t0.2 e.src.nodeId = true) := by
  induction es with
  | nil =>
    intro t0 t h
    simp only [List.foldlM_nil] at h
    have h1 : t0 = t := Option.some.inj h
    subst h1
    refine ⟨fun k => ?_, fun k => ?_, by simp⟩
    · cases mapGet t0.1 k <;> simp
    · cases mapGet t0.2 k <;> simp
  | cons e es ih =>
    intro t0 t h
    rw [List.foldlM_cons] at h
    cases hp : tableStep t0 e with
    | none => simp [hp] at h
    | some t1 =>
      rw [hp] at h
      have h' : es.foldlM tableStep t1 = some t := h
      obtain ⟨ih1, ih2, ih3⟩ := ih t1 t h'
      obtain ⟨hp1, hp2⟩ := tableStep_some t0 t1 e hp
      have hhas1 : mapHas t0.1 e.dst.nodeId = true := by
        rw [← adjPush_isSome t0.1 e.dst.nodeId e, hp1]
        rfl
      have hhas2 : mapHas t0.2 e.src.nodeId = true := by
        rw [← adjPush_isSome t0.2 e.src.nodeId e, hp2]
        rfl
      refine ⟨fun k => ?_, fun k => ?_, ?_⟩
      · rw [ih1 k, mapGet_adjPush t0.1 t1.1 e.dst.nodeId e k hp1]
        by_cases hk : k = e.dst.nodeId
        · rw [if_pos hk]
          cases mapGet t0.1 k with
          | none => rfl
          | some l =>
            have hk2 : e.dst.nodeId = k := hk.symm
            simp [List.filter_cons, hk2]
        · rw [if_neg hk]
          cases mapGet t0.1 k with
          | none => rfl
          | some l =>
            have hk2 : ¬ e.dst.nodeId = k := fun h3 => hk h3.symm
            simp [List.filter_cons, hk2]
      · rw [ih2 k, mapGet_adjPush t0.2 t1.2 e.src.nodeId e k hp2]
        by_cases hk : k = e.src.nodeId
        · rw [if_pos hk]
          cases mapGet t0.2 k with
          | none => rfl
          | some l =>
            have hk2 : e.src.nodeId = k := hk.symm
            simp [List.filter_cons, hk2]
        · rw [if_neg hk]
          cases mapGet t0.2 k with
          | none => rfl
          | some l =>
            have hk2 : ¬ e.src.nodeId = k := fun h3 => hk h3.symm
            simp [List.filter_cons, hk2]
      · intro e2 he2
        rcases List.mem_cons.1 he2 with rfl | he2
        · exact ⟨hhas1, hhas2⟩
        · obtain ⟨h5, h6⟩ := ih3 e2 he2
          rw [mapHas_adjPush t0.1 t1.1 e.dst.nodeId e _ hp1] at h5
          rw [mapHas_adjPush t0.2 t1.2 e.src.nodeId e _ hp2] at h6
          exact ⟨h5, h6⟩

theorem foldlM_tableStep_isSome (es : List Edge) :
    ∀ (t0 : List (String × List Edge) × List (String × List Edge)),
      (∀ e ∈ es, mapHas t0.1 e.dst.nodeId = true ∧ mapHas t0.2 e.src.nodeId = true) →
      ∃ t, es.foldlM tableStep t0 = some t := by
  induction es with
  | nil => exact fun t0 _ => ⟨t0, rfl⟩
  | cons e es ih =>
    intro t0 h
    obtain ⟨h1, h2⟩ := h e (List.mem_cons_self _ _)
    have hi : ∃ i, adjPush t0.1 e.dst.nodeId e = some i := by
      have := adjPush_isSome t0.1 e.dst.nodeId e
      rw [h1] at this
      exact Option.isSome_iff_exists.1 this
    have ho : ∃ o, adjPush t0.2 e.src.nodeId e = some o := by
      have := adjPush_isSome t0.2 e.src.nodeId e
      rw [h2] at this
      exact Option.isSome_iff_exists.1 this
    obtain ⟨i, hi⟩ := hi
    obtain ⟨o, ho⟩ := ho
    have hstep : tableStep t0 e = some (i, o) := by
      simp [tableStep, hi, ho]
    obtain ⟨t, ht⟩ := ih (i, o) (by
      intro e2 he2
      obtain ⟨h5, h6⟩ := h e2 (List.mem_cons_of_mem _ he2)
      exact ⟨by rw [mapHas_adjPush t0.1 i e.dst.nodeId e _ hi]; exact h5,
        by rw [mapHas_adjPush t0.2 o e.src.nodeId e _ ho]; exact h6⟩)
    exact ⟨t, by rw [List.foldlM_cons, hstep]; exact ht⟩

theorem buildEdgeTables_eq (g : Graph) :
    buildEdgeTables g = (mapValues g.edges).foldlM tableStep
      (g.nodes.map (fun p => (p.1, ([] : List Edge))),
        g.nodes.map (fun p => (p.1, ([] : List Edge)))) := rfl

theorem mem_mapValues {V : Type} (m : List (String × V)) (v : V) :
    v ∈ mapValues m ↔ ∃ p ∈ m, p.2 = v := by
  simp [mapValues]

/-- The tables built by `computeGraph` list, for every node, its incoming and its outgoing
edges; building them succeeds only when no edge dangles. -/
theorem buildEdgeTables_some (g : Graph) (i o : List (String × List Edge))
    (h : buildEdgeTables g = some (i, o)) :
    (∀ k, mapGet i k = if mapHas g.nodes k then some (inEdges g k) else none) ∧
    (∀ k, mapGet o k = if mapHas g.nodes k then some (outEdges g k) else none) ∧
    NoDangling g := by
  rw [buildEdgeTables_eq] at h
  obtain ⟨h1, h2, h3⟩ := foldlM_tableStep _ _ _ h
  refine ⟨fun k => ?_, fun k => ?_, ?_⟩
  · rw [h1 k]
    dsimp only
    rw [mapGet_nodes_init]
    by_cases hk : mapHas g.nodes k = true
    · simp [hk, inEdges]
    · simp [hk]
  · rw [h2 k]
    dsimp only
    rw [mapGet_nodes_init]
    by_cases hk : mapHas g.nodes k = true
    · simp [hk, outEdges]
    · simp [hk]
  · intro p hp
    obtain ⟨h5, h6⟩ := h3 p.2 ((mem_mapValues _ _).2 ⟨p, hp, rfl⟩)
    dsimp only at h5 h6
    rw [← mapGet_isSome, mapGet_nodes_init] at h5 h6
    constructor
    · by_cases hk : mapHas g.nodes p.2.src.nodeId = true
      · exact hk
      · simp [hk] at h6
    · by_cases hk : mapHas g.nodes p.2.dst.nodeId = true
      · exact hk
      · simp [hk] at h5

theorem buildEdgeTables_of_noDangling (g : Graph) (h : NoDangling g) :
    ∃ i o, buildEdgeTables g = some (i, o) := by
  rw [buildEdgeTables_eq]
  obtain ⟨t, ht⟩ := foldlM_tableStep_isSome (mapValues g.edges)
    (g.nodes.map (fun p => (p.1, ([] : List Edge))),
      g.nodes.map (fun p => (p.1, ([] : List Edge)))) (by
    intro e he
    obtain ⟨p, hp, rfl⟩ := (mem_mapValues _ _).1 he
    obtain ⟨h1, h2⟩ := h p hp
    dsimp only
    rw [← mapGet_isSome, ← mapGet_isSome, mapGet_nodes_init, mapGet_nodes_init, h1, h2]
    simp)
  exact ⟨t.1, t.2, ht⟩

/-! ## Kahn's algorithm -/

theorem mapGet_mapSet {V : Type} (m : List (String × V)) (k k2 : String) (v : V) :
    mapGet (mapSet m k v) k2 = if k2 = k then some v else mapGet m k2 := by
  unfold mapSet
  by_cases h : mapHas m k = true
  · rw [if_pos h]
    have h2 : m.map (fun p => if p.1 == k then (p.1, v) else p)
        = m.map (fun p => (p.1, if p.1 == k then v else p.2)) := by
      apply List.map_congr_left
      intro p _
      by_cases hp : p.1 = k <;> simp [hp]
    rw [h2, mapGet_map_val]
    cases hf : m.find? (fun p => p.1 == k2) with
    | none =>
      have hnone : mapGet m k2 = none := by simp [mapGet, hf]
      have hk : k2 ≠ k := by
        intro hk
        have h3 := mapGet_isSome m k2
        rw [hnone, hk, h] at h3
        simp at h3
      simp [hnone, hk]
    | some p =>
      have hpk : p.1 = k2 := by simpa using List.find?_some hf
      have hsome : mapGet m k2 = some p.2 := by simp [mapGet, hf]
      by_cases hk : k2 = k
      · simp [hk, hpk ▸ hk]
      · have : ¬ p.1 = k := fun h3 => hk (hpk.symm.trans h3)
        simp [hk, this, hsome]
  · rw [if_neg h]
    have h' : mapHas m k = false := by simpa using h
    exact mapGet_append_fresh m k k2 v h'

theorem mem_mapKeys_iff {V : Type} (m : List (String × V)) (k : String) :
    k ∈ mapKeys m ↔ mapHas m k = true := by
  simp [mapKeys, mapHas]

theorem kahnRelax_eq (indeg : List (String × Option Int)) (q : List String) (e : Edge) (n : Int)
    (h : mapGet indeg e.dst.nodeId = some (some n)) :
    kahnRelax (indeg, q) e
      = (mapSet indeg e.dst.nodeId (some (n - 1)),
          if n - 1 = 0 then q ++ [e.dst.nodeId] else q) := by
  unfold kahnRelax
  simp only [h, mapGet_mapSet, if_true]
  by_cases hn : n - 1 = 0
  · simp [hn]
  · simp [hn]

theorem cntTo_cons (e : Edge) (es : List Edge) (w : String) :
    cntTo (e :: es) w = cntTo es w + (if e.dst.nodeId = w then 1 else 0) := by
  unfold cntTo
  rw [List.countP_cons]
  by_cases h : e.dst.nodeId = w <;> simp [h]

/-- The inner loop of Kahn's algorithm: every in-degree drops by the number of processed
edges that end at the node, and the nodes that reach zero are queued once. -/
theorem foldl_kahnRelax (N : List String) (todo : List Edge) :
    ∀ (indeg : List (String × Option Int)) (q : List String) (val : String → Int),
      (∀ e ∈ todo, e.dst.nodeId ∈ N) →
      (∀ w ∈ N, mapGet indeg w = some (some (val w))) →
      (∀ w ∈ N, (cntTo todo w : Int) ≤ val w) →
      ∃ newq, (todo.foldl kahnRelax (indeg, q)).2 = q ++ newq ∧ newq.Nodup ∧
        (∀ w, w ∈ newq ↔ (w ∈ N ∧ 0 < cntTo todo w ∧ val w = cntTo todo w)) ∧
        (∀ w ∈ N, mapGet (todo.foldl kahnRelax (indeg, q)).1 w
            = some (some (val w - cntTo todo w))) := by
  induction todo with
  | nil =>
    intro indeg q val _ hval _
    refine ⟨[], by simp, List.nodup_nil, ?_, ?_⟩
    · intro w
      simp [cntTo]
    · intro w hw
      simp [cntTo, hval w hw]
  | cons e rest ih =>
    intro indeg q val hdst hval hle
    have he : e.dst.nodeId ∈ N := hdst e (List.mem_cons_self _ _)
    rw [List.foldl_cons, kahnRelax_eq indeg q e (val e.dst.nodeId) (hval _ he)]
    have hle0 := hle _ he
    rw [cntTo_cons] at hle0
    simp only [if_true, Nat.cast_add, Nat.cast_one] at hle0
    obtain ⟨newq, h1, h2, h3, h4⟩ := ih (mapSet indeg e.dst.nodeId (some (val e.dst.nodeId - 1)))
      (if val e.dst.nodeId - 1 = 0 then q ++ [e.dst.nodeId] else q)
      (fun w => if w = e.dst.nodeId then val w - 1 else val w)
      (fun e2 he2 => hdst e2 (List.mem_cons_of_mem _ he2))
      (by
        intro w hw
        rw [mapGet_mapSet]
        by_cases hwe : w = e.dst.nodeId
        · simp [hwe]
        · simp [hwe, hval w hw])
      (by
        intro w hw
        have := hle w hw
        rw [cntTo_cons] at this
        by_cases hwe : w = e.dst.nodeId
        · have h5 : e.dst.nodeId = w := hwe.symm
          simp only [h5, if_true, Nat.cast_add, Nat.cast_one] at this ⊢
          omega
        · have h5 : ¬ e.dst.nodeId = w := fun h => hwe h.symm
          simp only [h5, hwe, if_false, Nat.cast_add, Nat.cast_zero, add_zero] at this ⊢
          exact this)
    have hrest0 : (0 : Int) ≤ cntTo rest e.dst.nodeId := Int.natCast_nonneg _
    by_cases hz : val e.dst.nodeId - 1 = 0
    · rw [if_pos hz] at h1 h4
      refine ⟨e.dst.nodeId :: newq, ?_, ?_, ?_, ?_⟩
      · rw [if_pos hz, h1]
        simp
      · rw [List.nodup_cons]
        refine ⟨?_, h2⟩
        intro hmem
        have := (h3 _).1 hmem
        simp only [if_true] at this
        omega
      · intro w
        rw [List.mem_cons, h3 w, cntTo_cons]
        by_cases hwe : w = e.dst.nodeId
        · subst hwe
          simp only [if_true, true_or, true_iff]
          refine ⟨he, by omega, ?_⟩
          push_cast
          omega
        · have h5 : ¬ e.dst.nodeId = w := fun h => hwe h.symm
          simp [hwe, h5]
      · intro w hw
        rw [if_pos hz, h4 w hw, cntTo_cons]
        by_cases hwe : w = e.dst.nodeId
        · subst hwe
          simp only [if_true]
          congr 2
          push_cast
          omega
        · have h5 : ¬ e.dst.nodeId = w := fun h => hwe h.symm
          simp [hwe, h5]
    · rw [if_neg hz] at h1 h4
      refine ⟨newq, ?_, h2, ?_, ?_⟩
      · rw [if_neg hz, h1]
      · intro w
        rw [h3 w, cntTo_cons]
        by_cases hwe : w = e.dst.nodeId
        · subst hwe
          simp only [if_true]
          constructor
          · rintro ⟨h5, h6, h7⟩
            refine ⟨h5, by omega, ?_⟩
            push_cast
            omega
          · rintro ⟨h5, _, h7⟩
            push_cast at h7
            refine ⟨h5, ?_, by omega⟩
            omega
        · have h5 : ¬ e.dst.nodeId = w := fun h => hwe h.symm
          simp [hwe, h5]
      · intro w hw
        rw [if_neg hz, h4 w hw, cntTo_cons]
        by_cases hwe : w = e.dst.nodeId
        · subst hwe
          simp only [if_true]
          congr 2
          push_cast
          omega
        · have h5 : ¬ e.dst.nodeId = w := fun h => hwe h.symm
          simp [hwe, h5]

theorem countP_add_of_pointwise {α : Type} (l : List α) (p q r : α → Bool)
    (h : ∀ x ∈ l, (if p x then 1 else 0) = (if q x then 1 else 0) + (if r x then 1 else 0)) :
    l.countP p = l.countP q + l.countP r := by
  induction l with
  | nil => simp
  | cons a l ih =>
    have h1 := h a (List.mem_cons_self _ _)
    have h2 := ih (fun x hx => h x (List.mem_cons_of_mem _ hx))
    simp only [List.countP_cons, h2]
    omega

theorem pending_split (g : Graph) (order : List String) (v w : String) (hv : v ∉ order) :
    pending g order w = pending g (order ++ [v]) w + cntTo (outEdges g v) w := by
  unfold pending cntTo outEdges
  rw [List.countP_filter]
  apply countP_add_of_pointwise
  intro e _
  by_cases h2 : e.src.nodeId = v
  · have h3 : e.src.nodeId ∉ order := h2 ▸ hv
    by_cases h1 : e.dst.nodeId = w <;> simp [h1, h2, h3, hv]
  · by_cases h1 : e.dst.nodeId = w <;> by_cases h3 : e.src.nodeId ∈ order <;>
      simp [h1, h2, h3]

theorem pending_eq_zero (g : Graph) (order : List String) (w : String)
    (h : pending g order w = 0) :
    ∀ e ∈ mapValues g.edges, e.dst.nodeId = w → e.src.nodeId ∈ order := by
  unfold pending at h
  rw [List.countP_eq_zero] at h
  intro e he hw
  have := h e he
  simp only [decide_eq_true_eq, not_and, not_not] at this
  exact this hw

theorem length_le_of_nodup_subset (l N : List String) (hl : l.Nodup) (hs : ∀ x ∈ l, x ∈ N) :
    l.length ≤ N.length :=
  (List.subperm_of_subset hl hs).length_le

/-- One iteration of the `while` loop keeps the invariant. -/
theorem kahnInv_step (g : Graph) (hnd : NoDangling g)
    (indeg : List (String × Option Int)) (v : String) (rest order : List String)
    (hinv : KahnInv g indeg (v :: rest) order) :
    KahnInv g ((outEdges g v).foldl kahnRelax (indeg, rest)).1
      ((outEdges g v).foldl kahnRelax (indeg, rest)).2 (order ++ [v]) := by
  have hvN : v ∈ mapKeys g.nodes := hinv.sub v (by simp)
  have hvo : v ∉ order := by
    have := hinv.nodup
    rw [List.nodup_append] at this
    intro hmem
    exact this.2.2 hmem (List.mem_cons_self _ _)
  have hsplit := fun w => pending_split g order v w hvo
  obtain ⟨newq, h1, h2, h3, h4⟩ := foldl_kahnRelax (mapKeys g.nodes) (outEdges g v) indeg rest
    (fun w => (pending g order w : Int))
    (by
      intro e he
      unfold outEdges at he
      rw [List.mem_filter] at he
      obtain ⟨p, hp, rfl⟩ := (mem_mapValues _ _).1 he.1
      exact (mem_mapKeys_iff _ _).2 (hnd p hp).2)
    hinv.indeg_eq
    (by
      intro w _
      show (cntTo (outEdges g v) w : Int) ≤ (pending g order w : Int)
      have := hsplit w
      omega)
  have hdisj : ∀ w, w ∈ order ++ v :: rest → w ∉ newq := by
    intro w hw hq
    obtain ⟨hN, hpos, heq⟩ := (h3 w).1 hq
    have := (hinv.zero w hN).1 hw
    omega
  refine ⟨?_, ?_, ?_, ?_, ?_⟩
  · intro w hw
    rw [h4 w hw]
    congr 2
    have := hsplit w
    omega
  · rw [h1]
    have : order ++ [v] ++ (rest ++ newq) = (order ++ v :: rest) ++ newq := by simp
    rw [this, List.nodup_append]
    exact ⟨hinv.nodup, h2, fun w hw hq => hdisj w hw hq⟩
  · rw [h1]
    intro w hw
    have : order ++ [v] ++ (rest ++ newq) = (order ++ v :: rest) ++ newq := by simp
    rw [this, List.mem_append] at hw
    rcases hw with hw | hw
    · exact hinv.sub w hw
    · exact ((h3 w).1 hw).1
  · intro w hw
    rw [h1]
    have : order ++ [v] ++ (rest ++ newq) = (order ++ v :: rest) ++ newq := by simp
    rw [this, List.mem_append, hinv.zero w hw, h3 w]
    have := hsplit w
    constructor
    · rintro (h5 | ⟨_, _, h7⟩)
      · omega
      · omega
    · intro h5
      by_cases hc : cntTo (outEdges g v) w = 0
      · left
        omega
      · right
        refine ⟨hw, by omega, ?_⟩
        omega
  · intro l1 w l2 hsp e he hew
    rcases List.eq_nil_or_concat l2 with rfl | ⟨L, b, rfl⟩
    · have h5 : order ++ [v] = l1 ++ [w] := hsp
      obtain ⟨h6, h7⟩ := List.append_inj' h5 rfl
      have h8 : v = w := by simpa using h7
      subst h8
      rw [← h6]
      have hz := (hinv.zero v hvN).1 (by simp)
      exact pending_eq_zero g order v hz e he hew
    · have h5 : order ++ [v] = (l1 ++ w :: L) ++ [b] := by
        rw [hsp]
        simp
      obtain ⟨h6, _⟩ := List.append_inj' h5 rfl
      exact hinv.before l1 w L h6 e he hew

/-- The `while` loop of Kahn's algorithm terminates within one iteration per node and ends
in a state that satisfies the invariant with an empty queue. -/
theorem kahnLoop_inv (g : Graph) (hnd : NoDangling g) (outT : List (String × List Edge))
    (hout : ∀ k ∈ mapKeys g.nodes, mapGet outT k = some (outEdges g k)) :
    ∀ (fuel : Nat) (indeg : List (String × Option Int)) (q order : List String),
      KahnInv g indeg q order → (mapKeys g.nodes).length ≤ fuel + order.length →
      ∃ order2 indeg2, kahnLoop outT fuel indeg q order = Outcome.ret order2 ∧
        KahnInv g indeg2 [] order2 := by
  intro fuel
  induction fuel with
  | zero =>
    intro indeg q order hinv hlen
    cases q with
    | nil => exact ⟨order, indeg, by simp [kahnLoop], hinv⟩
    | cons v rest =>
      have := length_le_of_nodup_subset _ _ hinv.nodup hinv.sub
      simp only [List.length_append, List.length_cons] at this
      omega
  | succ n ih =>
    intro indeg q order hinv hlen
    cases q with
    | nil => exact ⟨order, indeg, by simp [kahnLoop], hinv⟩
    | cons v rest =>
      have hvN : v ∈ mapKeys g.nodes := hinv.sub v (by simp)
      rw [kahnLoop, hout v hvN]
      dsimp only
      apply ih _ _ _ (kahnInv_step g hnd indeg v rest order hinv)
      simp only [List.length_append, List.length_singleton]
      omega

theorem initIndeg_some (nodes : List (String × Node)) (inT : List (String × List Edge))
    (h : ∀ p ∈ nodes, ∃ l, mapGet inT p.1 = some l) :
    initIndeg nodes inT
      = some (nodes.map (fun p => (p.1, some (((mapGet inT p.1).getD []).length : Int)))) := by
  unfold initIndeg
  induction nodes with
  | nil => rfl
  | cons a nodes ih =>
    obtain ⟨l, hl⟩ := h a (List.mem_cons_self _ _)
    have ih2 := ih (fun p hp => h p (List.mem_cons_of_mem _ hp))
    rw [List.mapM_cons, ih2, hl]
    simp [hl]

theorem pending_nil (g : Graph) (w : String) : pending g [] w = (inEdges g w).length := by
  unfold pending inEdges
  rw [List.countP_eq_length_filter]
  congr 1
  apply List.filter_congr
  intro e _
  rw [Bool.eq_iff_iff]
  simp

/-- With no dangling edge, Kahn's algorithm returns, and its final state satisfies the loop
invariant with an empty queue. -/
theorem kahnOrder_spec (g : Graph) (hN : keysNodup g.nodes) (hnd : NoDangling g) :
    ∃ order indeg, kahnOrder g = Outcome.ret order ∧ KahnInv g indeg [] order := by
  obtain ⟨i, o, hb⟩ := buildEdgeTables_of_noDangling g hnd
  obtain ⟨hi, ho, _⟩ := buildEdgeTables_some g i o hb
  have hinit := initIndeg_some g.nodes i (by
    intro p hp
    refine ⟨inEdges g p.1, ?_⟩
    rw [hi, if_pos ((mapHas_iff _ _).2 ⟨p, hp, rfl⟩)])
  have hget : ∀ w ∈ mapKeys g.nodes,
      mapGet (g.nodes.map (fun p => (p.1, some (((mapGet i p.1).getD []).length : Int)))) w
        = some (some (pending g [] w : Int)) := by
    intro w hw
    rw [mapGet_map_val]
    have hhas := (mem_mapKeys_iff _ _).1 hw
    cases hf : g.nodes.find? (fun p => p.1 == w) with
    | none =>
      have h3 := mapGet_isSome g.nodes w
      rw [hhas] at h3
      simp [mapGet, hf] at h3
    | some p =>
      have hpk : p.1 = w := by simpa using List.find?_some hf
      simp only [Option.map_some', hpk, hi w, hhas, if_true, Option.getD_some, pending_nil]
  unfold kahnOrder
  rw [hb]
  dsimp only
  rw [hinit]
  dsimp only
  apply kahnLoop_inv g hnd o
    (fun k hk => by rw [ho k, if_pos ((mem_mapKeys_iff _ _).1 hk)])
  · refine ⟨hget, ?_, ?_, ?_, ?_⟩
    · rw [List.nil_append]
      exact List.Nodup.filter _ hN
    · intro w hw
      rw [List.nil_append, List.mem_filter] at hw
      exact hw.1
    · intro w hw
      rw [List.nil_append, List.mem_filter, hget w hw]
      simp [hw]
    · intro l1 w l2 h
      simp at h
  · simp [mapKeys]

/-- In the final state of Kahn's algorithm the source of every edge into a processed node
sits at a smaller index of the order than the node. -/
theorem kahn_before_index (g : Graph) (indeg : List (String × Option Int)) (order : List String)
    (hinv : KahnInv g indeg [] order) (p : String × Edge) (hp : p ∈ g.edges)
    (hd : p.2.dst.nodeId ∈ order) :
    order.indexOf p.2.src.nodeId < order.indexOf p.2.dst.nodeId := by
  obtain ⟨l1, l2, hsplit⟩ := List.append_of_mem hd
  have hnd : order.Nodup := by simpa using hinv.nodup
  have hnot : p.2.dst.nodeId ∉ l1 := by
    rw [hsplit, List.nodup_append] at hnd
    intro hmem
    exact hnd.2.2 hmem (List.mem_cons_self _ _)
  have hsrc : p.2.src.nodeId ∈ l1 :=
    hinv.before l1 _ l2 hsplit p.2 ((mem_mapValues _ _).2 ⟨p, hp, rfl⟩) rfl
  rw [hsplit, List.indexOf_append_of_mem hsrc, List.indexOf_append_of_not_mem hnot,
    List.indexOf_cons_self]
  have := List.indexOf_lt_length.2 hsrc
  omega

theorem kahn_covers_of_acyclic (g : Graph) (indeg : List (String × Option Int))
    (order : List String) (hinv : KahnInv g indeg [] order) (hnd : NoDangling g)
    (hac : Acyclic g) : ∀ w ∈ mapKeys g.nodes, w ∈ order := by
  classical
  by_contra hcon
  push_neg at hcon
  obtain ⟨w0, hw0N, hw0⟩ := hcon
  let r : {x // x ∈ mapKeys g.nodes} → {x // x ∈ mapKeys g.nodes} → Prop :=
    fun a b => Relation.TransGen (edgeRel g) a.1 b.1
  haveI : IsTrans {x // x ∈ mapKeys g.nodes} r :=
    ⟨fun a b c hab hbc => Relation.TransGen.trans hab hbc⟩
  haveI : IsIrrefl {x // x ∈ mapKeys g.nodes} r := ⟨fun a haa => hac a.1 haa⟩
  have hwf : WellFounded r := Finite.wellFounded_of_trans_of_irrefl r
  obtain ⟨m, hm, hmin⟩ := hwf.has_min {x | x.1 ∉ order} ⟨⟨w0, hw0N⟩, hw0⟩
  have hpend : pending g order m.1 ≠ 0 := by
    intro h
    apply hm
    simpa using (hinv.zero m.1 m.2).2 h
  unfold pending at hpend
  rw [Ne, List.countP_eq_zero] at hpend
  push_neg at hpend
  obtain ⟨e, he, hcond⟩ := hpend
  simp only [decide_eq_true_eq] at hcond
  obtain ⟨p, hp, rfl⟩ := (mem_mapValues _ _).1 he
  have hsN : p.2.src.nodeId ∈ mapKeys g.nodes := (mem_mapKeys_iff _ _).2 (hnd p hp).1
  exact hmin ⟨p.2.src.nodeId, hsN⟩ hcond.2 (Relation.TransGen.single ⟨p, hp, rfl, hcond.1⟩)

theorem kahn_acyclic_of_covers (g : Graph) (indeg : List (String × Option Int))
    (order : List String) (hinv : KahnInv g indeg [] order) (hnd : NoDangling g)
    (hcov : ∀ w ∈ mapKeys g.nodes, w ∈ order) : Acyclic g := by
  apply acyclic_of_rank g (fun w => order.indexOf w)
  intro p hp
  exact kahn_before_index g indeg order hinv p hp
    (hcov _ ((mem_mapKeys_iff _ _).2 (hnd p hp).2))

theorem kahn_perm_of_covers (g : Graph) (indeg : List (String × Option Int))
    (order : List String) (hinv : KahnInv g indeg [] order) (hN : keysNodup g.nodes)
    (hcov : ∀ w ∈ mapKeys g.nodes, w ∈ order) : order.Perm (mapKeys g.nodes) := by
  have hnd : order.Nodup := by simpa using hinv.nodup
  rw [List.perm_ext_iff_of_nodup hnd hN]
  intro a
  exact ⟨fun h => hinv.sub a (by simpa using h), hcov a⟩

theorem kahn_covers_of_length (g : Graph) (indeg : List (String × Option Int))
    (order : List String) (hinv : KahnInv g indeg [] order)
    (hlen : g.nodes.length ≤ order.length) : ∀ w ∈ mapKeys g.nodes, w ∈ order := by
  have hnd : order.Nodup := by simpa using hinv.nodup
  have hsub : order.Subperm (mapKeys g.nodes) :=
    List.subperm_of_subset hnd (fun a h => hinv.sub a (by simpa using h))
  have hperm := hsub.perm_of_length_le (by simpa [mapKeys] using hlen)
  intro w hw
  exact hperm.symm.subset hw

/-- With no dangling edge, the order of Kahn's algorithm is shorter than the node count
exactly when the edges contain a directed cycle. -/
theorem kahn_short_iff_cycle (g : Graph) (indeg : List (String × Option Int))
    (order : List String) (hinv : KahnInv g indeg [] order) (hN : keysNodup g.nodes)
    (hnd : NoDangling g) : order.length < g.nodes.length ↔ ¬ Acyclic g := by
  constructor
  · intro hlt hac
    have hperm := kahn_perm_of_covers g indeg order hinv hN
      (kahn_covers_of_acyclic g indeg order hinv hnd hac)
    have := hperm.length_eq
    simp only [mapKeys, List.length_map] at this
    omega
  · intro hcyc
    by_contra hlt
    exact hcyc (kahn_acyclic_of_covers g indeg order hinv hnd
      (kahn_covers_of_length g indeg order hinv (by omega)))

/-! ## The evaluation loop of `computeGraph` -/

theorem computeGraph_eq {O : Type}
    (catalog : String → Option (Params → List (String × Option O) → Option O))
    (g : Graph) (i o : List (String × List Edge)) (order : List String)
    (hb : buildEdgeTables g = some (i, o)) (hk : kahnOrder g = Outcome.ret order) :
    computeGraph catalog g
      = if order.length ≠ g.nodes.length then Outcome.ret (Pass.mk [] [])
        else
          match order.foldlM (evalNode catalog g i) (Pass.mk [] []) with
          | none => Outcome.throws
          | some pass => Outcome.ret pass := by
  unfold computeGraph
  rw [hb]
  dsimp only
  rw [hk]

theorem gatherInputs_congr {O : Type} (o1 o2 : List (String × O)) (ins : List Edge)
    (h : ∀ e ∈ ins, mapGet o1 e.src.nodeId = mapGet o2 e.src.nodeId) :
    gatherInputs o1 ins = gatherInputs o2 ins := by
  unfold gatherInputs
  generalize ([] : List (String × Option O)) = m0
  induction ins generalizing m0 with
  | nil => rfl
  | cons e rest ih =>
    rw [List.foldl_cons, List.foldl_cons, h e (List.mem_cons_self _ _)]
    exact ih (fun e2 he2 => h e2 (List.mem_cons_of_mem _ he2)) _

theorem foldl_gather_port {O : Type} (outs : List (String × O)) (port : String) (x : Option O)
    (ins : List Edge)
    (hall : ∀ e ∈ ins, e.dst.port = port → mapGet outs e.src.nodeId = x) :
    ∀ m0 : List (String × Option O),
      mapGet (ins.foldl (fun m e => mapSet m e.dst.port (mapGet outs e.src.nodeId)) m0) port
        = if ∃ e ∈ ins, e.dst.port = port then some x else mapGet m0 port := by
  induction ins with
  | nil =>
    intro m0
    simp
  | cons e rest ih =>
    intro m0
    rw [List.foldl_cons, ih (fun e2 he2 => hall e2 (List.mem_cons_of_mem _ he2))]
    by_cases hr : ∃ e2 ∈ rest, e2.dst.port = port
    · have : ∃ e2 ∈ e :: rest, e2.dst.port = port := by
        obtain ⟨e2, he2, hp⟩ := hr
        exact ⟨e2, List.mem_cons_of_mem _ he2, hp⟩
      rw [if_pos hr, if_pos this]
    · rw [if_neg hr, mapGet_mapSet]
      by_cases he : e.dst.port = port
      · have : ∃ e2 ∈ e :: rest, e2.dst.port = port := ⟨e, List.mem_cons_self _ _, he⟩
        rw [if_pos this, if_pos he.symm, hall e (List.mem_cons_self _ _) he]
      · have : ¬ ∃ e2 ∈ e :: rest, e2.dst.port = port := by
          rintro ⟨e2, he2, hp⟩
          rcases List.mem_cons.1 he2 with rfl | he2
          · exact he hp
          · exact hr ⟨e2, he2, hp⟩
        rw [if_neg this, if_neg (fun h => he h.symm)]

/-- A port all of whose incoming edges read the same value receives that value. -/
theorem gatherInputs_port {O : Type} (outs : List (String × O)) (port : String) (x : Option O)
    (ins : List Edge) (hex : ∃ e ∈ ins, e.dst.port = port)
    (hall : ∀ e ∈ ins, e.dst.port = port → mapGet outs e.src.nodeId = x) :
    mapGet (gatherInputs outs ins) port = some x := by
  unfold gatherInputs
  rw [foldl_gather_port outs port x ins hall, if_pos hex]

theorem evalNode_inv {O : Type}
    (catalog : String → Option (Params → List (String × Option O) → Option O))
    (g : Graph) (inT : List (String × List Edge))
    (hin : ∀ k ∈ mapKeys g.nodes, mapGet inT k = some (inEdges g k))
    (hcat : ∀ p ∈ g.nodes, (catalog p.2.type).isSome = true)
    (st : Pass O) (done : List String) (id : String)
    (hinv : EvalInv catalog g st done) (hid : id ∈ mapKeys g.nodes) (hnew : id ∉ done)
    (hsrc : ∀ e ∈ inEdges g id, e.src.nodeId ∈ done)
    (hsrcDone : ∀ w ∈ done, ∀ e ∈ inEdges g w, e.src.nodeId ∈ done) :
    ∃ st2, evalNode catalog g inT st id = some st2 ∧ EvalInv catalog g st2 (done ++ [id]) := by
  have hhas := (mem_mapKeys_iff _ _).1 hid
  obtain ⟨node, hnode⟩ : ∃ node, mapGet g.nodes id = some node := by
    have := mapGet_isSome g.nodes id
    rw [hhas] at this
    exact Option.isSome_iff_exists.1 this
  have hnodeMem : ∃ p ∈ g.nodes, p.2 = node := by
    unfold mapGet at hnode
    cases hf : g.nodes.find? (fun p => p.1 == id) with
    | none => simp [hf] at hnode
    | some p =>
      rw [hf] at hnode
      exact ⟨p, List.mem_of_find?_eq_some hf, by simpa using hnode⟩
  obtain ⟨p, hp, hpn⟩ := hnodeMem
  obtain ⟨compute, hcompute⟩ : ∃ compute, catalog node.type = some compute := by
    have := hcat p hp
    rw [hpn] at this
    exact Option.isSome_iff_exists.1 this
  have hcallNe : ∀ c ∈ st.calls, c.nodeId ≠ id := by
    intro c hc heq
    apply hnew
    rw [← hinv.ids, ← heq]
    exact List.mem_map_of_mem _ hc
  have hcallDone : ∀ c ∈ st.calls, c.nodeId ∈ done := by
    intro c hc
    rw [← hinv.ids]
    exact List.mem_map_of_mem _ hc
  have hfresh : mapGet st.outputs id = none := by
    cases hm : mapGet st.outputs id with
    | none => rfl
    | some v =>
      have h1 := mapGet_isSome st.outputs id
      rw [hm] at h1
      exact absurd (hinv.keys id h1.symm) hnew
  unfold evalNode
  rw [hnode, hin id hid]
  dsimp only
  rw [hcompute]
  dsimp only
  cases hres : compute node.params (gatherInputs st.outputs (inEdges g id)) with
  | none =>
    refine ⟨_, rfl, ?_, ?_, ?_, ?_, ?_⟩
    · simp [hinv.ids]
    · intro c hc
      rcases List.mem_append.1 hc with hc | hc
      · exact hinv.results c hc
      · rw [List.mem_singleton] at hc
        subst hc
        exact ⟨node, compute, hnode, hcompute, hres.symm⟩
    · intro c hc
      rcases List.mem_append.1 hc with hc | hc
      · exact hinv.inputs c hc
      · rw [List.mem_singleton] at hc
        subst hc
        rfl
    · intro c hc
      rcases List.mem_append.1 hc with hc | hc
      · exact hinv.stored c hc
      · rw [List.mem_singleton] at hc
        subst hc
        exact hfresh
    · intro k hk
      exact List.mem_append_left _ (hinv.keys k hk)
  | some out =>
    have hget : ∀ k, k ≠ id → mapGet (mapSet st.outputs id out) k = mapGet st.outputs k := by
      intro k hk
      rw [mapGet_mapSet, if_neg hk]
    refine ⟨_, rfl, ?_, ?_, ?_, ?_, ?_⟩
    · simp [hinv.ids]
    · intro c hc
      rcases List.mem_append.1 hc with hc | hc
      · exact hinv.results c hc
      · rw [List.mem_singleton] at hc
        subst hc
        exact ⟨node, compute, hnode, hcompute, hres.symm⟩
    · intro c hc
      rcases List.mem_append.1 hc with hc | hc
      · rw [hinv.inputs c hc]
        apply gatherInputs_congr
        intro e he
        symm
        apply hget
        intro heq
        exact hnew (heq ▸ hsrcDone c.nodeId (hcallDone c hc) e he)
      · rw [List.mem_singleton] at hc
        subst hc
        apply gatherInputs_congr
        intro e he
        symm
        apply hget
        intro heq
        exact hnew (heq ▸ hsrc e he)
    · intro c hc
      rcases List.mem_append.1 hc with hc | hc
      · show mapGet (mapSet st.outputs id out) c.nodeId = c.result
        rw [hget _ (hcallNe c hc)]
        exact hinv.stored c hc
      · rw [List.mem_singleton] at hc
        subst hc
        show mapGet (mapSet st.outputs id out) id = some out
        rw [mapGet_mapSet, if_pos rfl]
    · intro k hk
      have hk2 : mapHas (mapSet st.outputs id out) k = true := hk
      rw [mapHas_mapSet, Bool.or_eq_true] at hk2
      rcases hk2 with hk2 | hk2
      · exact List.mem_append_left _ (hinv.keys k hk2)
      · have : k = id := by simpa using hk2
        rw [this]
        simp

theorem foldlM_evalNode {O : Type}
    (catalog : String → Option (Params → List (String × Option O) → Option O))
    (g : Graph) (inT : List (String × List Edge))
    (hin : ∀ k ∈ mapKeys g.nodes, mapGet inT k = some (inEdges g k))
    (hcat : ∀ p ∈ g.nodes, (catalog p.2.type).isSome = true)
    (order : List String) (hnd : order.Nodup) (hsub : ∀ w ∈ order, w ∈ mapKeys g.nodes)
    (hbefore : ∀ l1 w l2, order = l1 ++ w :: l2 →
      ∀ e ∈ mapValues g.edges, e.dst.nodeId = w → e.src.nodeId ∈ l1) :
    ∀ (todo done : List String) (st : Pass O), order = done ++ todo →
      EvalInv catalog g st done →
      ∃ pass, todo.foldlM (evalNode catalog g inT) st = some pass ∧
        EvalInv catalog g pass order := by
  have hsrcOf : ∀ l1 w l2, order = l1 ++ w :: l2 → ∀ e ∈ inEdges g w, e.src.nodeId ∈ l1 := by
    intro l1 w l2 hsp e he
    unfold inEdges at he
    rw [List.mem_filter] at he
    exact hbefore l1 w l2 hsp e he.1 (by simpa using he.2)
  intro todo
  induction todo with
  | nil =>
    intro done st hsp hinv
    rw [List.append_nil] at hsp
    subst hsp
    exact ⟨st, rfl, hinv⟩
  | cons id rest ih =>
    intro done st hsp hinv
    have hidN : id ∈ mapKeys g.nodes := hsub id (by rw [hsp]; simp)
    have hnew : id ∉ done := by
      rw [hsp, List.nodup_append] at hnd
      intro hmem
      exact hnd.2.2 hmem (List.mem_cons_self _ _)
    have hsrcDone : ∀ w ∈ done, ∀ e ∈ inEdges g w, e.src.nodeId ∈ done := by
      intro w hw e he
      obtain ⟨l1, l2, hd⟩ := List.append_of_mem hw
      have := hsrcOf l1 w (l2 ++ id :: rest) (by rw [hsp, hd]; simp) e he
      rw [hd]
      exact List.mem_append_left _ this
    obtain ⟨st2, hst2, hinv2⟩ := evalNode_inv catalog g inT hin hcat st done id hinv hidN hnew
      (hsrcOf done id rest hsp) hsrcDone
    obtain ⟨pass, hpass, hfin⟩ := ih (done ++ [id]) st2 (by rw [hsp]; simp) hinv2
    exact ⟨pass, by rw [List.foldlM_cons, hst2]; exact hpass, hfin⟩

/-- On an acyclic graph without dangling edges whose node types all have a compute
function, a pass returns, visits the nodes in Kahn's order, and that order is a permutation
of the node ids. -/
theorem computeGraph_acyclic_run {O : Type}
    (catalog : String → Option (Params → List (String × Option O) → Option O))
    (g : Graph) (hmap : keysNodup g.nodes) (hnd : NoDangling g) (hac : Acyclic g)
    (hcat : ∀ p ∈ g.nodes, (catalog p.2.type).isSome = true) :
    ∃ order indeg pass, kahnOrder g = Outcome.ret order ∧ KahnInv g indeg [] order ∧
      order.Perm (mapKeys g.nodes) ∧ computeGraph catalog g = Outcome.ret pass ∧
      EvalInv catalog g pass order := by
  obtain ⟨i, o, hb⟩ := buildEdgeTables_of_noDangling g hnd
  obtain ⟨hi, _, _⟩ := buildEdgeTables_some g i o hb
  obtain ⟨order, indeg, hk, hinv⟩ := kahnOrder_spec g hmap hnd
  have hcov := kahn_covers_of_acyclic g indeg order hinv hnd hac
  have hperm := kahn_perm_of_covers g indeg order hinv hmap hcov
  have hlen : order.length = g.nodes.length := by
    have := hperm.length_eq
    simpa [mapKeys] using this
  obtain ⟨pass, hpass, hfin⟩ := foldlM_evalNode catalog g i
    (fun k hk => by rw [hi k, if_pos ((mem_mapKeys_iff _ _).1 hk)]) hcat order
    (by simpa using hinv.nodup) (fun w hw => hinv.sub w (by simpa using hw)) hinv.before
    order [] (Pass.mk [] []) (by simp)
    ⟨rfl, by simp, by simp, by simp, by simp [mapHas]⟩
  refine ⟨order, indeg, pass, hk, hinv, hperm, ?_, hfin⟩
  rw [computeGraph_eq catalog g i o order hb hk, if_neg (by simp [hlen]), hpass]

/-! ## Claims C6 to C8 -/

/-- C6: on a graph with an acyclic edge set and no dangling edge, the order built by Kahn's
algorithm in `computeGraph` is a permutation of the node ids (every id exactly once) and
puts the source of every edge at a smaller index than its destination; when every node type
has a compute function, the pass calls compute once per node, in exactly that order. -/
theorem computeGraph_order {O : Type}
    (catalog : String → Option (Params → List (String × Option O) → Option O))
    (g : Graph) (hmap : keysNodup g.nodes) (hnd : NoDangling g) (hac : Acyclic g) :
    ∃ order, kahnOrder g = Outcome.ret order ∧
      order.Perm (mapKeys g.nodes) ∧ order.Nodup ∧
      (∀ p ∈ g.edges, order.indexOf p.2.src.nodeId < order.indexOf p.2.dst.nodeId) ∧
      ((∀ p ∈ g.nodes, (catalog p.2.type).isSome = true) →
        ∃ pass, computeGraph catalog g = Outcome.ret pass ∧
          pass.calls.map Call.nodeId = order) := by
  obtain ⟨order, indeg, hk, hinv⟩ := kahnOrder_spec g hmap hnd
  have hcov := kahn_covers_of_acyclic g indeg order hinv hnd hac
  refine ⟨order, hk, kahn_perm_of_covers g indeg order hinv hmap hcov,
    by simpa using hinv.nodup, ?_, ?_⟩
  · intro p hp
    exact kahn_before_index g indeg order hinv p hp
      (hcov _ ((mem_mapKeys_iff _ _).2 (hnd p hp).2))
  · intro hcat
    obtain ⟨order2, _, pass, hk2, _, _, hrun, hev⟩ :=
      computeGraph_acyclic_run catalog g hmap hnd hac hcat
    have : order2 = order := by
      rw [hk] at hk2
      exact (Outcome.ret.inj hk2).symm
    subst this
    exact ⟨pass, hrun, hev.ids⟩

/-- C7: on a graph with no dangling edge, Kahn's algorithm in `computeGraph` returns an order
that is shorter than the node count exactly when the edges contain a directed cycle, and in
that case the pass ends with no compute call made and no output stored. -/
theorem computeGraph_cycle_guard {O : Type}
    (catalog : String → Option (Params → List (String × Option O) → Option O))
    (g : Graph) (hmap : keysNodup g.nodes) (hnd : NoDangling g) :
    ∃ order, kahnOrder g = Outcome.ret order ∧
      (order.length < g.nodes.length ↔ ¬ Acyclic g) ∧
      (order.length < g.nodes.length →
        computeGraph catalog g = Outcome.ret (Pass.mk [] [])) := by
  obtain ⟨i, o, hb⟩ := buildEdgeTables_of_noDangling g hnd
  obtain ⟨order, indeg, hk, hinv⟩ := kahnOrder_spec g hmap hnd
  refine ⟨order, hk, kahn_short_iff_cycle g indeg order hinv hmap hnd, ?_⟩
  intro hlt
  rw [computeGraph_eq catalog g i o order hb hk, if_pos (by omega)]

/-- C8: on an acyclic graph with no dangling edge, whatever the compute functions answer, a
pass returns to its caller and calls the compute of every node exactly once; the output
table holds a node's output exactly when its compute succeeded; every call read its inputs
from that table, so a port fed only by failed nodes receives the empty input. -/
theorem computeGraph_isolates_failures {O : Type}
    (catalog : String → Option (Params → List (String × Option O) → Option O))
    (g : Graph) (hmap : keysNodup g.nodes) (hnd : NoDangling g) (hac : Acyclic g)
    (hcat : ∀ p ∈ g.nodes, (catalog p.2.type).isSome = true) :
    ∃ pass, computeGraph catalog g = Outcome.ret pass ∧
      (pass.calls.map Call.nodeId).Perm (mapKeys g.nodes) ∧
      (∀ c ∈ pass.calls, ∃ node compute, mapGet g.nodes c.nodeId = some node ∧
        catalog node.type = some compute ∧ c.result = compute node.params c.inputs) ∧
      (∀ c ∈ pass.calls, mapGet pass.outputs c.nodeId = c.result) ∧
      (∀ c ∈ pass.calls, c.inputs = gatherInputs pass.outputs (inEdges g c.nodeId)) ∧
      (∀ c ∈ pass.calls, ∀ port, (∃ e ∈ inEdges g c.nodeId, e.dst.port = port) →
        (∀ e ∈ inEdges g c.nodeId, e.dst.port = port →
          mapGet pass.outputs e.src.nodeId = none) →
        mapGet c.inputs port = some none) := by
  obtain ⟨order, _, pass, _, _, hperm, hrun, hev⟩ :=
    computeGraph_acyclic_run catalog g hmap hnd hac hcat
  refine ⟨pass, hrun, by rw [hev.ids]; exact hperm, hev.results, hev.stored, hev.inputs, ?_⟩
  intro c hc port hex hall
  rw [hev.inputs c hc]
  exact gatherInputs_port pass.outputs port none _ hex hall

theorem starterGraph_catalog :
    ∀ p ∈ starterGraph.nodes, (demoCatalog p.2.type).isSome = true := by
  decide

/-- Witness of C6: on the starter graph the order is noise, gradient, combine, display;
every wire goes forward in it, and the four compute calls are made in that order. -/
theorem computeGraph_order_witness :
    kahnOrder starterGraph
      = Outcome.ret ["node_k3x9q2a", "node_7h2m4zc", "node_p0w8e5r", "node_d6t1y4u"] ∧
    (∀ p ∈ starterGraph.edges,
      ["node_k3x9q2a", "node_7h2m4zc", "node_p0w8e5r", "node_d6t1y4u"].indexOf p.2.src.nodeId
        < ["node_k3x9q2a", "node_7h2m4zc", "node_p0w8e5r", "node_d6t1y4u"].indexOf
            p.2.dst.nodeId) ∧
    (∃ pass, computeGraph demoCatalog starterGraph = Outcome.ret pass ∧
      pass.calls.map Call.nodeId
        = ["node_k3x9q2a", "node_7h2m4zc", "node_p0w8e5r", "node_d6t1y4u"]) := by
  obtain ⟨order, hk, _, _, hidx, hcalls⟩ := computeGraph_order demoCatalog starterGraph
    starterGraph_keysNodup starterGraph_noDangling starterGraph_acyclic
  have hk2 : kahnOrder starterGraph
      = Outcome.ret ["node_k3x9q2a", "node_7h2m4zc", "node_p0w8e5r", "node_d6t1y4u"] := by
    decide
  have : order = ["node_k3x9q2a", "node_7h2m4zc", "node_p0w8e5r", "node_d6t1y4u"] := by
    rw [hk] at hk2
    exact Outcome.ret.inj hk2
  subst this
  exact ⟨hk, hidx, hcalls starterGraph_catalog⟩

theorem loopGraph_cyclic : ¬ Acyclic loopGraph := by
  intro h
  apply h "node_r1"
  exact Relation.TransGen.tail
    (Relation.TransGen.single
      ⟨("edge_r1", newEdge "edge_r1" "node_r1" "image" "node_r2" "A"), by decide, rfl, rfl⟩)
    ⟨("edge_r2", newEdge "edge_r2" "node_r2" "image" "node_r1" "A"), by decide, rfl, rfl⟩

/-- Witness of C7: on the two-node circle Kahn's algorithm outputs the empty order, shorter
than the node count 2, and the pass makes no call and stores nothing. -/
theorem computeGraph_cycle_guard_witness :
    kahnOrder loopGraph = Outcome.ret [] ∧
    (([] : List String).length < loopGraph.nodes.length ↔ ¬ Acyclic loopGraph) ∧
    computeGraph demoCatalog loopGraph = Outcome.ret (Pass.mk [] []) := by
  obtain ⟨order, hk, hiff, habort⟩ := computeGraph_cycle_guard demoCatalog loopGraph
    (by unfold keysNodup; decide) (by unfold NoDangling; decide)
  have hk2 : kahnOrder loopGraph = Outcome.ret [] := by decide
  have : order = [] := by
    rw [hk] at hk2
    exact Outcome.ret.inj hk2
  subst this
  exact ⟨hk, hiff, habort (hiff.2 loopGraph_cyclic)⟩

/-- Witness of C8: on the starter graph with a failing gradient node the pass returns; the
noise, Combine and Display nodes have their outputs stored, the gradient node has none, and
the Combine node received the empty input on port `B`. -/
theorem computeGraph_isolates_failures_witness :
    computeGraph demoCatalog starterGraph
      = Outcome.ret (Pass.mk
          [Call.mk "node_k3x9q2a" [] (some 1), Call.mk "node_7h2m4zc" [] none,
            Call.mk "node_p0w8e5r" [("A", some 1), ("B", none)] (some 3),
            Call.mk "node_d6t1y4u" [("image", some 3)] (some 2)]
          [("node_k3x9q2a", 1), ("node_p0w8e5r", 3), ("node_d6t1y4u", 2)]) ∧
    (∃ pass, computeGraph demoCatalog starterGraph = Outcome.ret pass ∧
      (pass.calls.map Call.nodeId).Perm (mapKeys starterGraph.nodes) ∧
      (∀ c ∈ pass.calls, mapGet pass.outputs c.nodeId = c.result) ∧
      (∀ c ∈ pass.calls, c.inputs = gatherInputs pass.outputs (inEdges starterGraph c.nodeId))) := by
  obtain ⟨pass, hrun, hperm, _, hstored, hinputs, _⟩ :=
    computeGraph_isolates_failures demoCatalog starterGraph starterGraph_keysNodup
      starterGraph_noDangling starterGraph_acyclic starterGraph_catalog
  exact ⟨by decide, pass, hrun, hperm, hstored, hinputs⟩

/-! ## Claims C9 and C10 -/

theorem rngState_hits_all_ones :
    rngState 3764646662 1 = 4294967295 ∧ rngState 153712863 2 = 4294967295 := by
  decide

set_option maxRecDepth 100000 in
theorem permTable_misses_255 : 255 ∉ (permTable 3764646662).take 256 := by
  decide!

/-- C9 (the code at the failing input): for the seed 3764646662 (the 32-bit pattern of
-530320634) the first call of the generator leaves the state 0xffffffff, so `rand()` is
exactly 1 and the first draw, made for `i = 255`, is `j = 256`, outside `[0, 255]`; the
table still has length 512, but the value 255 does not occur among its first 256 entries.
For the seed 153712863 the same happens at the second draw: `j = 255` for `i = 254`. -/
theorem createPerlin_seed_breaks_permutation :
    rngState 3764646662 1 = 4294967295 ∧
    drawIndex (rngState 3764646662 1) 255 = 256 ∧
    (permTable 3764646662).length = 512 ∧
    255 ∉ (permTable 3764646662).take 256 ∧
    drawIndex (rngState 153712863 2) 254 = 255 :=
  ⟨rngState_hits_all_ones.1, by decide, by simp [permTable], permTable_misses_255, by decide⟩

/-- C10 (the code at the failing input): for the seed 153712863 the second call of the
generator leaves the state 0xffffffff and returns `0xffffffff / 0xffffffff`, which is 1. -/
theorem createRNG_returns_one :
    rngState 153712863 2 = 4294967295 ∧ createRNG 153712863 2 = 1 := by
  have h : roundDouble (rngState 153712863 2) 0xffffffff = (4503599627370496, 52) := by
    decide
  refine ⟨rngState_hits_all_ones.2, ?_⟩
  unfold createRNG doubleValue
  rw [h]
  norm_num

/-! ## Claim C16: completeness of the search of `createsCycle` -/

theorem foldlM_adjPush_isSome (es : List Edge) :
    ∀ (adj0 : List (String × List String)),
      (∀ e ∈ es, mapHas adj0 e.src.nodeId = true) →
      ∃ adj, es.foldlM (fun a e => adjPush a e.src.nodeId e.dst.nodeId) adj0 = some adj := by
  induction es with
  | nil => exact fun adj0 _ => ⟨adj0, rfl⟩
  | cons e es ih =>
    intro adj0 h
    have h1 := h e (List.mem_cons_self _ _)
    obtain ⟨a1, ha1⟩ : ∃ a1, adjPush adj0 e.src.nodeId e.dst.nodeId = some a1 := by
      have := adjPush_isSome adj0 e.src.nodeId e.dst.nodeId
      rw [h1] at this
      exact Option.isSome_iff_exists.1 this
    obtain ⟨adj, hadj⟩ := ih a1 (by
      intro e2 he2
      rw [mapHas_adjPush adj0 a1 e.src.nodeId e.dst.nodeId _ ha1]
      exact h e2 (List.mem_cons_of_mem _ he2))
    exact ⟨adj, by rw [List.foldlM_cons, ha1]; exact hadj⟩

theorem buildAdj_isSome (g : Graph) (hsrc : ∀ p ∈ g.edges, mapHas g.nodes p.2.src.nodeId = true) :
    ∃ adj0, buildAdj g = some adj0 := by
  unfold buildAdj
  apply foldlM_adjPush_isSome
  intro e he
  obtain ⟨p, hp, rfl⟩ := (mem_mapValues _ _).1 he
  rw [← mapGet_isSome, mapGet_nodes_init, hsrc p hp]
  rfl

/-- A search that answers `true` has found the searched node among the nodes reachable
from the nodes it started with. -/
theorem dfsLoop_true_reachable (adj : List (String × List String)) (s d : String) :
    ∀ (fuel : Nat) (seen stack : List String),
      dfsLoop adj s fuel seen stack = some true →
      (∀ x ∈ stack, Relation.ReflTransGen (adjRel adj) d x) →
      Relation.ReflTransGen (adjRel adj) d s := by
  intro fuel
  induction fuel with
  | zero =>
    intro seen stack h _
    cases stack with
    | nil => simp [dfsLoop] at h
    | cons v rest => simp [dfsLoop] at h
  | succ n ih =>
    intro seen stack h hst
    cases stack with
    | nil => simp [dfsLoop] at h
    | cons v rest =>
      rw [dfsLoop] at h
      by_cases hv : v = s
      · rw [← hv]
        exact hst v (List.mem_cons_self _ _)
      · rw [if_neg hv] at h
        by_cases hseen : v ∈ seen
        · rw [if_pos hseen] at h
          exact ih seen rest h (fun x hx => hst x (List.mem_cons_of_mem _ hx))
        · rw [if_neg hseen] at h
          apply ih (v :: seen) _ h
          intro x hx
          rcases List.mem_append.1 hx with hx | hx
          · rw [List.mem_reverse] at hx
            exact Relation.ReflTransGen.tail (hst v (List.mem_cons_self _ _)) hx
          · exact hst x (List.mem_cons_of_mem _ hx)

/-- Whatever is reachable from `d` with the help of an extra edge `s → d` is reachable
from `d` without it. -/
theorem reachable_drop_back_edge {R R2 : String → String → Prop} (s d : String)
    (hR : ∀ x y, R2 x y → R x y ∨ (x = s ∧ y = d)) (x : String)
    (h : Relation.ReflTransGen R2 d x) : Relation.ReflTransGen R d x := by
  induction h with
  | refl => exact Relation.ReflTransGen.refl
  | tail _ hbc ih =>
    rcases hR _ _ hbc with h1 | ⟨_, rfl⟩
    · exact Relation.ReflTransGen.tail ih h1
    · exact Relation.ReflTransGen.refl

/-- When no edge leaves an id that is not a node, `createsCycle` returns, and it answers
`true` exactly when the source is reachable from the destination over the existing edges. -/
theorem createsCycle_spec (g : Graph) (s d : String)
    (hsrc : ∀ p ∈ g.edges, mapHas g.nodes p.2.src.nodeId = true) :
    ∃ b, createsCycle g s d = Outcome.ret b ∧
      (b = true ↔ Relation.ReflTransGen (edgeRel g) d s) := by
  obtain ⟨adj0, h0⟩ := buildAdj_isSome g hsrc
  have hhas : mapHas (if mapHas adj0 s then adj0 else mapSet adj0 s []) s = true := by
    by_cases hs : mapHas adj0 s = true
    · rw [if_pos hs]
      exact hs
    · rw [if_neg hs, mapHas_mapSet]
      simp
  obtain ⟨adj, h1⟩ : ∃ adj,
      adjPush (if mapHas adj0 s then adj0 else mapSet adj0 s []) s d = some adj := by
    have := adjPush_isSome (if mapHas adj0 s then adj0 else mapSet adj0 s []) s d
    rw [hhas] at this
    exact Option.isSome_iff_exists.1 this
  obtain ⟨b, hb⟩ := dfsLoop_total adj s (dfsMeasure adj [] [d]) [] [d] (le_refl _)
  have hret : createsCycle g s d = Outcome.ret b := by
    unfold createsCycle
    rw [h0]
    dsimp only
    rw [h1]
    dsimp only
    rw [hb]
  refine ⟨b, hret, ?_⟩
  constructor
  · intro hbt
    subst hbt
    have hreach := dfsLoop_true_reachable adj s d _ [] [d] hb (by
      intro x hx
      rw [List.mem_singleton] at hx
      rw [hx])
    exact reachable_drop_back_edge s d
      (fun x y hxy => (createsCycle_adj g s d adj0 adj h0 h1 x y).1 hxy) s hreach
  · intro hpath
    cases b with
    | true => rfl
    | false => exact absurd hpath (createsCycle_false_sound g s d hret)

theorem addEdge_committed_iff (g : Graph) (newId s sp d dp : String) (hne : s ≠ d) :
    (addEdge g newId s sp d dp).2 = AddEdgeResult.committed ↔
      createsCycle { g with edges := unbindInput g.edges d dp } s d = Outcome.ret false := by
  constructor
  · intro h
    exact (addEdge_committed g newId s sp d dp h).2.1
  · intro h
    unfold addEdge
    rw [if_neg hne]
    dsimp only
    rw [h]

theorem addEdge_rejected_iff (g : Graph) (newId s sp d dp : String) (hne : s ≠ d) :
    (addEdge g newId s sp d dp).2 = AddEdgeResult.cycleRejected ↔
      createsCycle { g with edges := unbindInput g.edges d dp } s d = Outcome.ret true := by
  unfold addEdge
  rw [if_neg hne]
  dsimp only
  generalize createsCycle { g with edges := unbindInput g.edges d dp } s d = r
  match r with
  | Outcome.ret true => simp
  | Outcome.ret false => simp
  | Outcome.throws => simp
  | Outcome.fuelOut => simp

/-- C16: on a graph with no dangling edge, cyclic or not, and for `src ≠ dst`,
`createsCycle(src, dst)` returns, and it returns `true` exactly when a directed path leads
from `dst` to `src` over the existing edges. Hence `addEdge`, once the edges bound to the
destination port are removed, commits the new edge exactly when no such path exists in what
is left and refuses it otherwise; and it never refuses an edge whose insertion would leave
the graph acyclic. -/
theorem createsCycle_iff_path (g : Graph) (newId src srcPort dst dstPort : String)
    (hnd : NoDangling g) (hne : src ≠ dst) :
    (∃ b, createsCycle g src dst = Outcome.ret b ∧
      (b = true ↔ Relation.TransGen (edgeRel g) dst src)) ∧
    ((addEdge g newId src srcPort dst dstPort).2 = AddEdgeResult.committed ↔
      ¬ Relation.TransGen (edgeRel { g with edges := unbindInput g.edges dst dstPort })
          dst src) ∧
    ((addEdge g newId src srcPort dst dstPort).2 = AddEdgeResult.cycleRejected ↔
      Relation.TransGen (edgeRel { g with edges := unbindInput g.edges dst dstPort })
          dst src) ∧
    (Acyclic { g with edges := unbindInput g.edges dst dstPort ++
        [(newId, newEdge newId src srcPort dst dstPort)] } →
      (addEdge g newId src srcPort dst dstPort).2 = AddEdgeResult.committed) := by
  have hpath : ∀ (R : String → String → Prop),
      Relation.ReflTransGen R dst src ↔ Relation.TransGen R dst src := by
    intro R
    rw [Relation.reflTransGen_iff_eq_or_transGen]
    constructor
    · rintro (h | h)
      · exact absurd h hne
      · exact h
    · exact fun h => Or.inr h
  have hsrc1 : ∀ p ∈ unbindInput g.edges dst dstPort,
      mapHas g.nodes p.2.src.nodeId = true :=
    fun p hp => (hnd p (unbindInput_subset _ _ _ p hp)).1
  obtain ⟨b, hb, hbi⟩ := createsCycle_spec g src dst (fun p hp => (hnd p hp).1)
  obtain ⟨b1, hb1, hbi1⟩ :=
    createsCycle_spec { g with edges := unbindInput g.edges dst dstPort } src dst hsrc1
  have hcommit : (addEdge g newId src srcPort dst dstPort).2 = AddEdgeResult.committed ↔
      ¬ Relation.TransGen (edgeRel { g with edges := unbindInput g.edges dst dstPort })
          dst src := by
    rw [addEdge_committed_iff g newId src srcPort dst dstPort hne, hb1, ← hpath, ← hbi1]
    cases b1 <;> simp
  refine ⟨⟨b, hb, by rw [hbi, hpath]⟩, hcommit, ?_, ?_⟩
  · rw [addEdge_rejected_iff g newId src srcPort dst dstPort hne, hb1, ← hpath, ← hbi1]
    cases b1 <;> simp
  · intro hac
    rw [hcommit]
    intro hp
    apply hac dst
    have hmono : Relation.TransGen (edgeRel { g with edges := unbindInput g.edges dst dstPort ++
        [(newId, newEdge newId src srcPort dst dstPort)] }) dst src :=
      Relation.TransGen.mono
        (fun u w ⟨p, hp, h1, h2⟩ => ⟨p, List.mem_append_left _ hp, h1, h2⟩) hp
    exact Relation.TransGen.tail hmono
      ⟨(newId, newEdge newId src srcPort dst dstPort), by simp, rfl, rfl⟩

/-- Witness of C16: in the starter graph the display node is reached from the noise node,
so `createsCycle` answers `true` for a wire from the display node back to the noise node and
`addEdge` refuses it, while a second wire from the noise node to input `B` of the Combine
node is committed. -/
theorem createsCycle_iff_path_witness :
    createsCycle starterGraph "node_d6t1y4u" "node_k3x9q2a" = Outcome.ret true ∧
    Relation.TransGen (edgeRel starterGraph) "node_k3x9q2a" "node_d6t1y4u" ∧
    (addEdge starterGraph "edge_v1w2x3y" "node_k3x9q2a" "image" "node_p0w8e5r" "B").2
      = AddEdgeResult.committed ∧
    ¬ Relation.TransGen
        (edgeRel { starterGraph with
          edges := unbindInput starterGraph.edges "node_p0w8e5r" "B" })
        "node_p0w8e5r" "node_k3x9q2a" := by
  obtain ⟨⟨b, hb, hbi⟩, _, _, _⟩ := createsCycle_iff_path starterGraph "edge_z9y8x7w"
    "node_d6t1y4u" "image" "node_k3x9q2a" "image" starterGraph_noDangling (by decide)
  obtain ⟨_, hcommit, _, _⟩ := createsCycle_iff_path starterGraph "edge_v1w2x3y"
    "node_k3x9q2a" "image" "node_p0w8e5r" "B" starterGraph_noDangling (by decide)
  have hb2 : createsCycle starterGraph "node_d6t1y4u" "node_k3x9q2a" = Outcome.ret true := by
    decide
  have hbt : b = true := by
    rw [hb] at hb2
    exact Outcome.ret.inj hb2
  have hc : (addEdge starterGraph "edge_v1w2x3y" "node_k3x9q2a" "image" "node_p0w8e5r" "B").2
      = AddEdgeResult.committed := by decide
  exact ⟨hb2, hbi.1 hbt, hc, hcommit.1 hc⟩

/-! ## Rounding to a double: bounds -/

theorem bitLength_zero (fuel : Nat) : bitLength fuel 0 = 0 := by
  cases fuel <;> simp [bitLength]

theorem bitLength_spec : ∀ (fuel n : Nat), n ≤ fuel → 0 < n →
    1 ≤ bitLength fuel n ∧ 2 ^ (bitLength fuel n - 1) ≤ n ∧ n < 2 ^ bitLength fuel n := by
  intro fuel
  induction fuel with
  | zero =>
    intro n h1 h2
    omega
  | succ f ih =>
    intro n h1 h2
    have hn : n ≠ 0 := by omega
    rw [bitLength, if_neg hn]
    by_cases h : n / 2 = 0
    · rw [h, bitLength_zero]
      have : n = 1 := by omega
      subst this
      simp
    · have hpos : 0 < n / 2 := Nat.pos_of_ne_zero h
      obtain ⟨h3, h4, h5⟩ := ih (n / 2) (by omega) hpos
      refine ⟨by omega, ?_, ?_⟩
      · have e : bitLength f (n / 2) + 1 - 1 = (bitLength f (n / 2) - 1) + 1 := by omega
        rw [e, pow_succ]
        omega
      · rw [pow_succ]
        omega

theorem log2Floor_spec (n : Nat) (h : 0 < n) :
    2 ^ log2Floor n ≤ n ∧ n < 2 ^ (log2Floor n + 1) := by
  obtain ⟨h1, h2, h3⟩ := bitLength_spec n n (le_refl _) h
  unfold log2Floor
  refine ⟨h2, ?_⟩
  have e : bitLength n n - 1 + 1 = bitLength n n := by omega
  rw [e]
  exact h3

theorem log2Floor_eq (n a : Nat) (h1 : 2 ^ a ≤ n) (h2 : n < 2 ^ (a + 1)) : log2Floor n = a := by
  have hpos : 0 < n := lt_of_lt_of_le (by positivity) h1
  obtain ⟨h3, h4⟩ := log2Floor_spec n hpos
  have h5 : log2Floor n < a + 1 := by
    rw [← Nat.pow_lt_pow_iff_right (a := 2) (by norm_num)]
    exact lt_of_le_of_lt h3 h2
  have h6 : a < log2Floor n + 1 := by
    rw [← Nat.pow_lt_pow_iff_right (a := 2) (by norm_num)]
    exact lt_of_le_of_lt h1 h4
  omega

theorem roundDouble_eq (num den : Nat) (h : num ≠ 0) :
    roundDouble num den =
      (if den < 2 * ((num * 2 ^ roundExp num den) % den) ∨
          (2 * ((num * 2 ^ roundExp num den) % den) = den ∧
            (num * 2 ^ roundExp num den) / den % 2 = 1)
        then (num * 2 ^ roundExp num den) / den + 1
        else (num * 2 ^ roundExp num den) / den,
       roundExp num den) := by
  unfold roundDouble roundExp
  rw [if_neg h]

theorem roundDouble_snd (num den : Nat) (h : num ≠ 0) :
    (roundDouble num den).2 = roundExp num den := by
  rw [roundDouble_eq num den h]

theorem roundDouble_fst_ge (num den : Nat) (h : num ≠ 0) :
    (num * 2 ^ roundExp num den) / den ≤ (roundDouble num den).1 := by
  rw [roundDouble_eq num den h]
  dsimp only
  split <;> omega

theorem roundDouble_fst_le (num den : Nat) (h : num ≠ 0) :
    (roundDouble num den).1 ≤ (num * 2 ^ roundExp num den) / den + 1 := by
  rw [roundDouble_eq num den h]
  dsimp only
  split <;> omega

/-- The scaled quotient is at least `2 ^ 52`. -/
theorem roundExp_lower (num den : Nat) (hn : 0 < num) (hd : 0 < den) :
    den * 2 ^ 52 ≤ num * 2 ^ roundExp num den := by
  unfold roundExp
  split
  · obtain ⟨h1, _⟩ := log2Floor_spec num hn
    obtain ⟨_, h4⟩ := log2Floor_spec den hd
    have hk : 52 + log2Floor den ≤ log2Floor num + (52 + log2Floor den - log2Floor num) := by
      omega
    calc den * 2 ^ 52 ≤ 2 ^ (log2Floor den + 1) * 2 ^ 52 :=
          Nat.mul_le_mul_right _ (le_of_lt h4)
      _ = 2 ^ (52 + log2Floor den + 1) := by rw [← pow_add]; congr 1; omega
      _ ≤ 2 ^ (log2Floor num + (52 + log2Floor den - log2Floor num) + 1) :=
          Nat.pow_le_pow_right (by norm_num) (by omega)
      _ = 2 ^ log2Floor num * 2 ^ (52 + log2Floor den - log2Floor num + 1) := by
          rw [← pow_add, add_assoc]
      _ ≤ num * 2 ^ (52 + log2Floor den - log2Floor num + 1) :=
          Nat.mul_le_mul_right _ h1
  · omega

/-- When the chosen exponent is positive, the scaled quotient is below `2 ^ 53`. -/
theorem roundExp_upper (num den : Nat) (hn : 0 < num) (hd : 0 < den)
    (hk : 0 < roundExp num den) :
    num * 2 ^ roundExp num den < den * 2 ^ 53 := by
  unfold roundExp at hk ⊢
  split
  · rename_i h
    rw [pow_succ, ← mul_assoc]
    have : den * 2 ^ 53 = den * 2 ^ 52 * 2 := by rw [mul_assoc, ← pow_succ]
    rw [this]
    omega
  · rename_i h
    rw [if_neg h] at hk
    obtain ⟨_, h2⟩ := log2Floor_spec num hn
    obtain ⟨h3, _⟩ := log2Floor_spec den hd
    calc num * 2 ^ (52 + log2Floor den - log2Floor num)
        < 2 ^ (log2Floor num + 1) * 2 ^ (52 + log2Floor den - log2Floor num) :=
          Nat.mul_lt_mul_of_pos_right h2 (by positivity)
      _ = 2 ^ (log2Floor den + 53) := by rw [← pow_add]; congr 1; omega
      _ = 2 ^ log2Floor den * 2 ^ 53 := by rw [pow_add]
      _ ≤ den * 2 ^ 53 := Nat.mul_le_mul_right _ h3

theorem roundDouble_mantissa_ge (num den : Nat) (hn : 0 < num) (hd : 0 < den) :
    2 ^ 52 ≤ (roundDouble num den).1 := by
  have h1 := roundExp_lower num den hn hd
  have h2 := roundDouble_fst_ge num den (by omega)
  have h3 : 2 ^ 52 ≤ (num * 2 ^ roundExp num den) / den := by
    rw [Nat.le_div_iff_mul_le hd, mul_comm]
    exact h1
  omega

theorem roundDouble_mantissa_le (num den : Nat) (hn : 0 < num) (hd : 0 < den)
    (hk : 0 < (roundDouble num den).2) :
    (roundDouble num den).1 ≤ 2 ^ 53 := by
  rw [roundDouble_snd num den (by omega)] at hk
  have h1 := roundExp_upper num den hn hd hk
  have h2 := roundDouble_fst_le num den (by omega)
  have h3 : (num * 2 ^ roundExp num den) / den < 2 ^ 53 :=
    Nat.div_lt_of_lt_mul h1
  omega

/-- Rounding never crosses an integer: at least `c` stays at least `c`. -/
theorem roundDouble_ge (num den c : Nat) (hd : 0 < den) (h : c * den ≤ num) :
    c * 2 ^ (roundDouble num den).2 ≤ (roundDouble num den).1 := by
  by_cases hn : num = 0
  · subst hn
    have : c = 0 := by
      rcases Nat.eq_zero_or_pos c with h0 | h0
      · exact h0
      · have := Nat.mul_pos h0 hd
        omega
    subst this
    simp
  · have h2 := roundDouble_fst_ge num den hn
    rw [roundDouble_snd num den hn]
    have h3 : c * 2 ^ roundExp num den ≤ (num * 2 ^ roundExp num den) / den := by
      rw [Nat.le_div_iff_mul_le hd]
      calc c * 2 ^ roundExp num den * den = c * den * 2 ^ roundExp num den := by ring
        _ ≤ num * 2 ^ roundExp num den := Nat.mul_le_mul_right _ h
    omega

/-- Rounding never crosses an integer: at most `c` stays at most `c`. -/
theorem roundDouble_le (num den c : Nat) (hd : 0 < den) (h : num ≤ c * den) :
    (roundDouble num den).1 ≤ c * 2 ^ (roundDouble num den).2 := by
  by_cases hn : num = 0
  · subst hn
    simp [roundDouble]
  · rw [roundDouble_eq num den hn]
    dsimp only
    have hle : num * 2 ^ roundExp num den ≤ c * 2 ^ roundExp num den * den := by
      calc num * 2 ^ roundExp num den ≤ c * den * 2 ^ roundExp num den :=
            Nat.mul_le_mul_right _ h
        _ = c * 2 ^ roundExp num den * den := by ring
    have hq : (num * 2 ^ roundExp num den) / den ≤ c * 2 ^ roundExp num den :=
      Nat.div_le_of_le_mul (by rw [mul_comm den]; exact hle)
    split
    · rename_i hup
      by_contra hcon
      have heq : (num * 2 ^ roundExp num den) / den = c * 2 ^ roundExp num den := by omega
      have hmod := Nat.div_add_mod (num * 2 ^ roundExp num den) den
      rw [heq] at hmod
      have hr : (num * 2 ^ roundExp num den) % den = 0 := by
        have : den * (c * 2 ^ roundExp num den) = c * 2 ^ roundExp num den * den := by ring
        omega
      rw [hr] at hup
      omega
    · exact hq

theorem roundInt_eq (n : Int) (den : Nat) :
    roundInt n den
      = Dbl.mk (if n < 0 then -((roundMag n.natAbs den).1 : Int)
          else ((roundMag n.natAbs den).1 : Int)) (roundMag n.natAbs den).2 := rfl

theorem roundMag_value (a den : Nat) :
    (roundMag a den).1 * 2 ^ (roundDouble a den).2
      = (roundDouble a den).1 * 2 ^ (roundMag a den).2 := by
  unfold roundMag
  dsimp only
  split
  · rename_i h
    obtain ⟨h1, h2⟩ := h
    rw [h1]
    have e : (roundDouble a den).2 = ((roundDouble a den).2 - 1) + 1 := by omega
    rw [e, pow_succ]
    simp only [Nat.add_sub_cancel]
    ring
  · rfl

theorem roundMag_ge (a den c : Nat) (hd : 0 < den) (h : c * den ≤ a) :
    c * 2 ^ (roundMag a den).2 ≤ (roundMag a den).1 := by
  have h1 := roundDouble_ge a den c hd h
  have h2 := roundMag_value a den
  have h3 : c * 2 ^ (roundMag a den).2 * 2 ^ (roundDouble a den).2
      ≤ (roundMag a den).1 * 2 ^ (roundDouble a den).2 := by
    rw [h2]
    calc c * 2 ^ (roundMag a den).2 * 2 ^ (roundDouble a den).2
        = c * 2 ^ (roundDouble a den).2 * 2 ^ (roundMag a den).2 := by ring
      _ ≤ (roundDouble a den).1 * 2 ^ (roundMag a den).2 := Nat.mul_le_mul_right _ h1
  exact Nat.le_of_mul_le_mul_right h3 (by positivity)

theorem roundMag_le (a den c : Nat) (hd : 0 < den) (h : a ≤ c * den) :
    (roundMag a den).1 ≤ c * 2 ^ (roundMag a den).2 := by
  have h1 := roundDouble_le a den c hd h
  have h2 := roundMag_value a den
  have h3 : (roundMag a den).1 * 2 ^ (roundDouble a den).2
      ≤ c * 2 ^ (roundMag a den).2 * 2 ^ (roundDouble a den).2 := by
    rw [h2]
    calc (roundDouble a den).1 * 2 ^ (roundMag a den).2
        ≤ c * 2 ^ (roundDouble a den).2 * 2 ^ (roundMag a den).2 := Nat.mul_le_mul_right _ h1
      _ = c * 2 ^ (roundMag a den).2 * 2 ^ (roundDouble a den).2 := by ring
  exact Nat.le_of_mul_le_mul_right h3 (by positivity)

theorem roundMag_zero (den : Nat) : roundMag 0 den = (0, 0) := by
  simp [roundMag, roundDouble]

theorem roundInt_zero (den : Nat) : roundInt 0 den = Dbl.mk 0 0 := by
  rw [roundInt_eq]
  simp [roundMag_zero]

/-- Rounding keeps a quotient between the integers it lies between. -/
theorem roundInt_within (n : Int) (den : Nat) (lo hi : Int) (hd : 0 < den)
    (h1 : lo * den ≤ n) (h2 : n ≤ hi * den) : Within lo hi (roundInt n den) := by
  have hdz : (0 : Int) < den := by exact_mod_cast hd
  have hpow : ∀ k : Nat, (0 : Int) < 2 ^ k := fun k => by positivity
  rw [roundInt_eq]
  unfold Within
  dsimp only
  by_cases hn : n < 0
  · rw [if_pos hn]
    have hlo : lo < 0 := by
      by_contra hc
      have : 0 ≤ lo * den := mul_nonneg (by omega) (le_of_lt hdz)
      omega
    have hlo2 : (lo.natAbs : Int) = -lo := by omega
    have hn2 : (n.natAbs : Int) = -n := by omega
    have hle : n.natAbs ≤ lo.natAbs * den := by
      have : (n.natAbs : Int) ≤ (lo.natAbs : Int) * den := by
        rw [hlo2, hn2]
        linarith
      exact_mod_cast this
    have hm := roundMag_le n.natAbs den lo.natAbs hd hle
    have hm2 : ((roundMag n.natAbs den).1 : Int)
        ≤ (lo.natAbs : Int) * 2 ^ (roundMag n.natAbs den).2 := by exact_mod_cast hm
    rw [hlo2] at hm2
    constructor
    · linarith
    · by_cases hhi : 0 ≤ hi
      · have : 0 ≤ hi * 2 ^ (roundMag n.natAbs den).2 := mul_nonneg hhi (le_of_lt (hpow _))
        have h0 : (0 : Int) ≤ ((roundMag n.natAbs den).1 : Int) := Int.natCast_nonneg _
        linarith
      · have hhi2 : (hi.natAbs : Int) = -hi := by omega
        have hge : hi.natAbs * den ≤ n.natAbs := by
          have : (hi.natAbs : Int) * den ≤ (n.natAbs : Int) := by
            rw [hhi2, hn2]
            linarith
          exact_mod_cast this
        have hm3 := roundMag_ge n.natAbs den hi.natAbs hd hge
        have hm4 : (hi.natAbs : Int) * 2 ^ (roundMag n.natAbs den).2
            ≤ ((roundMag n.natAbs den).1 : Int) := by exact_mod_cast hm3
        rw [hhi2] at hm4
        linarith
  · rw [if_neg hn]
    have hn0 : 0 ≤ n := by omega
    have hn2 : (n.natAbs : Int) = n := by omega
    have hhi : 0 ≤ hi := by
      by_contra hc
      have : hi * den < 0 := mul_neg_of_neg_of_pos (by omega) hdz
      omega
    have hhi2 : (hi.natAbs : Int) = hi := by omega
    have hle : n.natAbs ≤ hi.natAbs * den := by
      have : (n.natAbs : Int) ≤ (hi.natAbs : Int) * den := by
        rw [hhi2, hn2]
        exact h2
      exact_mod_cast this
    have hm := roundMag_le n.natAbs den hi.natAbs hd hle
    have hm2 : ((roundMag n.natAbs den).1 : Int)
        ≤ (hi.natAbs : Int) * 2 ^ (roundMag n.natAbs den).2 := by exact_mod_cast hm
    rw [hhi2] at hm2
    constructor
    · by_cases hlo : lo ≤ 0
      · have : lo * 2 ^ (roundMag n.natAbs den).2 ≤ 0 :=
          mul_nonpos_of_nonpos_of_nonneg hlo (le_of_lt (hpow _))
        have h0 : (0 : Int) ≤ ((roundMag n.natAbs den).1 : Int) := Int.natCast_nonneg _
        linarith
      · have hlo2 : (lo.natAbs : Int) = lo := by omega
        have hge : lo.natAbs * den ≤ n.natAbs := by
          have : (lo.natAbs : Int) * den ≤ (n.natAbs : Int) := by
            rw [hlo2, hn2]
            exact h1
          exact_mod_cast this
        have hm3 := roundMag_ge n.natAbs den lo.natAbs hd hge
        have hm4 : (lo.natAbs : Int) * 2 ^ (roundMag n.natAbs den).2
            ≤ ((roundMag n.natAbs den).1 : Int) := by exact_mod_cast hm3
        rw [hlo2] at hm4
        exact hm4
    · exact hm2

theorem within_mono (lo hi lo2 hi2 : Int) (d : Dbl) (h : Within lo hi d) (h1 : lo2 ≤ lo)
    (h2 : hi ≤ hi2) : Within lo2 hi2 d := by
  have hp : (0 : Int) < 2 ^ d.exp := by positivity
  obtain ⟨h3, h4⟩ := h
  constructor
  · have := mul_le_mul_of_nonneg_right h1 (le_of_lt hp)
    linarith
  · have := mul_le_mul_of_nonneg_right h2 (le_of_lt hp)
    linarith

theorem within_ofInt (n : Int) : Within n n (Dbl.ofInt n) := by
  simp [Within, Dbl.ofInt]

theorem within_fadd (a b c d : Int) (x y : Dbl) (hx : Within a b x) (hy : Within c d y) :
    Within (a + c) (b + d) (fadd x y) := by
  have hpx : (0 : Int) < 2 ^ x.exp := by positivity
  have hpy : (0 : Int) < 2 ^ y.exp := by positivity
  obtain ⟨h1, h2⟩ := hx
  obtain ⟨h3, h4⟩ := hy
  unfold fadd
  apply roundInt_within _ _ _ _ (by positivity)
  · push_cast
    rw [pow_add]
    nlinarith [mul_le_mul_of_nonneg_right h1 (le_of_lt hpy),
      mul_le_mul_of_nonneg_right h3 (le_of_lt hpx)]
  · push_cast
    rw [pow_add]
    nlinarith [mul_le_mul_of_nonneg_right h2 (le_of_lt hpy),
      mul_le_mul_of_nonneg_right h4 (le_of_lt hpx)]

theorem within_fsub (a b c d : Int) (x y : Dbl) (hx : Within a b x) (hy : Within c d y) :
    Within (a - d) (b - c) (fsub x y) := by
  have hpx : (0 : Int) < 2 ^ x.exp := by positivity
  have hpy : (0 : Int) < 2 ^ y.exp := by positivity
  obtain ⟨h1, h2⟩ := hx
  obtain ⟨h3, h4⟩ := hy
  unfold fsub
  apply roundInt_within _ _ _ _ (by positivity)
  · push_cast
    rw [pow_add]
    nlinarith [mul_le_mul_of_nonneg_right h1 (le_of_lt hpy),
      mul_le_mul_of_nonneg_right h4 (le_of_lt hpx)]
  · push_cast
    rw [pow_add]
    nlinarith [mul_le_mul_of_nonneg_right h2 (le_of_lt hpy),
      mul_le_mul_of_nonneg_right h3 (le_of_lt hpx)]

/-- The product of two values that are not negative. -/
theorem within_fmul (b d : Int) (x y : Dbl) (hx : Within 0 b x) (hy : Within 0 d y) :
    Within 0 (b * d) (fmul x y) := by
  have hpx : (0 : Int) < 2 ^ x.exp := by positivity
  have hpy : (0 : Int) < 2 ^ y.exp := by positivity
  obtain ⟨h1, h2⟩ := hx
  obtain ⟨h3, h4⟩ := hy
  simp only [zero_mul] at h1 h3
  unfold fmul
  apply roundInt_within _ _ _ _ (by positivity)
  · simp only [zero_mul]
    exact mul_nonneg h1 h3
  · push_cast
    rw [pow_add]
    have := mul_le_mul h2 h4 h3 (le_trans h1 h2)
    linarith

/-- A sample divided by 255 lies in `[0, 1]`. -/
theorem within_sample (v : Nat) (hv : v ≤ 255) :
    Within 0 1 (fdiv (Dbl.ofInt v) (Dbl.ofInt 255)) := by
  have hs : (255 : Int).sign = 1 := rfl
  have ha : (255 : Int).natAbs = 255 := rfl
  unfold fdiv
  simp only [Dbl.ofInt, pow_zero, mul_one, hs, ha]
  apply roundInt_within _ _ _ _ (by norm_num)
  · simp
  · push_cast
    omega

theorem log2Floor_mul_pow (m j : Nat) (hm : 0 < m) :
    log2Floor (m * 2 ^ j) = log2Floor m + j := by
  obtain ⟨h1, h2⟩ := log2Floor_spec m hm
  apply log2Floor_eq
  · rw [pow_add]
    exact Nat.mul_le_mul_right _ h1
  · have : 2 ^ (log2Floor m + j + 1) = 2 ^ (log2Floor m + 1) * 2 ^ j := by
      rw [← pow_add]
      congr 1
      omega
    rw [this]
    exact Nat.mul_lt_mul_of_pos_right h2 (by positivity)

theorem log2Floor_pow (k : Nat) : log2Floor (2 ^ k) = k :=
  log2Floor_eq _ _ (le_refl _) (Nat.pow_lt_pow_right (by norm_num) (by omega))

theorem roundDouble_canon_scale (m k j : Nat) (h1 : 2 ^ 52 ≤ m) (h2 : m < 2 ^ 53 ∨ k = 0) :
    roundDouble (m * 2 ^ j) (2 ^ (j + k)) = (m, k) := by
  have hm : 0 < m := lt_of_lt_of_le (by positivity) h1
  have hL : 52 ≤ log2Floor m := by
    obtain ⟨_, h4⟩ := log2Floor_spec m hm
    have : 2 ^ 52 < 2 ^ (log2Floor m + 1) := lt_of_le_of_lt h1 h4
    rw [Nat.pow_lt_pow_iff_right (by norm_num)] at this
    omega
  have hk0 : 52 + log2Floor (2 ^ (j + k)) - log2Floor (m * 2 ^ j) = k := by
    rw [log2Floor_pow, log2Floor_mul_pow m j hm]
    rcases h2 with h2 | h2
    · have : log2Floor m = 52 := log2Floor_eq m 52 h1 h2
      omega
    · omega
  have hnum : m * 2 ^ j ≠ 0 := by positivity
  have hexp : roundExp (m * 2 ^ j) (2 ^ (j + k)) = k := by
    unfold roundExp
    rw [hk0]
    have : ¬ m * 2 ^ j * 2 ^ k < 2 ^ (j + k) * 2 ^ 52 := by
      have e : m * 2 ^ j * 2 ^ k = 2 ^ (j + k) * m := by
        rw [pow_add]
        ring
      rw [e]
      intro hc
      have := Nat.lt_of_mul_lt_mul_left hc
      omega
    rw [if_neg this]
  rw [roundDouble_eq _ _ hnum, hexp]
  have e : m * 2 ^ j * 2 ^ k = m * 2 ^ (j + k) := by
    rw [pow_add]
    ring
  have hp : 0 < 2 ^ (j + k) := by positivity
  rw [e, Nat.mul_mod_left, Nat.mul_div_cancel _ hp]
  have : ¬ (2 ^ (j + k) < 2 * 0 ∨ (2 * 0 = 2 ^ (j + k) ∧ m % 2 = 1)) := by
    intro hc
    rcases hc with hc | ⟨hc, _⟩ <;> omega
  rw [if_neg this]

theorem roundMag_canon_scale (m k j : Nat) (h1 : 2 ^ 52 ≤ m) (h2 : m < 2 ^ 53 ∨ k = 0) :
    roundMag (m * 2 ^ j) (2 ^ (j + k)) = (m, k) := by
  unfold roundMag
  rw [roundDouble_canon_scale m k j h1 h2]
  dsimp only
  have : ¬ (m = 2 ^ 53 ∧ 0 < k) := by
    intro hc
    omega
  rw [if_neg this, if_neg this]

/-- Rounding leaves a double as it is, also when the fraction is not in lowest terms. -/
theorem roundInt_canon_scale (d : Dbl) (hd : Canon d) (j : Nat) :
    roundInt (d.num * 2 ^ j) (2 ^ (j + d.exp)) = d := by
  obtain ⟨n, e⟩ := d
  rcases hd with ⟨h0, h1⟩ | ⟨h1, h2⟩
  · simp only at h0 h1
    subst h0
    subst h1
    simp [roundInt_zero]
  · simp only at h1 h2
    rw [roundInt_eq]
    have hp : (0 : Int) < 2 ^ j := by positivity
    have hab : (n * 2 ^ j).natAbs = n.natAbs * 2 ^ j := by
      rw [Int.natAbs_mul, Int.natAbs_pow]
      rfl
    have hneg : (n * 2 ^ j < 0) ↔ n < 0 := by
      constructor
      · intro h
        by_contra hc
        have : 0 ≤ n * 2 ^ j := mul_nonneg (by omega) (le_of_lt hp)
        omega
      · intro h
        exact mul_neg_of_neg_of_pos h hp
    simp only [hab, roundMag_canon_scale n.natAbs e j h1 h2, hneg]
    congr 1
    split <;> omega

theorem roundInt_canon (n : Int) (den : Nat) (hd : 0 < den) : Canon (roundInt n den) := by
  by_cases hn : n = 0
  · subst hn
    rw [roundInt_zero]
    left
    exact ⟨rfl, rfl⟩
  · right
    have ha : 0 < n.natAbs := Int.natAbs_pos.mpr hn
    have h1 := roundDouble_mantissa_ge n.natAbs den ha hd
    have h2 := roundDouble_mantissa_le n.natAbs den ha hd
    have hnum : (roundInt n den).num.natAbs = (roundMag n.natAbs den).1 := by
      rw [roundInt_eq]
      dsimp only
      split <;> simp
    rw [hnum]
    have hexp : (roundInt n den).exp = (roundMag n.natAbs den).2 := rfl
    rw [hexp]
    unfold roundMag
    dsimp only
    by_cases hc : (roundDouble n.natAbs den).1 = 2 ^ 53 ∧ 0 < (roundDouble n.natAbs den).2
    · rw [if_pos hc, if_pos hc]
      exact ⟨le_refl _, Or.inl (by norm_num)⟩
    · rw [if_neg hc, if_neg hc]
      refine ⟨h1, ?_⟩
      by_cases hk : (roundDouble n.natAbs den).2 = 0
      · exact Or.inr hk
      · left
        have := h2 (by omega)
        rcases Nat.lt_or_ge (roundDouble n.natAbs den).1 (2 ^ 53) with h | h
        · exact h
        · exfalso
          apply hc
          exact ⟨by omega, by omega⟩

theorem fmul_one (d : Dbl) (hd : Canon d) : fmul d (Dbl.ofInt 1) = d := by
  have := roundInt_canon_scale d hd 0
  unfold fmul
  simpa [Dbl.ofInt] using this

theorem fadd_zero_left (d : Dbl) (hd : Canon d) : fadd (Dbl.ofInt 0) d = d := by
  have := roundInt_canon_scale d hd 0
  unfold fadd
  simpa [Dbl.ofInt] using this

theorem fadd_zero_right (d : Dbl) (hd : Canon d) : fadd d (Dbl.ofInt 0) = d := by
  have := roundInt_canon_scale d hd 0
  unfold fadd
  simpa [Dbl.ofInt] using this

theorem fmul_canon (a b : Dbl) : Canon (fmul a b) := roundInt_canon _ _ (by positivity)

theorem fmul_zero_right (d : Dbl) : fmul d (Dbl.ofInt 0) = Dbl.ofInt 0 := by
  unfold fmul
  simp [Dbl.ofInt, roundInt_zero]

/-! ## Truncation and the range of the noise -/

theorem truncInt_bounds (d : Dbl) (K : Nat) (h : Within (-(K : Int)) K d) :
    -(K : Int) ≤ truncInt d ∧ truncInt d ≤ K := by
  obtain ⟨h1, h2⟩ := h
  unfold truncInt
  split
  · rename_i hneg
    have hle : (-d.num).toNat ≤ K * 2 ^ d.exp := by
      have : ((-d.num).toNat : Int) ≤ ((K * 2 ^ d.exp : Nat) : Int) := by
        rw [Int.toNat_of_nonneg (by omega)]
        push_cast
        linarith
      exact_mod_cast this
    have hq : (-d.num).toNat / 2 ^ d.exp ≤ K := Nat.div_le_of_le_mul (by rw [mul_comm]; exact hle)
    have hq2 : (((-d.num).toNat / 2 ^ d.exp : Nat) : Int) ≤ K := by exact_mod_cast hq
    have hq3 : (0 : Int) ≤ (((-d.num).toNat / 2 ^ d.exp : Nat) : Int) := Int.natCast_nonneg _
    constructor <;> linarith
  · rename_i hneg
    have hle : d.num.toNat ≤ K * 2 ^ d.exp := by
      have : (d.num.toNat : Int) ≤ ((K * 2 ^ d.exp : Nat) : Int) := by
        rw [Int.toNat_of_nonneg (by omega)]
        push_cast
        linarith
      exact_mod_cast this
    have hq : d.num.toNat / 2 ^ d.exp ≤ K := Nat.div_le_of_le_mul (by rw [mul_comm]; exact hle)
    have hq2 : ((d.num.toNat / 2 ^ d.exp : Nat) : Int) ≤ K := by exact_mod_cast hq
    have hq3 : (0 : Int) ≤ ((d.num.toNat / 2 ^ d.exp : Nat) : Int) := Int.natCast_nonneg _
    constructor <;> linarith

/-- Without overflow `a | 0` is the integer part of `a`. -/
theorem toInt32_eq_truncInt (d : Dbl) (K : Nat) (hK : K < 2147483648)
    (h : Within (-(K : Int)) K d) : toInt32 d = truncInt d := by
  obtain ⟨h1, h2⟩ := truncInt_bounds d K h
  have e : toInt32 d = (truncInt d + 2147483648) % 4294967296 - 2147483648 := rfl
  rw [e]
  omega

theorem truncInt_nonneg (d : Dbl) (h : 0 ≤ d.num) :
    truncInt d = ((d.num.toNat / 2 ^ d.exp : Nat) : Int) := by
  unfold truncInt
  rw [if_neg (by omega)]

theorem truncInt_nonpos (d : Dbl) (h : d.num ≤ 0) : truncInt d ≤ 0 := by
  unfold truncInt
  split
  · have hq3 : (0 : Int) ≤ (((-d.num).toNat / 2 ^ d.exp : Nat) : Int) := Int.natCast_nonneg _
    linarith
  · have : d.num = 0 := by omega
    rw [this]
    simp

theorem within_scale (lo hi : Int) (r : Dbl) (h : Within lo hi r) :
    Within (lo * 255) (hi * 255) (fmul r (Dbl.ofInt 255)) := by
  obtain ⟨h1, h2⟩ := h
  unfold fmul
  apply roundInt_within _ _ _ _ (by positivity)
  · simp only [Dbl.ofInt, add_zero]
    push_cast
    linarith
  · simp only [Dbl.ofInt, add_zero]
    push_cast
    linarith

/-- The product of two values bounded in magnitude. -/
theorem within_fmul_abs (b d : Int) (x y : Dbl) (hb : 0 ≤ b)
    (hx : Within (-b) b x) (hy : Within (-d) d y) : Within (-(b * d)) (b * d) (fmul x y) := by
  have hpx : (0 : Int) < 2 ^ x.exp := by positivity
  have hpy : (0 : Int) < 2 ^ y.exp := by positivity
  obtain ⟨h1, h2⟩ := hx
  obtain ⟨h3, h4⟩ := hy
  have ax : |x.num| ≤ b * 2 ^ x.exp := abs_le.mpr ⟨by linarith, h2⟩
  have ay : |y.num| ≤ d * 2 ^ y.exp := abs_le.mpr ⟨by linarith, h4⟩
  have hm : |x.num * y.num| ≤ b * 2 ^ x.exp * (d * 2 ^ y.exp) := by
    rw [abs_mul]
    exact mul_le_mul ax ay (abs_nonneg _) (mul_nonneg hb (le_of_lt hpx))
  obtain ⟨h5, h6⟩ := abs_le.mp hm
  unfold fmul
  apply roundInt_within _ _ _ _ (by positivity)
  · push_cast
    rw [pow_add]
    linarith
  · push_cast
    rw [pow_add]
    linarith

theorem within_fneg (lo hi : Int) (x : Dbl) (h : Within lo hi x) : Within (-hi) (-lo) (fneg x) := by
  obtain ⟨h1, h2⟩ := h
  unfold fneg Within
  dsimp only
  constructor <;> linarith

theorem within_sym_fadd (b d : Int) (x y : Dbl) (hx : Within (-b) b x) (hy : Within (-d) d y) :
    Within (-(b + d)) (b + d) (fadd x y) := by
  have := within_fadd _ _ _ _ x y hx hy
  exact within_mono _ _ _ _ _ this (by omega) (le_refl _)

theorem within_sym_fsub (b d : Int) (x y : Dbl) (hx : Within (-b) b x) (hy : Within (-d) d y) :
    Within (-(b + d)) (b + d) (fsub x y) := by
  have := within_fsub _ _ _ _ x y hx hy
  exact within_mono _ _ _ _ _ this (by omega) (by omega)

theorem within_sym_ofInt (n : Int) (b : Int) (h1 : -b ≤ n) (h2 : n ≤ b) :
    Within (-b) b (Dbl.ofInt n) :=
  within_mono _ _ _ _ _ (within_ofInt n) h1 h2

/-- The fractional part `x - Math.floor(x)` lies in `[0, 1]`. -/
theorem within_frac (x : Dbl) : Within 0 1 (fsub x (Dbl.ofInt x.floor)) := by
  have hp : (0 : Int) < 2 ^ x.exp := by positivity
  have h1 : x.num / 2 ^ x.exp * 2 ^ x.exp ≤ x.num := Int.ediv_mul_le _ (ne_of_gt hp)
  have h2 : x.num < (x.num / 2 ^ x.exp + 1) * 2 ^ x.exp := by
    have := Int.lt_ediv_add_one_mul_self x.num hp
    linarith
  unfold fsub
  apply roundInt_within _ _ _ _ (by positivity)
  · simp only [Dbl.ofInt, Dbl.floor, pow_zero, mul_one, add_zero, zero_mul]
    linarith
  · simp only [Dbl.ofInt, Dbl.floor, pow_zero, mul_one, add_zero, one_mul]
    push_cast
    linarith

theorem within_fmul_le (b d e : Int) (x y : Dbl) (hb : 0 ≤ b) (hx : Within (-b) b x)
    (hy : Within (-d) d y) (he : b * d ≤ e) : Within (-e) e (fmul x y) :=
  within_mono _ _ _ _ _ (within_fmul_abs b d x y hb hx hy) (by omega) he

theorem within_fadd_le (b d e : Int) (x y : Dbl) (hx : Within (-b) b x)
    (hy : Within (-d) d y) (he : b + d ≤ e) : Within (-e) e (fadd x y) :=
  within_mono _ _ _ _ _ (within_sym_fadd b d x y hx hy) (by omega) he

theorem within_fsub_le (b d e : Int) (x y : Dbl) (hx : Within (-b) b x)
    (hy : Within (-d) d y) (he : b + d ≤ e) : Within (-e) e (fsub x y) :=
  within_mono _ _ _ _ _ (within_sym_fsub b d x y hx hy) (by omega) he

theorem within_grad (hash : Nat) (x y : Dbl) (hx : Within (-2) 2 x) (hy : Within (-2) 2 y) :
    Within (-6) 6 (grad hash x y) := by
  have h2 : Within (-2) 2 (Dbl.ofInt 2) := within_sym_ofInt 2 2 (by norm_num) (by norm_num)
  have h2n : Within (-2) 2 (Dbl.ofInt (-2)) := within_sym_ofInt (-2) 2 (by norm_num) (by norm_num)
  have hnx : Within (-2) 2 (fneg x) := within_fneg _ _ _ hx
  have hny : Within (-2) 2 (fneg y) := within_fneg _ _ _ hy
  have m1 : Within (-4) 4 (fmul (Dbl.ofInt 2) x) :=
    within_fmul_le 2 2 4 _ _ (by norm_num) h2 hx (by norm_num)
  have m2 : Within (-4) 4 (fmul (Dbl.ofInt 2) y) :=
    within_fmul_le 2 2 4 _ _ (by norm_num) h2 hy (by norm_num)
  have m3 : Within (-4) 4 (fmul (Dbl.ofInt (-2)) x) :=
    within_fmul_le 2 2 4 _ _ (by norm_num) h2n hx (by norm_num)
  have m4 : Within (-4) 4 (fmul (Dbl.ofInt (-2)) y) :=
    within_fmul_le 2 2 4 _ _ (by norm_num) h2n hy (by norm_num)
  unfold grad
  dsimp only
  split_ifs
  · exact within_fadd_le 2 4 6 _ _ hnx m4 (by norm_num)
  · exact within_fadd_le 2 4 6 _ _ hnx m2 (by norm_num)
  · exact within_fadd_le 2 4 6 _ _ hny m3 (by norm_num)
  · exact within_fadd_le 2 4 6 _ _ hny m1 (by norm_num)
  · exact within_fadd_le 2 4 6 _ _ hx m4 (by norm_num)
  · exact within_fadd_le 2 4 6 _ _ hx m2 (by norm_num)
  · exact within_fadd_le 2 4 6 _ _ hy m3 (by norm_num)
  · exact within_fadd_le 2 4 6 _ _ hy m1 (by norm_num)

theorem within_fade (t : Dbl) (ht : Within (-1) 1 t) : Within (-31) 31 (fade t) := by
  have h6 : Within (-6) 6 (Dbl.ofInt 6) := within_sym_ofInt 6 6 (by norm_num) (by norm_num)
  have h15 : Within (-15) 15 (Dbl.ofInt 15) := within_sym_ofInt 15 15 (by norm_num) (by norm_num)
  have h10 : Within (-10) 10 (Dbl.ofInt 10) := within_sym_ofInt 10 10 (by norm_num) (by norm_num)
  have a1 : Within (-1) 1 (fmul t t) := within_fmul_le 1 1 1 _ _ (by norm_num) ht ht (by norm_num)
  have a2 : Within (-1) 1 (fmul (fmul t t) t) :=
    within_fmul_le 1 1 1 _ _ (by norm_num) a1 ht (by norm_num)
  have b1 : Within (-6) 6 (fmul t (Dbl.ofInt 6)) :=
    within_fmul_le 1 6 6 _ _ (by norm_num) ht h6 (by norm_num)
  have b2 : Within (-21) 21 (fsub (fmul t (Dbl.ofInt 6)) (Dbl.ofInt 15)) :=
    within_fsub_le 6 15 21 _ _ b1 h15 (by norm_num)
  have b3 : Within (-21) 21 (fmul t (fsub (fmul t (Dbl.ofInt 6)) (Dbl.ofInt 15))) :=
    within_fmul_le 1 21 21 _ _ (by norm_num) ht b2 (by norm_num)
  have b4 : Within (-31) 31
      (fadd (fmul t (fsub (fmul t (Dbl.ofInt 6)) (Dbl.ofInt 15))) (Dbl.ofInt 10)) :=
    within_fadd_le 21 10 31 _ _ b3 h10 (by norm_num)
  exact within_fmul_le 1 31 31 _ _ (by norm_num) a2 b4 (by norm_num)

theorem within_lerp (A T E : Int) (a b t : Dbl) (hT : 0 ≤ T) (ha : Within (-A) A a)
    (hb : Within (-A) A b) (ht : Within (-T) T t) (hE : A + T * (A + A) ≤ E) :
    Within (-E) E (lerp a b t) := by
  have h1 : Within (-(A + A)) (A + A) (fsub b a) := within_fsub_le A A _ _ _ hb ha (le_refl _)
  have h2 : Within (-(T * (A + A))) (T * (A + A)) (fmul t (fsub b a)) :=
    within_fmul_le T (A + A) _ _ _ hT ht h1 (le_refl _)
  exact within_fadd_le A (T * (A + A)) E _ _ ha h2 hE

/-- A crude bound on the noise, enough to rule out an overflow of `| 0`. -/
theorem within_noise2D (p : List Nat) (x y : Dbl) : Within (-23815) 23815 (noise2D p x y) := by
  have h1 : Within (-1) 1 (Dbl.ofInt 1) := within_sym_ofInt 1 1 (by norm_num) (by norm_num)
  have hh : Within (-1) 1 Dbl.half := by
    unfold Within Dbl.half
    norm_num
  have fx : Within (-1) 1 (fsub x (Dbl.ofInt x.floor)) :=
    within_mono _ _ _ _ _ (within_frac x) (by norm_num) (le_refl _)
  have fy : Within (-1) 1 (fsub y (Dbl.ofInt y.floor)) :=
    within_mono _ _ _ _ _ (within_frac y) (by norm_num) (le_refl _)
  have fx2 : Within (-2) 2 (fsub x (Dbl.ofInt x.floor)) :=
    within_mono _ _ _ _ _ fx (by norm_num) (by norm_num)
  have fy2 : Within (-2) 2 (fsub y (Dbl.ofInt y.floor)) :=
    within_mono _ _ _ _ _ fy (by norm_num) (by norm_num)
  have gx : Within (-2) 2 (fsub (fsub x (Dbl.ofInt x.floor)) (Dbl.ofInt 1)) :=
    within_fsub_le 1 1 2 _ _ fx h1 (by norm_num)
  have gy : Within (-2) 2 (fsub (fsub y (Dbl.ofInt y.floor)) (Dbl.ofInt 1)) :=
    within_fsub_le 1 1 2 _ _ fy h1 (by norm_num)
  have u := within_fade _ fx
  have v := within_fade _ fy
  have l0 := within_lerp 6 31 378 _ _ _ (by norm_num)
    (within_grad (p.getD (p.getD (x.floor % 256).toNat 0 + (y.floor % 256).toNat) 0) _ _ fx2 fy2)
    (within_grad (p.getD (p.getD ((x.floor % 256).toNat + 1) 0 + (y.floor % 256).toNat) 0)
      _ _ gx fy2) u (by norm_num)
  have l1 := within_lerp 6 31 378 _ _ _ (by norm_num)
    (within_grad (p.getD (p.getD (x.floor % 256).toNat 0 + (y.floor % 256).toNat + 1) 0)
      _ _ fx2 gy)
    (within_grad (p.getD (p.getD ((x.floor % 256).toNat + 1) 0 + (y.floor % 256).toNat + 1) 0)
      _ _ gx gy) u (by norm_num)
  have l2 := within_lerp 378 31 23814 _ _ _ (by norm_num) l0 l1 v (by norm_num)
  have s := within_fadd_le 23814 1 23815 _ _ l2 h1 (by norm_num)
  exact within_fmul_le 23815 1 23815 _ _ (by norm_num) s hh (by norm_num)

theorem noise2D_canon (p : List Nat) (x y : Dbl) : Canon (noise2D p x y) := by
  unfold noise2D
  exact fmul_canon _ _

theorem fdiv_one (d : Dbl) (hd : Canon d) : fdiv d (Dbl.mk (2 ^ 52) 52) = d := by
  have h := roundInt_canon_scale d hd 52
  have hs : ((2 : Int) ^ 52).sign = 1 := by decide
  have ha : ((2 : Int) ^ 52).natAbs = 2 ^ 52 := by decide
  unfold fdiv
  simp only [hs, ha, mul_one, ← pow_add]
  exact h

/-! ## The noise node with one octave -/

theorem octaveSum_single (p : List Nat) (s : Dbl) (x y : Nat)
    (hs : flt Dbl.tenThousandth s = true ∨ s = Dbl.tenThousandth) :
    octaveSum p s (Dbl.ofInt 1) x y = singleLayer p s x y := by
  have hf : fmax Dbl.tenThousandth s = s := by
    unfold fmax
    rcases hs with h | h
    · rw [if_pos h]
    · rw [h]
      simp
  have hc : (max 1 (toInt32 (Dbl.ofInt 1))).toNat = 1 := by decide
  have h1 : fadd (Dbl.ofInt 0) (Dbl.ofInt 1) = Dbl.mk (2 ^ 52) 52 := by decide
  have hn := noise2D_canon p (fmul (Dbl.ofInt x) s) (fmul (Dbl.ofInt y) s)
  unfold octaveSum
  simp only [hf, hc, octaveLoop, h1]
  rw [fmul_one _ hn, fadd_zero_left _ hn, fdiv_one _ hn]
  rfl

theorem perlinPixel_single (approx : Dbl → Dbl → Dbl) (p : List Nat) (s : Dbl) (x y : Nat)
    (hs : flt Dbl.tenThousandth s = true ∨ s = Dbl.tenThousandth) :
    perlinPixel approx p s (Dbl.ofInt 1) (Dbl.ofInt 1) x y
      = [clampByte (truncInt (fmul (singleLayer p s x y) (Dbl.ofInt 255))),
         clampByte (truncInt (fmul (singleLayer p s x y) (Dbl.ofInt 255))),
         clampByte (truncInt (fmul (singleLayer p s x y) (Dbl.ofInt 255))), 255] := by
  have hc : fmax Dbl.hundredth (Dbl.ofInt 1) = Dbl.ofInt 1 := by decide
  have hw : Within (-((6072825 : Nat) : Int)) (6072825 : Nat)
      (fmul (singleLayer p s x y) (Dbl.ofInt 255)) := by
    have := within_scale _ _ _ (within_noise2D p (fmul (Dbl.ofInt x) s) (fmul (Dbl.ofInt y) s))
    exact within_mono _ _ _ _ _ this (by norm_num) (by norm_num)
  have ht := toInt32_eq_truncInt _ 6072825 (by norm_num) hw
  unfold perlinPixel
  simp only [hc, octaveSum_single p s x y hs, ht]
  have hj : ∀ v, jsPow approx v (Dbl.ofInt 1) = v := by
    intro v
    unfold jsPow
    simp [Dbl.ofInt]
  simp only [hj, ht]

/-- For a value in `[0, 1]` the integer part of `d * 255` needs no clamping. -/
theorem clampByte_truncInt (d : Dbl) (h : Within 0 1 d) :
    clampByte (truncInt (fmul d (Dbl.ofInt 255))) = truncScale d ∧ truncScale d ≤ 255 := by
  have hw := within_scale _ _ _ h
  have h0 : 0 ≤ (fmul d (Dbl.ofInt 255)).num := by
    have := hw.1
    simpa using this
  have hb := truncInt_bounds (fmul d (Dbl.ofInt 255)) 255
    (within_mono _ _ _ _ _ hw (by norm_num) (by norm_num))
  rw [truncInt_nonneg _ h0] at hb ⊢
  unfold clampByte truncScale
  obtain ⟨hb1, hb2⟩ := hb
  generalize (fmul d (Dbl.ofInt 255)).num.toNat / 2 ^ (fmul d (Dbl.ofInt 255)).exp = q
    at hb1 hb2 ⊢
  constructor
  · have hb3 : (q : Int) ≤ 255 := by exact_mod_cast hb2
    rw [min_eq_right hb3, max_eq_right (Int.natCast_nonneg q)]
    rfl
  · exact_mod_cast hb2

/-- C12 (amended): in the noise node with one octave, contrast 1 and a scale `s` of at least
0.0001 (above the double 0.0001, or that double itself), for every seed and every pixel the
red, green and blue samples are the integer part of `noise2D(x*s, y*s) * 255`, the fraction
dropped and not rounded, stored as 0 or 255 when that integer is outside `0..255`, and the
alpha sample is 255. When the noise value lies in `[0, 1]` the stored sample is that
integer part itself. -/
theorem perlinPixel_single_octave (approx : Dbl → Dbl → Dbl) (seed : Int) (s : Dbl)
    (x y : Nat) (hs : flt Dbl.tenThousandth s = true ∨ s = Dbl.tenThousandth) :
    perlinPixel approx (permTable seed) s (Dbl.ofInt 1) (Dbl.ofInt 1) x y
      = [clampByte (truncInt (fmul (singleLayer (permTable seed) s x y) (Dbl.ofInt 255))),
         clampByte (truncInt (fmul (singleLayer (permTable seed) s x y) (Dbl.ofInt 255))),
         clampByte (truncInt (fmul (singleLayer (permTable seed) s x y) (Dbl.ofInt 255))),
         255] ∧
    (Within 0 1 (singleLayer (permTable seed) s x y) →
      clampByte (truncInt (fmul (singleLayer (permTable seed) s x y) (Dbl.ofInt 255)))
        = truncScale (singleLayer (permTable seed) s x y) ∧
      truncScale (singleLayer (permTable seed) s x y) ≤ 255) :=
  ⟨perlinPixel_single approx (permTable seed) s x y hs, clampByte_truncInt _⟩

/-! ## The pixel loop of the Combine node -/

theorem flatMap_length4 (f : Nat → List Nat) (hf : ∀ i, (f i).length = 4) (n : Nat) :
    ((List.range n).flatMap f).length = 4 * n := by
  induction n with
  | zero => simp
  | succ n ih =>
    rw [List.range_succ, List.flatMap_append, List.length_append, ih]
    simp [hf]
    omega

theorem flatMap_getD4 (f : Nat → List Nat) (hf : ∀ i, (f i).length = 4) (n px c : Nat)
    (hpx : px < n) (hc : c < 4) :
    ((List.range n).flatMap f).getD (4 * px + c) 0 = (f px).getD c 0 := by
  induction n with
  | zero => omega
  | succ n ih =>
    rw [List.range_succ, List.flatMap_append]
    have hl := flatMap_length4 f hf n
    by_cases h : px < n
    · rw [List.getD_append _ _ _ _ (by omega)]
      exact ih h
    · have e : px = n := by omega
      subst e
      rw [List.getD_append_right _ _ _ _ (by omega), hl]
      have e2 : 4 * px + c - 4 * px = c := by omega
      rw [e2]
      simp

theorem combinePixel_length (mode : String) (a : Dbl) (ca cb : List Nat) (i : Nat) :
    (combinePixel mode a ca cb i).length = 4 := rfl

theorem pixel_index_lt (w h x y : Nat) (hx : x < w) (hy : y < h) : y * w + x < w * h := by
  have : (y + 1) * w ≤ h * w := Nat.mul_le_mul_right w hy
  nlinarith

theorem get?_eq_some_getD (l : List Nat) (i : Nat) (h : i < l.length) :
    l.get? i = some (l.getD i 0) := by
  rw [List.getD_eq_getElem _ _ h, List.get?_eq_getElem?, List.getElem?_eq_getElem h]

/-- A colour sample of the output of `combineBoth` for inputs of one size: the samples of the
same pixel and channel of both inputs go through `combineSample`. -/
theorem combineBoth_sample (mode : String) (alpha : Dbl) (A B : Raster) (x y c : Nat)
    (hw : B.width = A.width) (hA : A.data.length = 4 * (A.width * A.height))
    (hB : B.data.length = 4 * (A.width * A.height))
    (hx : x < A.width) (hy : y < A.height) (hc : c < 3) :
    (combineBoth mode alpha A B).sample x y c
      = combineSample mode (clamp01 alpha) (some (A.sample x y c)) (some (B.sample x y c)) := by
  have hpx := pixel_index_lt A.width A.height x y hx hy
  have e : (y * A.width + x) * 4 + c = 4 * (y * A.width + x) + c := by ring
  unfold Raster.sample combineBoth
  dsimp only
  rw [hw, e]
  rw [flatMap_getD4 _ (fun _ => combinePixel_length _ _ _ _ _) _ _ _ hpx (by omega)]
  have ha : ∀ k, k < 3 → A.data.get? (4 * (y * A.width + x) + k)
      = some (A.data.getD (4 * (y * A.width + x) + k) 0) :=
    fun k hk => get?_eq_some_getD _ _ (by omega)
  have hb : ∀ k, k < 3 → B.data.get? (4 * (y * A.width + x) + k)
      = some (B.data.getD (4 * (y * A.width + x) + k) 0) :=
    fun k hk => get?_eq_some_getD _ _ (by omega)
  unfold combinePixel
  have h0a := ha 0 (by omega)
  have h0b := hb 0 (by omega)
  rw [add_zero] at h0a h0b
  rw [h0a, h0b, ha 1 (by omega), hb 1 (by omega), ha 2 (by omega), hb 2 (by omega)]
  rcases (by omega : c = 0 ∨ c = 1 ∨ c = 2) with h | h | h <;> subst h <;> rfl

/-- Every alpha sample of the output of `combineBoth` is 255. -/
theorem combineBoth_alpha (mode : String) (alpha : Dbl) (A B : Raster) (x y : Nat)
    (hx : x < A.width) (hy : y < A.height) :
    (combineBoth mode alpha A B).sample x y 3 = 255 := by
  have hpx := pixel_index_lt A.width A.height x y hx hy
  have e : (y * A.width + x) * 4 + 3 = 4 * (y * A.width + x) + 3 := by ring
  unfold Raster.sample combineBoth
  dsimp only
  rw [e]
  rw [flatMap_getD4 _ (fun _ => combinePixel_length _ _ _ _ _) _ _ _ hpx (by omega)]
  rfl

theorem combineBoth_length (mode : String) (alpha : Dbl) (A B : Raster) :
    (combineBoth mode alpha A B).data.length = 4 * (A.width * A.height) :=
  flatMap_length4 _ (fun _ => combinePixel_length _ _ _ _ _) _

theorem sample_mem (A : Raster) (x y c : Nat) (hA : A.data.length = 4 * (A.width * A.height))
    (hx : x < A.width) (hy : y < A.height) (hc : c < 4) : A.sample x y c ∈ A.data := by
  have hpx := pixel_index_lt A.width A.height x y hx hy
  unfold Raster.sample
  rw [List.getD_eq_getElem _ _ (by omega)]
  exact List.getElem_mem _

theorem within_fadd_to (a b c d lo hi : Int) (x y : Dbl) (hx : Within a b x)
    (hy : Within c d y) (h1 : lo ≤ a + c) (h2 : b + d ≤ hi) : Within lo hi (fadd x y) :=
  within_mono _ _ _ _ _ (within_fadd a b c d x y hx hy) h1 h2

theorem within_fsub_to (a b c d lo hi : Int) (x y : Dbl) (hx : Within a b x)
    (hy : Within c d y) (h1 : lo ≤ a - d) (h2 : b - c ≤ hi) : Within lo hi (fsub x y) :=
  within_mono _ _ _ _ _ (within_fsub a b c d x y hx hy) h1 h2

theorem within_fmul_to (b d hi : Int) (x y : Dbl) (hx : Within 0 b x) (hy : Within 0 d y)
    (h : b * d ≤ hi) : Within 0 hi (fmul x y) :=
  within_mono _ _ _ _ _ (within_fmul b d x y hx hy) (le_refl _) h

theorem flt_iff (a b : Dbl) : flt a b = true ↔ a.num * 2 ^ b.exp < b.num * 2 ^ a.exp := by
  unfold flt
  simp

theorem within_clamp01 (r : Dbl) : Within 0 1 (clamp01 r) := by
  have h1 : flt (Dbl.ofInt 0) (Dbl.ofInt 1) = true := by decide
  have w0 : Within 0 1 (Dbl.ofInt 0) := by
    unfold Within Dbl.ofInt
    norm_num
  have w1 : Within 0 1 (Dbl.ofInt 1) := by
    unfold Within Dbl.ofInt
    norm_num
  unfold clamp01 fmax fmin
  by_cases ha : flt r (Dbl.ofInt 1) = true
  · rw [if_pos ha]
    by_cases hb : flt (Dbl.ofInt 0) r = true
    · rw [if_pos hb]
      rw [flt_iff] at ha hb
      simp only [Dbl.ofInt, pow_zero, mul_one, zero_mul, one_mul] at ha hb
      unfold Within
      constructor <;> linarith
    · rw [if_neg hb]
      exact w0
  · rw [if_neg ha, if_pos h1]
    exact w1

theorem truncInt_ge (d : Dbl) (K : Nat) (h : (K : Int) * 2 ^ d.exp ≤ d.num) :
    (K : Int) ≤ truncInt d := by
  have hp : (0 : Int) < 2 ^ d.exp := by positivity
  have h0 : 0 ≤ d.num := le_trans (mul_nonneg (Int.natCast_nonneg K) (le_of_lt hp)) h
  rw [truncInt_nonneg d h0]
  have : K * 2 ^ d.exp ≤ d.num.toNat := by
    have : ((K * 2 ^ d.exp : Nat) : Int) ≤ (d.num.toNat : Int) := by
      rw [Int.toNat_of_nonneg h0]
      push_cast
      exact h
    exact_mod_cast this
  have hq : K ≤ d.num.toNat / 2 ^ d.exp := (Nat.le_div_iff_mul_le (by positivity)).mpr this
  exact_mod_cast hq

/-- Clamping to `[0, 1]` and then scaling by 255, as the spec words it, gives the sample that
the code computes by scaling, truncating with `| 0` and then clamping to `0..255`. -/
theorem clamp_then_scale (r : Dbl) (h : Within (-3) 3 r) :
    clampByte (toInt32 (fmul r (Dbl.ofInt 255))) = truncScale (clamp01 r) := by
  have hw : Within (-((765 : Nat) : Int)) (765 : Nat) (fmul r (Dbl.ofInt 255)) :=
    within_mono _ _ _ _ _ (within_scale _ _ _ h) (by norm_num) (by norm_num)
  rw [toInt32_eq_truncInt _ 765 (by norm_num) hw]
  have hb := truncInt_bounds _ _ hw
  have h01 : flt (Dbl.ofInt 0) (Dbl.ofInt 1) = true := by decide
  have t0 : truncScale (Dbl.ofInt 0) = 0 := by decide
  have t1 : truncScale (Dbl.ofInt 1) = 255 := by decide
  by_cases ha : flt r (Dbl.ofInt 1) = true
  · by_cases hb0 : flt (Dbl.ofInt 0) r = true
    · have hc : clamp01 r = r := by
        unfold clamp01 fmax fmin
        rw [if_pos ha, if_pos hb0]
      rw [hc]
      rw [flt_iff] at ha hb0
      simp only [Dbl.ofInt, pow_zero, mul_one, zero_mul, one_mul] at ha hb0
      have hr : Within 0 1 r := by
        unfold Within
        constructor <;> linarith
      exact (clampByte_truncInt r hr).1
    · have hc : clamp01 r = Dbl.ofInt 0 := by
        unfold clamp01 fmax fmin
        rw [if_pos ha, if_neg hb0]
      rw [hc, t0]
      rw [flt_iff] at hb0
      simp only [Dbl.ofInt, pow_zero, mul_one, zero_mul] at hb0
      have hr : Within (-3) 0 r := by
        refine ⟨h.1, ?_⟩
        linarith
      have hs := (within_scale _ _ _ hr).2
      simp only [zero_mul] at hs
      have ht := truncInt_nonpos _ hs
      unfold clampByte
      rw [min_eq_right (by omega), max_eq_left ht]
      rfl
  · have hc : clamp01 r = Dbl.ofInt 1 := by
      unfold clamp01 fmax fmin
      rw [if_neg ha, if_pos h01]
    rw [hc, t1]
    rw [flt_iff] at ha
    simp only [Dbl.ofInt, pow_zero, mul_one, one_mul] at ha
    have hr : Within 1 3 r := by
      refine ⟨?_, h.2⟩
      linarith
    have hs := (within_scale _ _ _ hr).1
    have ht := truncInt_ge _ 255 (by simpa using hs)
    unfold clampByte
    rw [min_eq_left (by exact_mod_cast ht)]
    rfl

theorem within_blendChannel (mode : String) (a x1 x2 : Dbl) (ha : Within 0 1 a)
    (h1 : Within 0 1 x1) (h2 : Within 0 1 x2) : Within (-3) 3 (blendChannel mode a x1 x2) := by
  have one := within_ofInt 1
  have two := within_mono _ _ 0 2 _ (within_ofInt 2) (by norm_num) (by norm_num)
  have c1 : Within 0 1 (fsub (Dbl.ofInt 1) x1) :=
    within_fsub_to 1 1 0 1 0 1 _ _ one h1 (by norm_num) (by norm_num)
  have c2 : Within 0 1 (fsub (Dbl.ofInt 1) x2) :=
    within_fsub_to 1 1 0 1 0 1 _ _ one h2 (by norm_num) (by norm_num)
  have ca : Within 0 1 (fsub (Dbl.ofInt 1) a) :=
    within_fsub_to 1 1 0 1 0 1 _ _ one ha (by norm_num) (by norm_num)
  unfold blendChannel
  split_ifs
  · exact within_fadd_to 0 1 0 1 _ _ _ _ h1 h2 (by norm_num) (by norm_num)
  · exact within_mono _ _ _ _ _ (within_fmul_to 1 1 1 _ _ h1 h2 (by norm_num))
      (by norm_num) (by norm_num)
  · have m := within_fmul_to 1 1 1 _ _ c1 c2 (by norm_num)
    exact within_fsub_to 1 1 0 1 _ _ _ _ one m (by norm_num) (by norm_num)
  · unfold ov
    split_ifs
    · have m := within_fmul_to 2 1 2 _ _ two h1 (by norm_num)
      exact within_mono _ _ _ _ _ (within_fmul_to 2 1 2 _ _ m h2 (by norm_num))
        (by norm_num) (by norm_num)
    · have m := within_fmul_to 2 1 2 _ _ two c1 (by norm_num)
      have m2 := within_fmul_to 2 1 2 _ _ m c2 (by norm_num)
      exact within_fsub_to 1 1 0 2 _ _ _ _ one m2 (by norm_num) (by norm_num)
  · have m1 := within_fmul_to 1 1 1 _ _ h1 ca (by norm_num)
    have m2 := within_fmul_to 1 1 1 _ _ h2 ha (by norm_num)
    exact within_fadd_to 0 1 0 1 _ _ _ _ m1 m2 (by norm_num) (by norm_num)

theorem doubleBlend_eq (mode : String) (alpha x1 x2 : Dbl) :
    doubleBlend mode alpha x1 x2 = blendChannel mode (clamp01 alpha) x1 x2 := by
  unfold doubleBlend blendChannel ov
  split <;> simp_all

/-- The colour sample that the loop computes from two samples of at most 255 is the one the
spec words: formula, clamp to `[0, 1]`, scale. -/
theorem combineSample_spec (mode : String) (alpha : Dbl) (a b : Nat) (ha : a ≤ 255)
    (hb : b ≤ 255) :
    combineSample mode (clamp01 alpha) (some a) (some b) = doubleSample mode alpha a b ∧
    doubleSample mode alpha a b ≤ 255 := by
  have hr := within_blendChannel mode (clamp01 alpha) _ _ (within_clamp01 alpha)
    (within_sample a ha) (within_sample b hb)
  have e : combineSample mode (clamp01 alpha) (some a) (some b)
      = clampByte (toInt32 (fmul (blendChannel mode (clamp01 alpha)
          (fdiv (Dbl.ofInt a) (Dbl.ofInt 255)) (fdiv (Dbl.ofInt b) (Dbl.ofInt 255)))
          (Dbl.ofInt 255))) := rfl
  rw [e, clamp_then_scale _ hr]
  unfold doubleSample
  rw [doubleBlend_eq]
  exact ⟨rfl, (clampByte_truncInt _ (within_clamp01 _)).2⟩

/-! ## Evaluations at concrete inputs -/

set_option maxRecDepth 100000 in
theorem permTable_1337 : permTable 1337 = table1337 := by
  decide!

set_option maxRecDepth 100000 in
theorem noise2D_table1337_high :
    noise2D table1337 (Dbl.mk 119 1) (Dbl.mk 185 2) = Dbl.mk 4697663429672960 52 := by
  decide!

set_option maxRecDepth 100000 in
theorem noise2D_table1337_low :
    noise2D table1337 (Dbl.mk 1 2) (Dbl.mk 47 1) = Dbl.mk (-6210041673678848) 57 := by
  decide!

set_option maxRecDepth 100000 in
theorem octaveSum_table1337_high :
    octaveSum table1337 Dbl.fiftieth (Dbl.ofInt 1) 174 114 = Dbl.mk 4528704758190861 52 := by
  decide!

set_option maxRecDepth 100000 in
theorem noise2D_table1337_origin :
    noise2D table1337 (fmul (Dbl.ofInt 0) Dbl.fiftieth) (fmul (Dbl.ofInt 0) Dbl.fiftieth)
      = Dbl.mk 4503599627370496 53 := by
  decide!

set_option maxRecDepth 100000 in
theorem perlinPixel_table1337_origin :
    perlinPixel (fun v _ => v) table1337 Dbl.fiftieth (Dbl.ofInt 1) (Dbl.ofInt 1) 0 0
      = [127, 127, 127, 255] := by
  decide!

set_option maxRecDepth 100000 in
theorem roundScale_half : roundScale (Dbl.mk 4503599627370496 53) = 128 := by
  decide!

set_option maxRecDepth 100000 in
theorem combineBoth_whiteColumn :
    combineBoth "multiply" (Dbl.ofInt 1) whiteColumn whiteWithBlackDot
      = Raster.mk 1 2 [255, 255, 255, 255, 0, 0, 0, 255] := by
  decide!

set_option maxRecDepth 100000 in
theorem doubleSample_multiply_white : doubleSample "multiply" (Dbl.ofInt 1) 255 255 = 255 := by
  decide!

set_option maxRecDepth 100000 in
theorem singleLayer_table1337_pixel :
    singleLayer table1337 Dbl.fiftieth 3 5 = Dbl.mk 8785167278061091 54 := by
  decide!

set_option maxRecDepth 100000 in
theorem truncScale_pixel : truncScale (Dbl.mk 8785167278061091 54) = 124 := by
  decide!

/-- Witness of C12: for the seed 1337 and the scale 0.02 the noise at pixel `(3, 5)` is
`8785167278061091 / 2 ^ 54`, about 0.4877, inside `[0, 1]`; times 255 it is about 124.36,
and the pixel holds 124 in its three colour samples and 255 in its alpha sample. -/
theorem perlinPixel_single_octave_witness :
    flt Dbl.tenThousandth Dbl.fiftieth = true ∧
    singleLayer (permTable 1337) Dbl.fiftieth 3 5 = Dbl.mk 8785167278061091 54 ∧
    Within 0 1 (singleLayer (permTable 1337) Dbl.fiftieth 3 5) ∧
    truncScale (singleLayer (permTable 1337) Dbl.fiftieth 3 5) = 124 ∧
    perlinPixel (fun v _ => v) (permTable 1337) Dbl.fiftieth (Dbl.ofInt 1) (Dbl.ofInt 1) 3 5
      = [124, 124, 124, 255] := by
  have hs : singleLayer (permTable 1337) Dbl.fiftieth 3 5 = Dbl.mk 8785167278061091 54 := by
    rw [permTable_1337]
    exact singleLayer_table1337_pixel
  have hw : Within 0 1 (singleLayer (permTable 1337) Dbl.fiftieth 3 5) := by
    rw [hs]
    unfold Within
    decide
  have ht : truncScale (singleLayer (permTable 1337) Dbl.fiftieth 3 5) = 124 := by
    rw [hs]
    exact truncScale_pixel
  obtain ⟨h1, h2⟩ := perlinPixel_single_octave (fun v _ => v) 1337 Dbl.fiftieth 3 5
    (Or.inl (by decide))
  obtain ⟨h3, _⟩ := h2 hw
  rw [h3, ht] at h1
  exact ⟨by decide, hs, hw, ht, h1⟩

/-- C11 (the code at the failing input): with the default seed 1337, `noise2D(59.5, 46.25)`
is `8545 / 8192`, above 1, and `noise2D(0.25, 23.5)` is `-353 / 8192`, below 0; both points
are dyadic, so every operation on the way is exact. In the noise node with scale 0.02 and
one octave, the normalised sum of pixel `(174, 114)` is above 1 as well. -/
theorem noise2D_leaves_unit_interval :
    noise2D (permTable 1337) (Dbl.mk 119 1) (Dbl.mk 185 2) = Dbl.mk 4697663429672960 52 ∧
    flt (Dbl.ofInt 1) (Dbl.mk 4697663429672960 52) = true ∧
    noise2D (permTable 1337) (Dbl.mk 1 2) (Dbl.mk 47 1) = Dbl.mk (-6210041673678848) 57 ∧
    flt (Dbl.mk (-6210041673678848) 57) (Dbl.ofInt 0) = true ∧
    octaveSum (permTable 1337) Dbl.fiftieth (Dbl.ofInt 1) 174 114
      = Dbl.mk 4528704758190861 52 ∧
    flt (Dbl.ofInt 1) (Dbl.mk 4528704758190861 52) = true := by
  rw [permTable_1337]
  exact ⟨noise2D_table1337_high, by decide, noise2D_table1337_low, by decide,
    octaveSum_table1337_high, by decide⟩

/-- C12 (counterexample): for the seed 1337, scale 0.02, one octave and contrast 1, the pixel
`(0, 0)` holds 127 in its three colour samples, while `noise2D(0, 0)` is 0.5 and
`round(0.5 * 255)` is 128. -/
theorem perlinPixel_truncates :
    perlinPixel (fun v _ => v) (permTable 1337) Dbl.fiftieth (Dbl.ofInt 1) (Dbl.ofInt 1) 0 0
      = [127, 127, 127, 255] ∧
    noise2D (permTable 1337) (fmul (Dbl.ofInt 0) Dbl.fiftieth) (fmul (Dbl.ofInt 0) Dbl.fiftieth)
      = Dbl.mk 4503599627370496 53 ∧
    roundScale (Dbl.mk 4503599627370496 53) = 128 := by
  rw [permTable_1337]
  exact ⟨perlinPixel_table1337_origin, noise2D_table1337_origin, roundScale_half⟩

theorem exactScaled_white : exactScaled "multiply" 1 255 255 = 255 := by
  have e : exactBlend "multiply" 1 (((255 : Nat) : ℚ) / 255) (((255 : Nat) : ℚ) / 255)
      = ((255 : Nat) : ℚ) / 255 * (((255 : Nat) : ℚ) / 255) := rfl
  unfold exactScaled exactClamp
  rw [e]
  simp only [min_def, max_def]
  norm_num

/-- C15 (the code at the failing input): `A` is one pixel wide and two high, all white; `B`
is two by two, white but for the black pixel `(1, 0)`. Position `(0, 1)` lies in both and is
white in both, so multiply should give white there, in double and in exact arithmetic
alike; the output has the size of `A`, but its pixel `(0, 1)` is black, the product of
`A(0, 1)` with `B(1, 0)`. -/
theorem combineBoth_reads_wrong_pixel :
    combineBoth "multiply" (Dbl.ofInt 1) whiteColumn whiteWithBlackDot
      = Raster.mk 1 2 [255, 255, 255, 255, 0, 0, 0, 255] ∧
    whiteColumn.sample 0 1 0 = 255 ∧ whiteWithBlackDot.sample 0 1 0 = 255 ∧
    doubleSample "multiply" (Dbl.ofInt 1) 255 255 = 255 ∧
    exactScaled "multiply" 1 255 255 = 255 ∧
    (Raster.mk 1 2 [255, 255, 255, 255, 0, 0, 0, 255]).sample 0 1 0 = 0 :=
  ⟨combineBoth_whiteColumn, by decide, by decide, doubleSample_multiply_white,
    exactScaled_white, by decide⟩

/-! ## Claims C13 and C14 -/

theorem doubleSample_multiply (alpha : Dbl) (a b : Nat) :
    doubleSample "multiply" alpha a b
      = truncScale (clamp01 (fmul (fdiv (Dbl.ofInt a) (Dbl.ofInt 255))
          (fdiv (Dbl.ofInt b) (Dbl.ofInt 255)))) := rfl

set_option maxRecDepth 100000 in
theorem doubleSample_white_black (alpha : Dbl) : doubleSample "multiply" alpha 255 0 = 0 := by
  rw [doubleSample_multiply]
  decide!

theorem exactScaled_add : exactScaled "add" 1 1 32 = 33 := by
  have e : exactBlend "add" 1 (((1 : Nat) : ℚ) / 255) (((32 : Nat) : ℚ) / 255)
      = ((1 : Nat) : ℚ) / 255 + ((32 : Nat) : ℚ) / 255 := rfl
  unfold exactScaled exactClamp
  rw [e]
  simp only [min_def, max_def]
  norm_num

theorem exactScaled_multiply : exactScaled "multiply" 1 17 195 = 13 := by
  have e : exactBlend "multiply" 1 (((17 : Nat) : ℚ) / 255) (((195 : Nat) : ℚ) / 255)
      = ((17 : Nat) : ℚ) / 255 * (((195 : Nat) : ℚ) / 255) := rfl
  unfold exactScaled exactClamp
  rw [e]
  simp only [min_def, max_def]
  norm_num

theorem exactScaled_screen : exactScaled "screen" 1 0 1 = 1 := by
  have e : exactBlend "screen" 1 (((0 : Nat) : ℚ) / 255) (((1 : Nat) : ℚ) / 255)
      = 1 - (1 - ((0 : Nat) : ℚ) / 255) * (1 - ((1 : Nat) : ℚ) / 255) := rfl
  unfold exactScaled exactClamp
  rw [e]
  simp only [min_def, max_def]
  norm_num

set_option maxRecDepth 100000 in
theorem combineCompute_dimPixels :
    combineCompute "add" (Dbl.ofInt 1) (some dimPixelA) (some dimPixelB)
      = Raster.mk 1 1 [32, 211, 1, 255] ∧
    combineCompute "multiply" (Dbl.ofInt 1) (some dimPixelA) (some dimPixelB)
      = Raster.mk 1 1 [0, 12, 0, 255] ∧
    combineCompute "screen" (Dbl.ofInt 1) (some dimPixelA) (some dimPixelB)
      = Raster.mk 1 1 [32, 198, 0, 255] := by
  decide

/-- C13 (counterexample): with the formulas in exact arithmetic, as the claim writes them,
add of the samples 1 and 32 is `33 / 255`, which scales to 33; multiply of 17 and 195 is
`13 / 255`, which scales to 13; screen of 0 and 1 is `1 / 255`, which scales to 1. Each
scaled value is an integer, so no way of making it an 8-bit sample changes it. On two
rasters of one pixel holding these samples the code stores 32, 12 and 0: the quotients by
255 and every operation are rounded to doubles, and `| 0` drops the fraction of a product
that falls just below the integer. -/
theorem combineCompute_rounds_below :
    exactScaled "add" 1 1 32 = 33 ∧
    (combineCompute "add" (Dbl.ofInt 1) (some dimPixelA) (some dimPixelB)).sample 0 0 0 = 32 ∧
    exactScaled "multiply" 1 17 195 = 13 ∧
    (combineCompute "multiply" (Dbl.ofInt 1) (some dimPixelA) (some dimPixelB)).sample 0 0 1
      = 12 ∧
    exactScaled "screen" 1 0 1 = 1 ∧
    (combineCompute "screen" (Dbl.ofInt 1) (some dimPixelA) (some dimPixelB)).sample 0 0 2
      = 0 := by
  obtain ⟨h1, h2, h3⟩ := combineCompute_dimPixels
  rw [h1, h2, h3]
  exact ⟨exactScaled_add, by decide, exactScaled_multiply, by decide, exactScaled_screen,
    by decide⟩

/-- C13 (amended): for present inputs `A` and `B` of one size (well-formed image data: four
samples per pixel, each at most 255) and every mode, the output of `Combine.compute` has the
size of `A`; each colour sample is the formula of the mode evaluated in double arithmetic on
the doubles nearest to `a / 255` and `b / 255` of the same pixel and channel, clamped to
`[0, 1]` and multiplied by 255 with the fraction dropped (`doubleSample`), a value in
`0..255`; every alpha sample is 255; and multiply of an all-white `A` with an all-black `B`
is all-black. -/
theorem combineCompute_spec (mode : String) (alpha : Dbl) (A B : Raster)
    (hw : B.width = A.width) (hh : B.height = A.height)
    (hA : A.data.length = 4 * (A.width * A.height))
    (hB : B.data.length = 4 * (B.width * B.height))
    (hAs : ∀ v ∈ A.data, v ≤ 255) (hBs : ∀ v ∈ B.data, v ≤ 255) :
    (combineCompute mode alpha (some A) (some B)).width = A.width ∧
    (combineCompute mode alpha (some A) (some B)).height = A.height ∧
    (combineCompute mode alpha (some A) (some B)).data.length = 4 * (A.width * A.height) ∧
    (∀ x y c, x < A.width → y < A.height → c < 3 →
      (combineCompute mode alpha (some A) (some B)).sample x y c
          = doubleSample mode alpha (A.sample x y c) (B.sample x y c) ∧
        (combineCompute mode alpha (some A) (some B)).sample x y c ≤ 255) ∧
    (∀ x y, x < A.width → y < A.height →
      (combineCompute mode alpha (some A) (some B)).sample x y 3 = 255) ∧
    (mode = "multiply" →
      (∀ x y c, x < A.width → y < A.height → c < 3 →
        A.sample x y c = 255 ∧ B.sample x y c = 0) →
      ∀ x y c, x < A.width → y < A.height → c < 3 →
        (combineCompute mode alpha (some A) (some B)).sample x y c = 0) := by
  have hB2 : B.data.length = 4 * (A.width * A.height) := by rw [hB, hw, hh]
  have hA3 : ∀ x y c, x < A.width → y < A.height → c < 3 → A.sample x y c ≤ 255 :=
    fun x y c hx hy hc => hAs _ (sample_mem A x y c hA hx hy (by omega))
  have hB3 : ∀ x y c, x < A.width → y < A.height → c < 3 → B.sample x y c ≤ 255 :=
    fun x y c hx hy hc => hBs _ (sample_mem B x y c hB (by omega) (by omega) (by omega))
  have key : ∀ x y c, x < A.width → y < A.height → c < 3 →
      (combineCompute mode alpha (some A) (some B)).sample x y c
        = doubleSample mode alpha (A.sample x y c) (B.sample x y c) := by
    intro x y c hx hy hc
    have h1 := combineBoth_sample mode alpha A B x y c hw hA hB2 hx hy hc
    have h2 := (combineSample_spec mode alpha _ _ (hA3 x y c hx hy hc) (hB3 x y c hx hy hc)).1
    exact h1.trans h2
  refine ⟨rfl, rfl, combineBoth_length mode alpha A B, ?_, ?_, ?_⟩
  · intro x y c hx hy hc
    refine ⟨key x y c hx hy hc, ?_⟩
    rw [key x y c hx hy hc]
    exact (combineSample_spec mode alpha _ _ (hA3 x y c hx hy hc) (hB3 x y c hx hy hc)).2
  · intro x y hx hy
    exact combineBoth_alpha mode alpha A B x y hx hy
  · intro hm hwb x y c hx hy hc
    rw [key x y c hx hy hc, (hwb x y c hx hy hc).1, (hwb x y c hx hy hc).2, hm]
    exact doubleSample_white_black alpha

theorem white2x2_samples (al : Nat) (x y c : Nat) (hx : x < 2) (hy : y < 2) (hc : c < 3) :
    (white2x2 al).sample x y c = 255 := by
  interval_cases x <;> interval_cases y <;> interval_cases c <;> rfl

theorem black2x2_samples (al : Nat) (x y c : Nat) (hx : x < 2) (hy : y < 2) (hc : c < 3) :
    (black2x2 al).sample x y c = 0 := by
  interval_cases x <;> interval_cases y <;> interval_cases c <;> rfl

/-- Witness of C13: multiply of the all-white two by two raster with the all-black one, with
alpha 0.5 and input alphas 7 and 9, is all-black with alpha 255. -/
theorem combineCompute_spec_witness :
    (∀ x y c, x < 2 → y < 2 → c < 3 →
      (combineCompute "multiply" Dbl.half (some (white2x2 7)) (some (black2x2 9))).sample x y c
        = 0) ∧
    (∀ x y, x < 2 → y < 2 →
      (combineCompute "multiply" Dbl.half (some (white2x2 7)) (some (black2x2 9))).sample x y 3
        = 255) := by
  obtain ⟨_, _, _, _, halpha, hmul⟩ := combineCompute_spec "multiply" Dbl.half (white2x2 7)
    (black2x2 9) rfl rfl (by decide) (by decide) (by decide) (by decide)
  exact ⟨hmul rfl (fun x y c hx hy hc =>
    ⟨white2x2_samples 7 x y c hx hy hc, black2x2_samples 9 x y c hx hy hc⟩), halpha⟩

theorem fmul_one_scaled (d : Dbl) (hd : Canon d) : fmul d (Dbl.mk (2 ^ 52) 52) = d := by
  have h := roundInt_canon_scale d hd 52
  unfold fmul
  simp only [← pow_add]
  rw [add_comm d.exp 52]
  exact h

set_option maxRecDepth 1000000 in
theorem sample_roundtrip : ∀ v < 256,
    clampByte (toInt32 (fmul (fdiv (Dbl.ofInt (v : Nat)) (Dbl.ofInt 255)) (Dbl.ofInt 255))) = v := by
  decide!

theorem blendChannel_blend (a x1 x2 : Dbl) :
    blendChannel "blend" a x1 x2 = fadd (fmul x1 (fsub (Dbl.ofInt 1) a)) (fmul x2 a) := rfl

theorem fdiv_sample_canon (v : Nat) : Canon (fdiv (Dbl.ofInt v) (Dbl.ofInt 255)) := by
  unfold fdiv
  exact roundInt_canon _ _ (by simp [Dbl.ofInt])

theorem combineSample_blend_zero (a b : Nat) (ha : a ≤ 255) :
    combineSample "blend" (clamp01 (Dbl.ofInt 0)) (some a) (some b) = a := by
  have hc : clamp01 (Dbl.ofInt 0) = Dbl.ofInt 0 := by decide
  have h1 : fsub (Dbl.ofInt 1) (Dbl.ofInt 0) = Dbl.mk (2 ^ 52) 52 := by decide
  have e : combineSample "blend" (clamp01 (Dbl.ofInt 0)) (some a) (some b)
      = clampByte (toInt32 (fmul (blendChannel "blend" (clamp01 (Dbl.ofInt 0))
          (fdiv (Dbl.ofInt a) (Dbl.ofInt 255)) (fdiv (Dbl.ofInt b) (Dbl.ofInt 255)))
          (Dbl.ofInt 255))) := rfl
  rw [e, hc, blendChannel_blend, h1, fmul_one_scaled _ (fdiv_sample_canon a), fmul_zero_right,
    fadd_zero_right _ (fdiv_sample_canon a)]
  exact sample_roundtrip a (by omega)

theorem combineSample_blend_one (a b : Nat) (hb : b ≤ 255) :
    combineSample "blend" (clamp01 (Dbl.ofInt 1)) (some a) (some b) = b := by
  have hc : clamp01 (Dbl.ofInt 1) = Dbl.ofInt 1 := by decide
  have h1 : fsub (Dbl.ofInt 1) (Dbl.ofInt 1) = Dbl.ofInt 0 := by decide
  have e : combineSample "blend" (clamp01 (Dbl.ofInt 1)) (some a) (some b)
      = clampByte (toInt32 (fmul (blendChannel "blend" (clamp01 (Dbl.ofInt 1))
          (fdiv (Dbl.ofInt a) (Dbl.ofInt 255)) (fdiv (Dbl.ofInt b) (Dbl.ofInt 255)))
          (Dbl.ofInt 255))) := rfl
  rw [e, hc, blendChannel_blend, h1, fmul_zero_right, fmul_one _ (fdiv_sample_canon b),
    fadd_zero_left _ (fdiv_sample_canon b)]
  exact sample_roundtrip b (by omega)

/-- C14: for present inputs `A` and `B` of one size (well-formed image data) and the mode
blend, with alpha 0 every red, green and blue sample of the output is the sample of `A` at
the same place, with alpha 1 it is the sample of `B`, and the alpha samples of the output
are 255. -/
theorem combineCompute_blend_endpoints (A B : Raster)
    (hw : B.width = A.width) (hh : B.height = A.height)
    (hA : A.data.length = 4 * (A.width * A.height))
    (hB : B.data.length = 4 * (B.width * B.height))
    (hAs : ∀ v ∈ A.data, v ≤ 255) (hBs : ∀ v ∈ B.data, v ≤ 255) :
    (∀ x y c, x < A.width → y < A.height → c < 3 →
      (combineCompute "blend" (Dbl.ofInt 0) (some A) (some B)).sample x y c
        = A.sample x y c) ∧
    (∀ x y c, x < A.width → y < A.height → c < 3 →
      (combineCompute "blend" (Dbl.ofInt 1) (some A) (some B)).sample x y c
        = B.sample x y c) ∧
    (∀ x y, x < A.width → y < A.height →
      (combineCompute "blend" (Dbl.ofInt 0) (some A) (some B)).sample x y 3 = 255 ∧
      (combineCompute "blend" (Dbl.ofInt 1) (some A) (some B)).sample x y 3 = 255) := by
  have hB2 : B.data.length = 4 * (A.width * A.height) := by rw [hB, hw, hh]
  refine ⟨?_, ?_, ?_⟩
  · intro x y c hx hy hc
    have h1 := combineBoth_sample "blend" (Dbl.ofInt 0) A B x y c hw hA hB2 hx hy hc
    exact h1.trans (combineSample_blend_zero _ _
      (hAs _ (sample_mem A x y c hA hx hy (by omega))))
  · intro x y c hx hy hc
    have h1 := combineBoth_sample "blend" (Dbl.ofInt 1) A B x y c hw hA hB2 hx hy hc
    exact h1.trans (combineSample_blend_one _ _
      (hBs _ (sample_mem B x y c hB (by omega) (by omega) (by omega))))
  · intro x y hx hy
    exact ⟨combineBoth_alpha "blend" (Dbl.ofInt 0) A B x y hx hy,
      combineBoth_alpha "blend" (Dbl.ofInt 1) A B x y hx hy⟩

/-- Witness of C14: on two rasters of two pixels, the blue sample of the second pixel is 128
(from `A`) with alpha 0 and 201 (from `B`) with alpha 1. -/
theorem combineCompute_blend_endpoints_witness :
    (combineCompute "blend" (Dbl.ofInt 0) (some rasterA) (some rasterB)).sample 1 0 2 = 128 ∧
    (combineCompute "blend" (Dbl.ofInt 1) (some rasterA) (some rasterB)).sample 1 0 2 = 201 :=
  ⟨(combineCompute_blend_endpoints rasterA rasterB rfl rfl (by decide) (by decide) (by decide)
      (by decide)).1 1 0 2 (by decide) (by decide) (by decide),
   (combineCompute_blend_endpoints rasterA rasterB rfl rfl (by decide) (by decide) (by decide)
      (by decide)).2.1 1 0 2 (by decide) (by decide) (by decide)⟩

end NodeStudio
